import Mathlib

/-!
libProfiler: call-path aggregation engine

A shallow embedding of `src/libProfiler.h` (the `USE_PROFILER` /
`LIB_PROFILER_IMPLEMENTATION` part) and theorems about it.

Modelling conventions

* C strings (`char[1024]`, `const char *`, `std::string`) are `List Char`.
* The character arrays `szBunchCodeName[1024]`, `textLine[1024]`,
  `szThreadId[16]` and the `tmps[1024]` of `LOG` hold a text of fewer characters
  than their size, the terminating zero taking one place; writing a longer text
  overruns the array, which is undefined behaviour.  The definitions whose name
  ends in `_bounded` are the functions with these arrays.  The definitions of
  the same name without the suffix are what the functions do when no array is
  overrun.
* `double` times are exact rationals `ℚ`.
* `startHighResolutionTimer()` is an external clock: every call of
  `Zprofiler_start` / `Zprofiler_end` receives the reading it obtains as the
  argument `now`.
* `GetCurrentThreadId()` is external as well: the calling thread's identifier
  is the argument `ulThreadId` (an `unsigned long`, a natural number).
* `unsigned long nbCalls` is a natural number (the counter does not wrap in
  any run shorter than `2^32` calls).
* `std::map` is an association list with unique keys kept in ascending key
  order, which is the order in which a `std::map` is iterated.
* Every call runs atomically.  `Zprofiler_start` and `Zprofiler_end` describe the
  calls once `Zprofiler_enable` has created the critical section; the pointer
  `gProfilerCriticalSection` itself is part of `Process`, on which
  `Zprofiler_enable` and `Zprofiler_disable` act.  Calls of several threads are a
  list of calls, each with the identifier of its thread (`runEvents`).
* `std::sort` is a parameter of `LogProfiler`: the library is not part of the
  source.  A report is a list of blocks of lines; the conversions `%12.4f` and
  `%6d` of `sprintf` are modelled as texts (`fieldF`, `fieldD`) for the number
  of characters they write to `textLine` and `tmps`.
* Undefined behaviour is the result `none`.
-/

namespace LibProfiler

/-! ## `std::map` -/

/-- The member `find` of `std::map`: the value stored under `k`, if any. -/
def mapFind {K V : Type} [DecidableEq K] (k : K) : List (K × V) → Option V
  | [] => none
  | (k', v') :: rest => if k = k' then some v' else mapFind k rest

/-- The member `insert` of `std::map`: a pair whose key is already present is
not inserted; a new pair goes to its place in ascending key order. -/
def mapInsert {K V : Type} [DecidableEq K] [LT K] [DecidableRel (α := K) (· < ·)]
    (k : K) (v : V) : List (K × V) → List (K × V)
  | [] => [(k, v)]
  | (k', v') :: rest =>
    if k = k' then (k', v') :: rest
    else if k < k' then (k, v) :: (k', v') :: rest
    else (k', v') :: mapInsert k v rest

/-- Assignment through an iterator obtained from `find`: the value stored under
the (present) key `k` is replaced by `v`. -/
def mapSet {K V : Type} [DecidableEq K] (k : K) (v : V) : List (K × V) → List (K × V)
  | [] => []
  | (k', v') :: rest => if k = k' then (k', v) :: rest else (k', v') :: mapSet k v rest

/-! ## Data model -/

/-- The record `tdstGenProfilerData`. -/
structure tdstGenProfilerData where
  totalTime : ℚ
  averageTime : ℚ
  minTime : ℚ
  maxTime : ℚ
  lastTime : ℚ
  elapsedTime : ℚ
  nbCalls : Nat
  szBunchCodeName : List Char
  deriving DecidableEq

/-- The call stack `tdCallStackType`, a `std::vector`: `push_back` appends at
the end of the list, `pop_back` drops the last element. -/
abbrev tdCallStackType := List tdstGenProfilerData

/-- The global state of the profiler, plus the text handed to
`LIB_PROFILER_PRINTF` so far. -/
structure ProfilerState where
  mapProfilerGraph : List (List Char × tdstGenProfilerData)
  mapCallsByThread : List (Nat × tdCallStackType)
  output : List String
  deriving DecidableEq

/-- The state at program start: both global maps are empty. -/
def initialState : ProfilerState :=
  { mapProfilerGraph := [], mapCallsByThread := [], output := [] }

/-! ## Key construction -/

/-- The macro `_NAME_SEPARATOR_`. -/
def NAME_SEPARATOR : List Char := ['|']

/-- The macro `_THREADID_NAME_SEPARATOR_`. -/
def THREADID_NAME_SEPARATOR : List Char := ['@']

/-- The cast `(int)ulThreadId`: the identifier reduced modulo `2^32` and read
as a two's complement 32-bit integer. -/
def toInt32 (ulThreadId : Nat) : Int :=
  if ulThreadId % 2 ^ 32 < 2 ^ 31 then ((ulThreadId % 2 ^ 32 : Nat) : Int)
  else ((ulThreadId % 2 ^ 32 : Nat) : Int) - 2 ^ 32

/-- The decimal digit `d` as a character. -/
def digitChar (d : Nat) : Char := Char.ofNat (48 + d)

/-- The conversion `%d` of `sprintf` for a natural number: its decimal digits,
most significant first, `0` for zero. -/
def decimalNat (n : Nat) : List Char :=
  if n = 0 then ['0'] else ((Nat.digits 10 n).map digitChar).reverse

/-- The conversion `%d` of `sprintf`. -/
def decimalInt (i : Int) : List Char :=
  if i < 0 then '-' :: decimalNat i.natAbs else decimalNat i.natAbs

/-- The text `"%s%d%s"` put before the name of a first frame in
`Zprofiler_start`: separator, thread identifier as `int`, `@`. -/
def threadMarker (ulThreadId : Nat) : List Char :=
  NAME_SEPARATOR ++ decimalInt (toInt32 ulThreadId) ++ THREADID_NAME_SEPARATOR

/-! ## `Zprofiler_start` and `Zprofiler_end` -/

/-- The local `GenProfilerData` of `Zprofiler_start` after the `memset` and the
two assignments, before the name is built. -/
def freshData (now : ℚ) : tdstGenProfilerData :=
  { totalTime := 0, averageTime := 0, minTime := 0xFFFFFFFF, maxTime := 0,
    lastTime := now, elapsedTime := 0, nbCalls := 0, szBunchCodeName := [] }

/-- The function `Zprofiler_start`, called by thread `ulThreadId` when the clock
reads `now`: what the call does when the key it builds fits the array
`szBunchCodeName[1024]`.  `Zprofiler_start_bounded` is the function with the
array. -/
def Zprofiler_start (profile_name : List Char) (now : ℚ) (ulThreadId : Nat)
    (s : ProfilerState) : ProfilerState :=
  let GenProfilerData := freshData now
  -- find or add the call stack
  let calls :=
    match mapFind ulThreadId s.mapCallsByThread with
    | none => mapInsert ulThreadId ([] : tdCallStackType) s.mapCallsByThread
    | some _ => s.mapCallsByThread
  let stack : tdCallStackType := (mapFind ulThreadId calls).getD []
  match stack.getLast? with
  | none =>
    -- first element of the vector
    let G := { GenProfilerData with
                nbCalls := 1
                szBunchCodeName := threadMarker ulThreadId ++ profile_name }
    { s with mapCallsByThread := mapSet ulThreadId (stack ++ [G]) calls }
  | some previous =>
    let G := { GenProfilerData with
                nbCalls := GenProfilerData.nbCalls + 1
                szBunchCodeName :=
                  previous.szBunchCodeName ++ NAME_SEPARATOR ++ profile_name }
    { s with mapCallsByThread := mapSet ulThreadId (stack ++ [G]) calls }

/-- The diagnostic of `Zprofiler_end`. -/
def endDiagnostic : String := "Il y a une erreur dans le vecteur CallStack !!!\n\n"

/-- The update of `mapProfilerGraph` in `Zprofiler_end` (from `find` to the end
of the `if`/`else`), for the local `GenProfilerData` whose elapsed and total
time have been computed. -/
def mergeIntoGraph (GenProfilerData : tdstGenProfilerData)
    (graph : List (List Char × tdstGenProfilerData)) :
    List (List Char × tdstGenProfilerData) :=
  match mapFind GenProfilerData.szBunchCodeName graph with
  | some entry =>
    let e1 := { entry with nbCalls := entry.nbCalls + 1 }
    let minTime := e1.minTime
    let maxTime := e1.maxTime
    let e2 := if GenProfilerData.elapsedTime < minTime
              then { e1 with minTime := GenProfilerData.elapsedTime } else e1
    let e3 := if GenProfilerData.elapsedTime > maxTime
              then { e2 with maxTime := GenProfilerData.elapsedTime } else e2
    let e4 := { e3 with totalTime := e3.totalTime + GenProfilerData.elapsedTime }
    let e5 := { e4 with averageTime := e4.totalTime / e4.nbCalls }
    mapSet GenProfilerData.szBunchCodeName e5 graph
  | none =>
    let G1 := { GenProfilerData with
                 minTime := GenProfilerData.elapsedTime
                 maxTime := GenProfilerData.elapsedTime }
    let G2 := { G1 with averageTime := G1.totalTime / G1.nbCalls }
    mapInsert G2.szBunchCodeName G2 graph

/-- The function `Zprofiler_end`, called by thread `ulThreadId` when the clock
reads `now`.  When `mapCallsByThread` holds no stack for the thread, `find`
returns `end()` and the function dereferences it: undefined behaviour, `none`. -/
def Zprofiler_end (now : ℚ) (ulThreadId : Nat) (s : ProfilerState) :
    Option ProfilerState :=
  match mapFind ulThreadId s.mapCallsByThread with
  | none => none
  | some stack =>
    match stack.getLast? with
    | none => some { s with output := s.output ++ [endDiagnostic] }
    | some top =>
      let G1 := { top with elapsedTime := top.elapsedTime + (now - top.lastTime) }
      let G2 := { G1 with totalTime := G1.totalTime + G1.elapsedTime }
      some { s with
              mapProfilerGraph := mergeIntoGraph G2 s.mapProfilerGraph
              mapCallsByThread := mapSet ulThreadId stack.dropLast s.mapCallsByThread }

/-! ## Observations and call sequences -/

/-- The call stack of a thread: the vector stored under its identifier, the
empty vector when there is none. -/
def stackOf (ulThreadId : Nat) (s : ProfilerState) : tdCallStackType :=
  (mapFind ulThreadId s.mapCallsByThread).getD []

/-- The path key of the frame on top of a thread's stack. -/
def topKey (ulThreadId : Nat) (s : ProfilerState) : Option (List Char) :=
  (stackOf ulThreadId s).getLast?.map (fun f => f.szBunchCodeName)

/-- One call of the profiler interface together with the clock reading it
obtains. -/
inductive Call where
  | start (name : List Char) (now : ℚ)
  | stop (now : ℚ)
  deriving DecidableEq

/-- A sequence of calls made by thread `ulThreadId`, in order; `none` as soon as
one call has undefined behaviour. -/
def runCalls (ulThreadId : Nat) : List Call → ProfilerState → Option ProfilerState
  | [], s => some s
  | Call.start name now :: rest, s =>
    runCalls ulThreadId rest (Zprofiler_start name now ulThreadId s)
  | Call.stop now :: rest, s =>
    (Zprofiler_end now ulThreadId s).bind (runCalls ulThreadId rest)

/-- Well-nestedness of a call sequence entered with `depth` frames open: no
`stop` arrives when no frame is open. -/
def wellNestedFrom : Nat → List Call → Bool
  | _, [] => true
  | depth, Call.start _ _ :: rest => wellNestedFrom (depth + 1) rest
  | 0, Call.stop _ :: _ => false
  | depth + 1, Call.stop _ :: rest => wellNestedFrom depth rest

/-- A well-nested sequence of `start`/`end` calls. -/
def WellNested (calls : List Call) : Prop := wellNestedFrom 0 calls = true

instance (calls : List Call) : Decidable (WellNested calls) := by
  unfold WellNested; infer_instance

/-- A closed region: the chain of names from the outermost open region down to
the region itself, the clock reading of its `start` and that of its `end`. -/
structure ClosedFrame where
  chain : List (List Char)
  startTime : ℚ
  endTime : ℚ
  deriving DecidableEq

/-- The regions closed by a call sequence, in the order of their `end` calls,
by the bracket discipline alone: `opened` lists the open regions (name and start
reading), outermost first; every `stop` closes the innermost open region. -/
def closedFrom : List (List Char × ℚ) → List Call → List ClosedFrame
  | _, [] => []
  | opened, Call.start name now :: rest => closedFrom (opened ++ [(name, now)]) rest
  | opened, Call.stop now :: rest =>
    match opened.getLast? with
    | none => closedFrom opened rest
    | some (_, t0) =>
      { chain := opened.map Prod.fst, startTime := t0, endTime := now }
        :: closedFrom opened.dropLast rest

/-- The composite path key of a chain of region names on a thread: the thread
marker, then the names separated by `|`. -/
def pathKey (ulThreadId : Nat) (chain : List (List Char)) : List Char :=
  threadMarker ulThreadId ++ NAME_SEPARATOR.intercalate chain

/-- The elapsed times of the regions a call sequence closes under path key `k`,
in the order of their `end` calls. -/
def samplesOf (ulThreadId : Nat) (k : List Char) (calls : List Call) : List ℚ :=
  ((closedFrom [] calls).filter (fun c => pathKey ulThreadId c.chain = k)).map
    (fun c => c.endTime - c.startTime)

/-- The path keys of the regions a call sequence closes, in the order of their
`end` calls. -/
def closedKeys (ulThreadId : Nat) (calls : List Call) : List (List Char) :=
  (closedFrom [] calls).map (fun c => pathKey ulThreadId c.chain)

/-- The states reachable from the initial state by calls of `Zprofiler_start`
and `Zprofiler_end` of any threads at any clock readings. -/
inductive Reachable : ProfilerState → Prop
  | init : Reachable initialState
  | start (name : List Char) (now : ℚ) (t : Nat) {s : ProfilerState} :
      Reachable s → Reachable (Zprofiler_start name now t s)
  | stop (now : ℚ) (t : Nat) {s s' : ProfilerState} :
      Reachable s → Zprofiler_end now t s = some s' → Reachable s'

/-! ## The reference aggregator of the specification -/

/-- The statistics `Stat` of the specification. -/
structure Stat where
  callCount : Nat
  totalTime : ℚ
  minTime : ℚ
  maxTime : ℚ
  averageTime : ℚ
  deriving DecidableEq

/-- The statistics held by a graph entry. -/
def statOf (d : tdstGenProfilerData) : Stat :=
  { callCount := d.nbCalls, totalTime := d.totalTime, minTime := d.minTime,
    maxTime := d.maxTime, averageTime := d.averageTime }

/-- The statistics the reference `record` stores for a key after a sample of
`elapsedMs`, from the statistics stored before (`none` when the key is absent). -/
def recordStat : Option Stat → ℚ → Stat
  | none, elapsedMs =>
    { callCount := 1, totalTime := elapsedMs, minTime := elapsedMs,
      maxTime := elapsedMs, averageTime := elapsedMs }
  | some st, elapsedMs =>
    { callCount := st.callCount + 1
      totalTime := st.totalTime + elapsedMs
      minTime := min st.minTime elapsedMs
      maxTime := max st.maxTime elapsedMs
      averageTime := (st.totalTime + elapsedMs) / ((st.callCount + 1 : Nat) : ℚ) }

/-- The reference `record(pathKey, elapsedMs)` of the specification, on a graph
seen as a partial function from path keys to statistics. -/
def record (pathKey : List Char) (elapsedMs : ℚ) (graph : List Char → Option Stat) :
    List Char → Option Stat :=
  fun k => if k = pathKey then some (recordStat (graph pathKey) elapsedMs) else graph k

/-- The graph seen as a partial function from path keys to statistics. -/
def statView (graph : List (List Char × tdstGenProfilerData)) : List Char → Option Stat :=
  fun k => (mapFind k graph).map statOf

/-- The frame `Zprofiler_start` pushes on a stack. -/
def pushedFrame (name : List Char) (now : ℚ) (t : Nat) (stack : tdCallStackType) :
    tdstGenProfilerData :=
  { totalTime := 0, averageTime := 0, minTime := 0xFFFFFFFF, maxTime := 0,
    lastTime := now, elapsedTime := 0, nbCalls := 1,
    szBunchCodeName :=
      match stack.getLast? with
      | none => threadMarker t ++ name
      | some previous => previous.szBunchCodeName ++ NAME_SEPARATOR ++ name }

/-- The local `GenProfilerData` of `Zprofiler_end` once elapsed and total time
are computed. -/
def endedData (now : ℚ) (top : tdstGenProfilerData) : tdstGenProfilerData :=
  { top with
    elapsedTime := top.elapsedTime + (now - top.lastTime)
    totalTime := top.totalTime + (top.elapsedTime + (now - top.lastTime)) }

/-- The entry stored under the key of `GenProfilerData` after the update of
`mapProfilerGraph` in `Zprofiler_end`, as a function of the entry found there
before. -/
def mergedEntry (GenProfilerData : tdstGenProfilerData) :
    Option tdstGenProfilerData → tdstGenProfilerData
  | none =>
    { GenProfilerData with
      minTime := GenProfilerData.elapsedTime
      maxTime := GenProfilerData.elapsedTime
      averageTime := GenProfilerData.totalTime / GenProfilerData.nbCalls }
  | some entry =>
    { entry with
      nbCalls := entry.nbCalls + 1
      minTime := if GenProfilerData.elapsedTime < entry.minTime
                 then GenProfilerData.elapsedTime else entry.minTime
      maxTime := if GenProfilerData.elapsedTime > entry.maxTime
                 then GenProfilerData.elapsedTime else entry.maxTime
      totalTime := entry.totalTime + GenProfilerData.elapsedTime
      averageTime := (entry.totalTime + GenProfilerData.elapsedTime)
                       / ((entry.nbCalls + 1 : Nat) : ℚ) }

/-- A frame as `Zprofiler_start` leaves it on a stack: no time accumulated yet
and a call count of one. -/
def FreshFrame (f : tdstGenProfilerData) : Prop :=
  f.totalTime = 0 ∧ f.elapsedTime = 0 ∧ f.nbCalls = 1

/-- A sample ready to be merged: the local `GenProfilerData` of `Zprofiler_end`
for a frame left by `Zprofiler_start`. -/
def SampleData (d : tdstGenProfilerData) : Prop :=
  d.totalTime = d.elapsedTime ∧ d.nbCalls = 1

/-- The stack `Zprofiler_start` builds on an empty stack of thread `t` for the
open regions `opened` (name and start reading, outermost first). -/
def framesOf (t : Nat) (opened : List (List Char × ℚ)) : tdCallStackType :=
  opened.foldl (fun st p => st ++ [pushedFrame p.1 p.2 t st]) []

/-- The local `GenProfilerData` that `Zprofiler_end` merges for a closed region:
elapsed time the end reading minus the start reading, under the path key of the
region's chain. -/
def closedData (t : Nat) (c : ClosedFrame) : tdstGenProfilerData :=
  { totalTime := c.endTime - c.startTime, averageTime := 0, minTime := 0xFFFFFFFF,
    maxTime := 0, lastTime := c.startTime, elapsedTime := c.endTime - c.startTime,
    nbCalls := 1, szBunchCodeName := pathKey t c.chain }

/-- The statistics the reference `record` holds for one key after the samples
of a list have been recorded under it in order, starting from an absent key. -/
def aggregate (samples : List ℚ) : Option Stat :=
  samples.foldl (fun acc e => some (recordStat acc e)) none

/-- The calls of `main` in `src/main.cpp`, with the clock readings of the sample
output in the header: `Main` takes 79 ms, the two `myFunction` 38 and 41 ms. -/
def mainCalls : List Call :=
  [Call.start "Main".toList 0, Call.start "myFunction".toList 0, Call.stop 38,
   Call.start "myFunction".toList 38, Call.stop 79, Call.stop 79]

/-- The scenario of the specification: `A` started at reading 0, `B` started
inside it at reading 0 and ended at 10, `A` ended at 15. -/
def scenarioCalls : List Call :=
  [Call.start "A".toList 0, Call.start "B".toList 0, Call.stop 10, Call.stop 15]

/-- The invariant of a graph entry: at least one call, the average is the total
divided by the number of calls, and the total lies between the number of calls
times the minimum and the number of calls times the maximum. -/
def GoodEntry (d : tdstGenProfilerData) : Prop :=
  1 ≤ d.nbCalls ∧ d.averageTime = d.totalTime / (d.nbCalls : ℚ) ∧
    (d.nbCalls : ℚ) * d.minTime ≤ d.totalTime ∧ d.totalTime ≤ (d.nbCalls : ℚ) * d.maxTime

/-- Nested calls of `Zprofiler_start` by thread `t`, one per element of `chain`
(name and clock reading), outermost first. -/
def startAll (t : Nat) (chain : List (List Char × ℚ)) (s : ProfilerState) : ProfilerState :=
  chain.foldl (fun s p => Zprofiler_start p.1 p.2 t s) s

/-- The state after `Main` has been started at reading 0 on thread 0. -/
def startedMain : ProfilerState := Zprofiler_start "Main".toList 0 0 initialState

/-- The state after `Main` has then been ended at reading 79. -/
def endedMain : ProfilerState :=
  { startedMain with
    mapProfilerGraph :=
      mergeIntoGraph (endedData 79 (pushedFrame "Main".toList 0 0 [])) startedMain.mapProfilerGraph
    mapCallsByThread := mapSet 0 [] startedMain.mapCallsByThread }

/-- The key of a first frame as the claim words it: separator, the thread
identifier itself in decimal, `@`, name. -/
def claimedFirstKey (ulThreadId : Nat) (name : List Char) : List Char :=
  ['|'] ++ decimalNat ulThreadId ++ ['@'] ++ name

/-- The test `strstr(haystack, needle) != NULL`: `needle` occurs somewhere in
`haystack`. -/
def strstr (haystack needle : List Char) : Bool :=
  haystack.tails.any (fun t => needle.isPrefixOf t)

/-- The expression `strrchr(s, c) + 1`: the text after the last occurrence of `c`
in `s`; `none` when `c` does not occur (`strrchr` returns the null pointer). -/
def afterLast (c : Char) : List Char → Option (List Char)
  | [] => none
  | x :: xs =>
    match afterLast c xs with
    | some r => some r
    | none => if x = c then some xs else none

/-- The text copied to `szThreadId` in the loop that fills `ThreadIdsCount`: with
`size` the index of the first `@` of the name, the `size - 1` characters that
follow the first character.  `none` when the name has no `@` (`strstr` returns
the null pointer) or starts with `@` (`strncpy` is given the length `-1`). -/
def threadIdText (szBunchCodeName : List Char) : Option (List Char) :=
  if '@' ∈ szBunchCodeName then
    if szBunchCodeName.indexOf '@' = 0 then none
    else some ((szBunchCodeName.drop 1).take (szBunchCodeName.indexOf '@' - 1))
  else none

/-- The statement `ThreadIdsCount[szThreadId]++` on the `std::map<std::string, int>`. -/
def countThreadId (szThreadId : List Char) (ThreadIdsCount : List (List Char × Int)) :
    List (List Char × Int) :=
  match mapFind szThreadId ThreadIdsCount with
  | some n => mapSet szThreadId (n + 1) ThreadIdsCount
  | none => mapInsert szThreadId 1 ThreadIdsCount

/-- The loop "Create a map with thread Ids" over the sorted vector. -/
def collectThreadIds : List tdstGenProfilerData → List (List Char × Int) →
    Option (List (List Char × Int))
  | [], ThreadIdsCount => some ThreadIdsCount
  | e :: rest, ThreadIdsCount =>
    match threadIdText e.szBunchCodeName with
    | none => none
    | some szThreadId => collectThreadIds rest (countThreadId szThreadId ThreadIdsCount)

/-- The function `MyDataSortPredicate`.  Both operands of its `>` are the arrays
`szBunchCodeName` of the by-value parameters `un` and `deux`; arrays decay to
pointers, so the comparison is between the addresses of the two parameter
objects and never looks at the text of the names.  `unAbove` tells whether the
object `un` lies at the higher address. -/
def MyDataSortPredicate (unAbove : Bool) (_un _deux : tdstGenProfilerData) : Bool :=
  unAbove

/-- One line of a report: the four times, the call count as printed by `%d` after
the cast to `int`, the number of two-space indentation units (none in the flat
report) and the section name.  `key` is not printed: it records the key (path
key in the hierarchical report, key of `mapCalls` in the flat one) of the entry
the line is printed for. -/
structure ReportLine where
  totalTime : ℚ
  averageTime : ℚ
  minTime : ℚ
  maxTime : ℚ
  nbCalls : Int
  indent : Nat
  name : List Char
  key : List Char
  deriving DecidableEq

/-- One block of a report: the thread identifier of its heading and its lines. -/
structure ThreadBlock where
  szThreadId : List Char
  lines : List ReportLine
  deriving DecidableEq

/-- The output of `LogProfiler`: the `CALLSTACK` blocks, then the `DUMP` blocks;
`dump` is `none` when a line of the flat report has no determined text.  The
fixed heading lines are left out, and the numbers are kept as numbers. -/
structure Report where
  callstack : List ThreadBlock
  dump : Option (List ThreadBlock)
  deriving DecidableEq

/-- The update of `mapCalls` for one entry of the sorted vector whose last name
segment is `leaf`, inside the block of thread `szThreadId`. -/
def mergeIntoCalls (szThreadId leaf : List Char) (e : tdstGenProfilerData)
    (mapCalls : List (List Char × tdstGenProfilerData)) :
    List (List Char × tdstGenProfilerData) :=
  match mapFind leaf mapCalls with
  | some m =>
    let minTime := m.minTime
    let maxTime := m.maxTime
    let m1 := if e.minTime < minTime then { m with minTime := e.minTime } else m
    let m2 := if e.maxTime > maxTime then { m1 with maxTime := e.maxTime } else m1
    let m3 := { m2 with totalTime := m2.totalTime + e.totalTime }
    let m4 := { m3 with nbCalls := m3.nbCalls + e.nbCalls }
    let m5 := { m4 with averageTime := m4.totalTime / m4.nbCalls }
    mapSet leaf m5 mapCalls
  | none =>
    let tgt : tdstGenProfilerData :=
      { szBunchCodeName :=
          if strstr leaf szThreadId then leaf
          else szThreadId ++ THREADID_NAME_SEPARATOR ++ leaf
        minTime := e.minTime
        maxTime := e.maxTime
        totalTime := e.totalTime
        averageTime := e.averageTime
        elapsedTime := e.elapsedTime
        lastTime := e.lastTime
        nbCalls := e.nbCalls }
    mapInsert leaf tgt mapCalls

/-- The body of the inner loop of the `CALLSTACK` part for one entry of the
sorted vector: `acc` holds `mapCalls` and the lines printed so far in the block
of `szThreadId`.  `none` when the name has no `|` (`strrchr` returns the null
pointer).  Skipping `strlen(szThreadId)+1` characters past the end of the name
leaves the empty text: the name arrays of the vector are zero-filled by the
`memset` of `Zprofiler_start`.  This is what the body does when it overruns
neither `textLine[1024]` nor the `tmps[1024]` of `LOG` nor a name array;
`logEntry_bounded` is the body with the arrays. -/
def logEntry (szThreadId : List Char)
    (acc : List (List Char × tdstGenProfilerData) × List ReportLine)
    (e : tdstGenProfilerData) :
    Option (List (List Char × tdstGenProfilerData) × List ReportLine) :=
  let tmpString := e.szBunchCodeName.drop 1
  if strstr tmpString szThreadId then
    let nbSeparator := tmpString.count '|'
    match afterLast '|' e.szBunchCodeName with
    | none => none
    | some leaf =>
      let mapCalls := mergeIntoCalls szThreadId leaf e acc.1
      let shown :=
        if strstr leaf THREADID_NAME_SEPARATOR then leaf.drop (szThreadId.length + 1)
        else leaf
      some (mapCalls,
        acc.2 ++ [{ totalTime := e.totalTime, averageTime := e.averageTime,
                    minTime := e.minTime, maxTime := e.maxTime,
                    nbCalls := toInt32 e.nbCalls, indent := nbSeparator,
                    name := shown, key := e.szBunchCodeName }])
  else some acc

/-- The inner loop of the `CALLSTACK` part over the sorted vector. -/
def logEntries (szThreadId : List Char) :
    List tdstGenProfilerData →
    List (List Char × tdstGenProfilerData) × List ReportLine →
    Option (List (List Char × tdstGenProfilerData) × List ReportLine)
  | [], acc => some acc
  | e :: rest, acc => (logEntry szThreadId acc e).bind (logEntries szThreadId rest)

/-- The outer loop of the `CALLSTACK` part over the thread identifiers of
`ThreadIdsCount`, in ascending order: `mapCalls` is carried from one block to
the next. -/
def logThreads (tmpCallStack : List tdstGenProfilerData) :
    List (List Char) → List (List Char × tdstGenProfilerData) →
    Option (List (List Char × tdstGenProfilerData) × List ThreadBlock)
  | [], mapCalls => some (mapCalls, [])
  | szThreadId :: rest, mapCalls =>
    match logEntries szThreadId tmpCallStack (mapCalls, []) with
    | none => none
    | some (mapCalls1, lines) =>
      match logThreads tmpCallStack rest mapCalls1 with
      | none => none
      | some (mapCalls2, blocks) =>
        some (mapCalls2, { szThreadId := szThreadId, lines := lines } :: blocks)

/-- The inner loop of the `DUMP` part for thread `szThreadId` over `mapCalls`,
when it overruns no array.  The local `tgt` from which an entry of `mapCalls` is
copied is not initialised, so the characters after the end of its name are
indeterminate: a line that skips `strlen(szThreadId)+1` characters past the end
of the name has no determined text, and the result is `none`.
`dumpLines_bounded` keeps such a line, with the name `none`. -/
def dumpLines (szThreadId : List Char) :
    List (List Char × tdstGenProfilerData) → Option (List ReportLine)
  | [] => some []
  | (k, m) :: rest =>
    if strstr m.szBunchCodeName szThreadId then
      if szThreadId.length + 1 ≤ m.szBunchCodeName.length then
        (dumpLines szThreadId rest).map (fun lines =>
          { totalTime := m.totalTime, averageTime := m.averageTime,
            minTime := m.minTime, maxTime := m.maxTime,
            nbCalls := toInt32 m.nbCalls, indent := 0,
            name := m.szBunchCodeName.drop (szThreadId.length + 1), key := k } :: lines)
      else none
    else dumpLines szThreadId rest

/-- The outer loop of the `DUMP` part over the thread identifiers. -/
def dumpThreads (mapCalls : List (List Char × tdstGenProfilerData)) :
    List (List Char) → Option (List ThreadBlock)
  | [] => some []
  | szThreadId :: rest =>
    match dumpLines szThreadId mapCalls with
    | none => none
    | some lines =>
      (dumpThreads mapCalls rest).map (fun blocks =>
        { szThreadId := szThreadId, lines := lines } :: blocks)

/-- The graph after the first loop of `LogProfiler`, which copies every key into
the name of its entry. -/
def namedGraph (graph : List (List Char × tdstGenProfilerData)) :
    List (List Char × tdstGenProfilerData) :=
  graph.map (fun p => (p.1, { p.2 with szBunchCodeName := p.1 }))

/-- The vector `tmpCallStack` after the call of `std::sort` with
`MyDataSortPredicate`.  `stdSort` is the library function: `MyDataSortPredicate`
compares addresses and not names, so what the call does to the order of the
vector is fixed by the library and the placement of the parameters, not by the
keys. -/
def sortedCallStack
    (stdSort : (tdstGenProfilerData → tdstGenProfilerData → Bool) →
      List tdstGenProfilerData → List tdstGenProfilerData)
    (unAbove : Bool) (s : ProfilerState) : List tdstGenProfilerData :=
  stdSort (MyDataSortPredicate unAbove) ((namedGraph s.mapProfilerGraph).map Prod.snd)

/-- The function `LogProfiler` when it overruns none of its arrays.  `none` when
the loops that fill `ThreadIdsCount` or print the `CALLSTACK` blocks have
undefined behaviour for another reason.  `LogProfiler_bounded` is the function
with the arrays. -/
def LogProfiler
    (stdSort : (tdstGenProfilerData → tdstGenProfilerData → Bool) →
      List tdstGenProfilerData → List tdstGenProfilerData)
    (unAbove : Bool) (s : ProfilerState) : Option (ProfilerState × Report) :=
  let tmpCallStack := sortedCallStack stdSort unAbove s
  match collectThreadIds tmpCallStack [] with
  | none => none
  | some ThreadIdsCount =>
    match logThreads tmpCallStack (ThreadIdsCount.map Prod.fst) [] with
    | none => none
    | some (mapCalls, callstack) =>
      some ({ s with mapProfilerGraph := namedGraph s.mapProfilerGraph },
            { callstack := callstack
              dump := dumpThreads mapCalls (ThreadIdsCount.map Prod.fst) })

/-- A `std::sort` that moves nothing: what the library's insertion sort does to a
short vector when the predicate answers `false` throughout. -/
def sortKeeps (_ : tdstGenProfilerData → tdstGenProfilerData → Bool)
    (l : List tdstGenProfilerData) : List tdstGenProfilerData := l

/-- A stand-in for `std::sort` that reverses the vector.  It is not what a
library sort is known to do with `MyDataSortPredicate`; it serves only as a
second order of the entries, to show that a result does not depend on the order
in which `LogProfiler` iterates over them. -/
def sortReverses (_ : tdstGenProfilerData → tdstGenProfilerData → Bool)
    (l : List tdstGenProfilerData) : List tdstGenProfilerData := l.reverse

/-! ## The critical section -/

/-- The process: the profiler state and the global pointer
`gProfilerCriticalSection`, of which only whether it points to an initialised
critical section is recorded. -/
structure Process where
  state : ProfilerState
  gProfilerCriticalSection : Bool
  deriving DecidableEq

/-- The process at program start: empty maps and a null
`gProfilerCriticalSection` (a zero-initialised global). -/
def initialProcess : Process :=
  { state := initialState, gProfilerCriticalSection := false }

/-- The function `Zprofiler_enable`: it creates the critical section; the
statements that clear the maps are commented out in the source. -/
def Zprofiler_enable (p : Process) : Process :=
  { p with gProfilerCriticalSection := true }

/-- The function `LockCriticalSection` applied to `gProfilerCriticalSection`:
locking through a pointer that does not point to an initialised critical section
is undefined behaviour, `none`. -/
def LockCriticalSection (p : Process) : Option Unit :=
  if p.gProfilerCriticalSection then some () else none

/-- The function `Zprofiler_start` with the critical section it locks on entry. -/
def startCall (profile_name : List Char) (now : ℚ) (ulThreadId : Nat) (p : Process) :
    Option Process :=
  (LockCriticalSection p).map
    (fun _ => { p with state := Zprofiler_start profile_name now ulThreadId p.state })

/-- The function `Zprofiler_end` with the critical section: it is locked only
after the test of the empty stack. -/
def endCall (now : ℚ) (ulThreadId : Nat) (p : Process) : Option Process :=
  match mapFind ulThreadId p.state.mapCallsByThread with
  | none => none
  | some stack =>
    if stack.isEmpty then
      (Zprofiler_end now ulThreadId p.state).map (fun s => { p with state := s })
    else
      (LockCriticalSection p).bind
        (fun _ => (Zprofiler_end now ulThreadId p.state).map (fun s => { p with state := s }))

/-- The function `LogProfiler` in a process: it takes no lock. -/
def logCall
    (stdSort : (tdstGenProfilerData → tdstGenProfilerData → Bool) →
      List tdstGenProfilerData → List tdstGenProfilerData)
    (unAbove : Bool) (p : Process) : Option (Process × Report) :=
  (LogProfiler stdSort unAbove p.state).map (fun r => ({ p with state := r.1 }, r.2))

/-- The line `logEntry` prints for an entry `e` of the sorted vector in the block
of thread `szThreadId`, when the name of `e` contains a `|`. -/
def hierLine (szThreadId : List Char) (e : tdstGenProfilerData) : ReportLine :=
  { totalTime := e.totalTime, averageTime := e.averageTime,
    minTime := e.minTime, maxTime := e.maxTime,
    nbCalls := toInt32 e.nbCalls, indent := (e.szBunchCodeName.drop 1).count '|',
    name :=
      if strstr ((afterLast '|' e.szBunchCodeName).getD []) THREADID_NAME_SEPARATOR
      then ((afterLast '|' e.szBunchCodeName).getD []).drop (szThreadId.length + 1)
      else (afterLast '|' e.szBunchCodeName).getD []
    key := e.szBunchCodeName }

/-- The map `mapCalls` after the entries of a list have been merged into it in
the block of thread `szThreadId`, each under its last name segment. -/
def callsAfter (szThreadId : List Char) (l : List tdstGenProfilerData)
    (mapCalls : List (List Char × tdstGenProfilerData)) :
    List (List Char × tdstGenProfilerData) :=
  l.foldl (fun mc e =>
    mergeIntoCalls szThreadId ((afterLast '|' e.szBunchCodeName).getD []) e mc) mapCalls

/-- The name of an entry starts with the marker of thread `t`. -/
def MarkedBy (t : Nat) (e : tdstGenProfilerData) : Prop :=
  ∃ rest, e.szBunchCodeName = threadMarker t ++ rest

/-- The lines of the hierarchical report as pairs (path key, indentation,
printed name), block by block, with the thread identifier of each block. -/
def callstackView (r : Report) : List (List Char × List (List Char × Nat × List Char)) :=
  r.callstack.map (fun b => (b.szThreadId, b.lines.map (fun l => (l.key, l.indent, l.name))))

/-- The lines of the flat report as pairs (key of `mapCalls`, printed name), block
by block, with the thread identifier of each block; `none` when printing the flat
report has undefined behaviour. -/
def dumpView (r : Report) : Option (List (List Char × List (List Char × List Char))) :=
  r.dump.map (fun blocks =>
    blocks.map (fun b => (b.szThreadId, b.lines.map (fun l => (l.key, l.name)))))

/-- The report `LogProfiler` prints after thread `t` has made the calls `calls`
from the initial state. -/
def reportAfter
    (stdSort : (tdstGenProfilerData → tdstGenProfilerData → Bool) →
      List tdstGenProfilerData → List tdstGenProfilerData)
    (unAbove : Bool) (t : Nat) (calls : List Call) : Option Report :=
  ((runCalls t calls initialState).bind (LogProfiler stdSort unAbove)).map Prod.snd

/-- A region `A` started inside a region `A`. -/
def nestedSameCalls : List Call :=
  [Call.start "A".toList 0, Call.start "A".toList 1, Call.stop 2, Call.stop 4]

/-- A nested region `f0`, whose name contains the decimal text of thread 0. -/
def digitNameCalls : List Call :=
  [Call.start "A".toList 0, Call.start "f0".toList 1, Call.stop 2, Call.stop 4]

/-- The siblings `b` and then `a` inside `M`. -/
def siblingCalls : List Call :=
  [Call.start "M".toList 0, Call.start "b".toList 1, Call.stop 2,
   Call.start "a".toList 3, Call.stop 4, Call.stop 5]

/-- The calls of thread 4 in the two-thread example: one region `A` of 2 ms. -/
def threadFourCalls : List Call := [Call.start "A".toList 0, Call.stop 2]

/-- The calls of thread 24 in the two-thread example: one region `A` of 1 ms. -/
def threadTwentyFourCalls : List Call := [Call.start "A".toList 0, Call.stop 1]

/-- The graph left by thread 4 and then thread 24 in the two-thread example. -/
def twoThreadGraph : List (List Char × tdstGenProfilerData) :=
  mergeIntoGraph
    { totalTime := 1 - 0, averageTime := 0, minTime := 0xFFFFFFFF, maxTime := 0,
      lastTime := 0, elapsedTime := 1 - 0, nbCalls := 1, szBunchCodeName := "|24@A".toList }
    (mergeIntoGraph
      { totalTime := 2 - 0, averageTime := 0, minTime := 0xFFFFFFFF, maxTime := 0,
        lastTime := 0, elapsedTime := 2 - 0, nbCalls := 1, szBunchCodeName := "|4@A".toList }
      [])

/-- The report `LogProfiler` prints for a graph: it reads no other part of the
state. -/
def reportOfGraph
    (stdSort : (tdstGenProfilerData → tdstGenProfilerData → Bool) →
      List tdstGenProfilerData → List tdstGenProfilerData)
    (unAbove : Bool) (graph : List (List Char × tdstGenProfilerData)) : Option Report :=
  (LogProfiler stdSort unAbove { initialState with mapProfilerGraph := graph }).map Prod.snd

/-! ## `Zprofiler_disable` -/

/-- The map `mapCalls` of `LogProfiler` once the `CALLSTACK` part has been
printed: the per-leaf aggregation from which the `DUMP` part is printed. -/
def leafMap
    (stdSort : (tdstGenProfilerData → tdstGenProfilerData → Bool) →
      List tdstGenProfilerData → List tdstGenProfilerData)
    (unAbove : Bool) (s : ProfilerState) : Option (List (List Char × tdstGenProfilerData)) :=
  let tmpCallStack := sortedCallStack stdSort unAbove s
  match collectThreadIds tmpCallStack [] with
  | none => none
  | some ThreadIdsCount =>
    (logThreads tmpCallStack (ThreadIdsCount.map Prod.fst) []).map Prod.fst

/-- The entries of a graph whose path key has `leaf` as its last name segment
(the text after the last `|`). -/
def entriesEndingIn (leaf : List Char) (graph : List (List Char × tdstGenProfilerData)) :
    List tdstGenProfilerData :=
  (graph.filter (fun p => afterLast '|' p.1 = some leaf)).map Prod.snd

/-- The entry `mergeIntoCalls` leaves under the key `leaf`, as a function of the
entry found there before. -/
def mergedLeaf (szThreadId leaf : List Char) (e : tdstGenProfilerData) :
    Option tdstGenProfilerData → tdstGenProfilerData
  | none =>
    { szBunchCodeName :=
        if strstr leaf szThreadId then leaf
        else szThreadId ++ THREADID_NAME_SEPARATOR ++ leaf
      minTime := e.minTime
      maxTime := e.maxTime
      totalTime := e.totalTime
      averageTime := e.averageTime
      elapsedTime := e.elapsedTime
      lastTime := e.lastTime
      nbCalls := e.nbCalls }
  | some m =>
    { m with
      minTime := if e.minTime < m.minTime then e.minTime else m.minTime
      maxTime := if e.maxTime > m.maxTime then e.maxTime else m.maxTime
      totalTime := m.totalTime + e.totalTime
      nbCalls := m.nbCalls + e.nbCalls
      averageTime := (m.totalTime + e.totalTime) / ((m.nbCalls + e.nbCalls : Nat) : ℚ) }

/-- The region `C` reached through `M`, `A` and through `M`, `B`. -/
def sharedLeafCalls : List Call :=
  [Call.start "M".toList 0, Call.start "A".toList 1, Call.start "C".toList 2, Call.stop 5,
   Call.stop 6, Call.start "B".toList 7, Call.start "C".toList 8, Call.stop 9, Call.stop 10,
   Call.stop 12]

/-- A region named `0`, the decimal text of the identifier of thread 0, nested in
a region `A`. -/
def identifierNameCalls : List Call :=
  [Call.start "A".toList 0, Call.start "0".toList 1, Call.stop 2, Call.stop 4]

/-! ## Calls of several threads -/

/-- Writing a text and its terminating zero to an array of `size` characters, as
`sprintf`, `strcpy`, `strcat` and `vsprintf` do without looking at the size of
their destination: the text when it fits, and `none`, an overrun of the array and
so undefined behaviour, when it does not.  One `char` is one element of the
list. -/
@[irreducible]
def writeArray (size : Nat) (text : List Char) : Option (List Char) :=
  if text.length < size then some text else none

/-- The function `Zprofiler_start` with the array `szBunchCodeName[1024]` of its
local `GenProfilerData`: the key is written there by `sprintf` (first frame of a
stack) or by `strcpy` and two calls of `strcat` (nested frame).  When the key and
its terminating zero fit, the maps are updated as `Zprofiler_start` describes;
when they do not, the array is overrun: undefined behaviour, `none`. -/
def Zprofiler_start_bounded (profile_name : List Char) (now : ℚ) (ulThreadId : Nat)
    (s : ProfilerState) : Option ProfilerState :=
  let calls :=
    match mapFind ulThreadId s.mapCallsByThread with
    | none => mapInsert ulThreadId ([] : tdCallStackType) s.mapCallsByThread
    | some _ => s.mapCallsByThread
  let stack : tdCallStackType := (mapFind ulThreadId calls).getD []
  let written :=
    match stack.getLast? with
    | none => writeArray 1024 (threadMarker ulThreadId ++ profile_name)
    | some previous =>
      (writeArray 1024 previous.szBunchCodeName).bind (fun name =>
        (writeArray 1024 (name ++ NAME_SEPARATOR)).bind (fun name =>
          writeArray 1024 (name ++ profile_name)))
  written.map (fun _ => Zprofiler_start profile_name now ulThreadId s)

/-- A sequence of calls made by thread `ulThreadId`, in order, with the array
`szBunchCodeName[1024]` of `Zprofiler_start`; `none` as soon as one call has
undefined behaviour. -/
def runCalls_bounded (ulThreadId : Nat) : List Call → ProfilerState → Option ProfilerState
  | [], s => some s
  | Call.start name now :: rest, s =>
    (Zprofiler_start_bounded name now ulThreadId s).bind (runCalls_bounded ulThreadId rest)
  | Call.stop now :: rest, s =>
    (Zprofiler_end now ulThreadId s).bind (runCalls_bounded ulThreadId rest)

/-- Nested calls of `Zprofiler_start` by thread `t`, one per element of `chain`
(name and clock reading), outermost first, with the array `szBunchCodeName[1024]`;
`none` as soon as one call overruns it. -/
def startAll_bounded (t : Nat) : List (List Char × ℚ) → ProfilerState → Option ProfilerState
  | [], s => some s
  | p :: rest, s => (Zprofiler_start_bounded p.1 p.2 t s).bind (startAll_bounded t rest)

/-- The number of characters a call adds to the key on top of the stack of its
thread, at most: the separator and the name for a `start`, none for an `end`. -/
def Call.growth : Call → Nat
  | Call.start name _ => name.length + 1
  | Call.stop _ => 0

/-- A conversion padded with spaces on the left to a minimum field width. -/
def padLeft (width : Nat) (text : List Char) : List Char :=
  List.replicate (width - text.length) ' ' ++ text

/-- The conversion `%.4f` of a time, an exact rational: a minus sign for a
negative value, the decimal digits of the integer part, the point and four
decimals, for the value rounded to the nearest multiple of `1/10000`. -/
def fixedPoint (v : ℚ) : List Char :=
  let n : Nat := (⌊|v| * 10000 + 1 / 2⌋).toNat
  (if v < 0 then ['-'] else []) ++ decimalNat (n / 10000) ++
    ['.', digitChar (n / 1000 % 10), digitChar (n / 100 % 10), digitChar (n / 10 % 10),
      digitChar (n % 10)]

/-- The conversion `%12.4f`. -/
def fieldF (v : ℚ) : List Char := padLeft 12 (fixedPoint v)

/-- The conversion `%6d`. -/
def fieldD (i : Int) : List Char := padLeft 6 (decimalInt i)

/-- The character `\n`. -/
def newline : Char := Char.ofNat 10

/-- The text `sprintf` writes to `textLine` for an entry of the sorted vector, with
the format `"| %12.4f | %12.4f | %12.4f | %12.4f |%6d  | "`. -/
def callstackColumns (e : tdstGenProfilerData) : List Char :=
  ['|', ' '] ++ fieldF e.totalTime ++ [' ', '|', ' '] ++ fieldF e.averageTime
    ++ [' ', '|', ' '] ++ fieldF e.minTime ++ [' ', '|', ' '] ++ fieldF e.maxTime
    ++ [' ', '|'] ++ fieldD (toInt32 e.nbCalls) ++ [' ', ' ', '|', ' ']

/-- The text of a `DUMP` line before the section name, with the format
`"| %12.4f | %12.4f | %12.4f | %12.4f | %6d | "`. -/
def dumpColumns (m : tdstGenProfilerData) : List Char :=
  ['|', ' '] ++ fieldF m.totalTime ++ [' ', '|', ' '] ++ fieldF m.averageTime
    ++ [' ', '|', ' '] ++ fieldF m.minTime ++ [' ', '|', ' '] ++ fieldF m.maxTime
    ++ [' ', '|', ' '] ++ fieldD (toInt32 m.nbCalls) ++ [' ', '|', ' ']

/-- The loop `for(i=0;i<nbSeparator;i++) strcat(textLine, "  ")` on the array
`textLine[1024]`: `none` as soon as one `strcat` overruns it. -/
def indentLine : Nat → List Char → Option (List Char)
  | 0, textLine => some textLine
  | nbSeparator + 1, textLine =>
    (writeArray 1024 (textLine ++ [' ', ' '])).bind (indentLine nbSeparator)

/-- The function `LOG`: the line is formatted by `vsprintf` into the static array
`tmps[1024]` and handed to `LIB_PROFILER_PRINTF`. -/
def LOG (line : List Char) : Option (List Char) := writeArray 1024 line

/-- The text copied to `szThreadId` in the loop that fills `ThreadIdsCount`, with
the array `szThreadId[16]`: `strncpy` writes `size - 1` characters and the
assignment that follows writes the terminating zero. -/
def threadIdText_bounded (szBunchCodeName : List Char) : Option (List Char) :=
  (threadIdText szBunchCodeName).bind (writeArray 16)

/-- The loop "Create a map with thread Ids" over the sorted vector, with the
array `szThreadId[16]`. -/
def collectThreadIds_bounded : List tdstGenProfilerData → List (List Char × Int) →
    Option (List (List Char × Int))
  | [], ThreadIdsCount => some ThreadIdsCount
  | e :: rest, ThreadIdsCount =>
    match threadIdText_bounded e.szBunchCodeName with
    | none => none
    | some szThreadId =>
      collectThreadIds_bounded rest (countThreadId szThreadId ThreadIdsCount)

/-- The name given to the local `tgt` when a leaf is first stored in `mapCalls`:
the leaf itself (`strcpy`) when it contains the text of the thread identifier,
the leaf after the identifier and `@` (`sprintf`) when it does not. -/
def leafName (szThreadId leaf : List Char) : List Char :=
  if strstr leaf szThreadId then leaf else szThreadId ++ THREADID_NAME_SEPARATOR ++ leaf

/-- The write of the name of the local `tgt` into its array `szBunchCodeName[1024]`,
which happens when the leaf is not yet a key of `mapCalls`. -/
def tgtName (szThreadId leaf : List Char)
    (mapCalls : List (List Char × tdstGenProfilerData)) : Option (List Char) :=
  match mapFind leaf mapCalls with
  | some m => some m.szBunchCodeName
  | none => writeArray 1024 (leafName szThreadId leaf)

/-- The section name printed on a `CALLSTACK` line: `tmpString` points to the last
name segment `leaf` inside the array that holds the name of the entry, and is
moved `strlen(szThreadId)+1` characters on when the segment contains `@`.  Past
the end of the name the array holds zeros (it was filled by the `memset` of
`Zprofiler_start`), so the empty text is printed; past the end of the array the
read is undefined, `none`. -/
def shownName (szThreadId szBunchCodeName leaf : List Char) : Option (List Char) :=
  if strstr leaf THREADID_NAME_SEPARATOR then
    if szBunchCodeName.length - leaf.length + (szThreadId.length + 1) < 1024
    then some (leaf.drop (szThreadId.length + 1)) else none
  else some leaf

/-- The body of the inner loop of the `CALLSTACK` part for one entry of the sorted
vector, with the arrays it writes: `textLine[1024]` (the `sprintf` of the columns
and one `strcat` per `|` of the name), the name `szBunchCodeName[1024]` of the
local `tgt`, and `tmps[1024]` of `LOG`.  `none` when the name has no `|` or when
an array is overrun. -/
def logEntry_bounded (szThreadId : List Char)
    (acc : List (List Char × tdstGenProfilerData) × List ReportLine)
    (e : tdstGenProfilerData) :
    Option (List (List Char × tdstGenProfilerData) × List ReportLine) :=
  let tmpString := e.szBunchCodeName.drop 1
  if strstr tmpString szThreadId then
    let nbSeparator := tmpString.count '|'
    match writeArray 1024 (callstackColumns e) with
    | none => none
    | some textLine =>
      match afterLast '|' e.szBunchCodeName with
      | none => none
      | some leaf =>
        match tgtName szThreadId leaf acc.1 with
        | none => none
        | some _ =>
          match indentLine nbSeparator textLine with
          | none => none
          | some textLine =>
            match shownName szThreadId e.szBunchCodeName leaf with
            | none => none
            | some shown =>
              match LOG (textLine ++ shown ++ [newline]) with
              | none => none
              | some _ =>
                some (mergeIntoCalls szThreadId leaf e acc.1,
                  acc.2 ++ [{ totalTime := e.totalTime, averageTime := e.averageTime,
                              minTime := e.minTime, maxTime := e.maxTime,
                              nbCalls := toInt32 e.nbCalls, indent := nbSeparator,
                              name := shown, key := e.szBunchCodeName }])
  else some acc

/-- The inner loop of the `CALLSTACK` part over the sorted vector, with the
arrays. -/
def logEntries_bounded (szThreadId : List Char) :
    List tdstGenProfilerData →
    List (List Char × tdstGenProfilerData) × List ReportLine →
    Option (List (List Char × tdstGenProfilerData) × List ReportLine)
  | [], acc => some acc
  | e :: rest, acc =>
    (logEntry_bounded szThreadId acc e).bind (logEntries_bounded szThreadId rest)

/-- The outer loop of the `CALLSTACK` part over the thread identifiers of
`ThreadIdsCount`, with the arrays.  Each identifier was stored in `szThreadId[16]`
before it became a key of `ThreadIdsCount`, so the `sprintf` that copies it back
overruns nothing. -/
def logThreads_bounded (tmpCallStack : List tdstGenProfilerData) :
    List (List Char) → List (List Char × tdstGenProfilerData) →
    Option (List (List Char × tdstGenProfilerData) × List ThreadBlock)
  | [], mapCalls => some (mapCalls, [])
  | szThreadId :: rest, mapCalls =>
    match logEntries_bounded szThreadId tmpCallStack (mapCalls, []) with
    | none => none
    | some (mapCalls1, lines) =>
      match logThreads_bounded tmpCallStack rest mapCalls1 with
      | none => none
      | some (mapCalls2, blocks) =>
        some (mapCalls2, { szThreadId := szThreadId, lines := lines } :: blocks)

/-- One line of the flat report: the four times, the call count as printed by
`%d` after the cast to `int`, and the section name.  The name is `none` when the
line prints the characters found after the end of the stored name: the local
`tgt` from which the entry of `mapCalls` was copied is not initialised, so the
program does not determine them.  `key` is not printed: it is the key of the
entry in `mapCalls`. -/
structure FlatLine where
  totalTime : ℚ
  averageTime : ℚ
  minTime : ℚ
  maxTime : ℚ
  nbCalls : Int
  name : Option (List Char)
  key : List Char
  deriving DecidableEq

/-- One block of the flat report: the thread identifier of its heading and its
lines. -/
structure FlatBlock where
  szThreadId : List Char
  lines : List FlatLine
  deriving DecidableEq

/-- The output of `LogProfiler` line by line: the `CALLSTACK` blocks, then the
`DUMP` blocks. -/
structure PrintedReport where
  callstack : List ThreadBlock
  dump : List FlatBlock
  deriving DecidableEq

/-- The section name printed on a `DUMP` line, the text that starts
`strlen(szThreadId)+1` characters into the name stored in `mapCalls`: the rest of
the name, and `none` when that is past the end of the name, where the array holds
what the uninitialised local `tgt` held. -/
def dumpName (szThreadId : List Char) (m : tdstGenProfilerData) : Option (List Char) :=
  if szThreadId.length + 1 ≤ m.szBunchCodeName.length
  then some (m.szBunchCodeName.drop (szThreadId.length + 1)) else none

/-- The inner loop of the `DUMP` part for thread `szThreadId` over `mapCalls`, with
the array `tmps[1024]` of `LOG`.  A line whose name is read from after the end of
the stored name is printed with characters the program does not determine; of
such a line only the columns are known to be written to `tmps`. -/
def dumpLines_bounded (szThreadId : List Char) :
    List (List Char × tdstGenProfilerData) → Option (List FlatLine)
  | [] => some []
  | (k, m) :: rest =>
    if strstr m.szBunchCodeName szThreadId then
      match LOG (dumpColumns m ++ (dumpName szThreadId m).getD [] ++ [newline]) with
      | none => none
      | some _ =>
        (dumpLines_bounded szThreadId rest).map (fun lines =>
          { totalTime := m.totalTime, averageTime := m.averageTime,
            minTime := m.minTime, maxTime := m.maxTime,
            nbCalls := toInt32 m.nbCalls, name := dumpName szThreadId m, key := k } :: lines)
    else dumpLines_bounded szThreadId rest

/-- The outer loop of the `DUMP` part over the thread identifiers, with the
array of `LOG`. -/
def dumpThreads_bounded (mapCalls : List (List Char × tdstGenProfilerData)) :
    List (List Char) → Option (List FlatBlock)
  | [] => some []
  | szThreadId :: rest =>
    match dumpLines_bounded szThreadId mapCalls with
    | none => none
    | some lines =>
      (dumpThreads_bounded mapCalls rest).map (fun blocks =>
        { szThreadId := szThreadId, lines := lines } :: blocks)

/-- The first loop of `LogProfiler`, which copies every key with `strcpy` into the
array `szBunchCodeName[1024]` of its entry: `none` when a key does not fit. -/
def namedGraph_bounded (graph : List (List Char × tdstGenProfilerData)) :
    Option (List (List Char × tdstGenProfilerData)) :=
  if ∀ p ∈ graph, p.1.length < 1024 then some (namedGraph graph) else none

/-- The function `LogProfiler` with the arrays it writes: the names
`szBunchCodeName[1024]`, `szThreadId[16]`, `textLine[1024]` and the `tmps[1024]` of
`LOG`.  `none` when the call has undefined behaviour: an array is overrun, or a
name has no `@` or no `|` where the code looks for one. -/
def LogProfiler_bounded
    (stdSort : (tdstGenProfilerData → tdstGenProfilerData → Bool) →
      List tdstGenProfilerData → List tdstGenProfilerData)
    (unAbove : Bool) (s : ProfilerState) : Option (ProfilerState × PrintedReport) :=
  match namedGraph_bounded s.mapProfilerGraph with
  | none => none
  | some graph =>
    let tmpCallStack := stdSort (MyDataSortPredicate unAbove) (graph.map Prod.snd)
    match collectThreadIds_bounded tmpCallStack [] with
    | none => none
    | some ThreadIdsCount =>
      match logThreads_bounded tmpCallStack (ThreadIdsCount.map Prod.fst) [] with
      | none => none
      | some (mapCalls, callstack) =>
        match dumpThreads_bounded mapCalls (ThreadIdsCount.map Prod.fst) with
        | none => none
        | some dump =>
          some ({ s with mapProfilerGraph := graph },
                { callstack := callstack, dump := dump })

/-- The map `mapCalls` of `LogProfiler` once the `CALLSTACK` part has been printed
without overrunning an array. -/
def leafMap_bounded
    (stdSort : (tdstGenProfilerData → tdstGenProfilerData → Bool) →
      List tdstGenProfilerData → List tdstGenProfilerData)
    (unAbove : Bool) (s : ProfilerState) : Option (List (List Char × tdstGenProfilerData)) :=
  match namedGraph_bounded s.mapProfilerGraph with
  | none => none
  | some graph =>
    let tmpCallStack := stdSort (MyDataSortPredicate unAbove) (graph.map Prod.snd)
    match collectThreadIds_bounded tmpCallStack [] with
    | none => none
    | some ThreadIdsCount =>
      (logThreads_bounded tmpCallStack (ThreadIdsCount.map Prod.fst) []).map Prod.fst

/-- Two calls of `LogProfiler` in a row, with the arrays: the state the second call
leaves, the report of the first call and the report of the second. -/
def logTwice_bounded
    (stdSort : (tdstGenProfilerData → tdstGenProfilerData → Bool) →
      List tdstGenProfilerData → List tdstGenProfilerData)
    (unAbove : Bool) (s : ProfilerState) :
    Option (ProfilerState × PrintedReport × PrintedReport) :=
  (LogProfiler_bounded stdSort unAbove s).bind (fun first =>
    (LogProfiler_bounded stdSort unAbove first.1).map
      (fun second => (second.1, first.2, second.2)))

/-- The calls of the deep nesting: 480 regions `a`, each started inside the one
before, of which the two innermost are ended. -/
def deepCalls : List Call :=
  List.replicate 480 (Call.start ['a'] 0) ++ [Call.stop 1, Call.stop 2]

/-- A region name of 1030 characters. -/
def longName : List Char := List.replicate 1030 'a'

/-- The key `Zprofiler_start` writes to `szBunchCodeName` for the name `name` on
thread `t` in state `s`. -/
def startKey (name : List Char) (t : Nat) (s : ProfilerState) : List Char :=
  match (stackOf t s).getLast? with
  | none => threadMarker t ++ name
  | some top => top.szBunchCodeName ++ NAME_SEPARATOR ++ name

/-! ## Lemmas on `std::map` -/

section MapLemmas

variable {K V : Type} [DecidableEq K]

theorem mapFind_mapSet_self (k : K) (v : V) (m : List (K × V))
    (h : (mapFind k m).isSome) : mapFind k (mapSet k v m) = some v := by
  induction m with
  | nil => simp [mapFind] at h
  | cons p rest ih =>
    obtain ⟨k', v'⟩ := p
    by_cases hk : k = k'
    · simp [mapSet, mapFind, hk]
    · simp only [mapFind, hk, if_false] at h
      simp [mapSet, mapFind, hk, ih h]

theorem mapFind_mapSet_ne (k k' : K) (v : V) (m : List (K × V)) (hne : k' ≠ k) :
    mapFind k' (mapSet k v m) = mapFind k' m := by
  induction m with
  | nil => rfl
  | cons p rest ih =>
    obtain ⟨k0, v0⟩ := p
    by_cases hk : k = k0
    · subst hk; simp [mapSet, mapFind, hne]
    · by_cases hk' : k' = k0
      · simp [mapSet, mapFind, hk, hk']
      · simp [mapSet, mapFind, hk, hk', ih]

theorem length_mapSet (k : K) (v : V) (m : List (K × V)) :
    (mapSet k v m).length = m.length := by
  induction m with
  | nil => rfl
  | cons p rest ih =>
    obtain ⟨k0, v0⟩ := p
    by_cases hk : k = k0 <;> simp [mapSet, hk, ih]

theorem keys_mapSet (k : K) (v : V) (m : List (K × V)) :
    (mapSet k v m).map Prod.fst = m.map Prod.fst := by
  induction m with
  | nil => rfl
  | cons p rest ih =>
    obtain ⟨k0, v0⟩ := p
    by_cases hk : k = k0 <;> simp [mapSet, hk, ih]

theorem mem_mapSet {k : K} {v : V} {m : List (K × V)} {p : K × V}
    (h : p ∈ mapSet k v m) : p = (k, v) ∨ p ∈ m := by
  induction m with
  | nil => simp [mapSet] at h
  | cons q rest ih =>
    obtain ⟨k0, v0⟩ := q
    by_cases hk : k = k0
    · subst hk
      simp only [mapSet, if_true, List.mem_cons] at h
      rcases h with h | h
      · exact Or.inl h
      · exact Or.inr (List.mem_cons_of_mem _ h)
    · simp only [mapSet, hk, if_false, List.mem_cons] at h
      rcases h with h | h
      · exact Or.inr (h ▸ List.mem_cons_self _ _)
      · rcases ih h with h' | h'
        · exact Or.inl h'
        · exact Or.inr (List.mem_cons_of_mem _ h')

theorem mapFind_eq_none_iff (k : K) (m : List (K × V)) :
    mapFind k m = none ↔ k ∉ m.map Prod.fst := by
  induction m with
  | nil => simp [mapFind]
  | cons p rest ih =>
    obtain ⟨k0, v0⟩ := p
    by_cases hk : k = k0
    · simp [mapFind, hk]
    · simp [mapFind, hk, ih]

theorem mapFind_mem {k : K} {v : V} {m : List (K × V)} (h : mapFind k m = some v) :
    (k, v) ∈ m := by
  induction m with
  | nil => simp [mapFind] at h
  | cons p rest ih =>
    obtain ⟨k0, v0⟩ := p
    by_cases hk : k = k0
    · subst hk
      simp only [mapFind, if_true, Option.some.injEq] at h
      subst h
      exact List.mem_cons_self _ _
    · simp only [mapFind, hk, if_false] at h
      exact List.mem_cons_of_mem _ (ih h)

variable [LT K] [DecidableRel (α := K) (· < ·)]

theorem mapFind_mapInsert_self (k : K) (v : V) (m : List (K × V))
    (h : mapFind k m = none) : mapFind k (mapInsert k v m) = some v := by
  induction m with
  | nil => simp [mapInsert, mapFind]
  | cons p rest ih =>
    obtain ⟨k0, v0⟩ := p
    by_cases hk : k = k0
    · simp [mapFind, hk] at h
    · simp only [mapFind, hk, if_false] at h
      by_cases hlt : k < k0
      · simp [mapInsert, mapFind, hk, hlt]
      · simp [mapInsert, mapFind, hk, hlt, ih h]

theorem mapFind_mapInsert_ne (k k' : K) (v : V) (m : List (K × V)) (hne : k' ≠ k) :
    mapFind k' (mapInsert k v m) = mapFind k' m := by
  induction m with
  | nil => simp [mapInsert, mapFind, hne]
  | cons p rest ih =>
    obtain ⟨k0, v0⟩ := p
    by_cases hk : k = k0
    · simp [mapInsert, hk]
    · by_cases hlt : k < k0
      · simp [mapInsert, mapFind, hk, hlt, hne]
      · by_cases hk' : k' = k0
        · simp [mapInsert, mapFind, hk, hlt, hk']
        · simp [mapInsert, mapFind, hk, hlt, hk', ih]

theorem length_mapInsert (k : K) (v : V) (m : List (K × V)) (h : mapFind k m = none) :
    (mapInsert k v m).length = m.length + 1 := by
  induction m with
  | nil => rfl
  | cons p rest ih =>
    obtain ⟨k0, v0⟩ := p
    by_cases hk : k = k0
    · simp [mapFind, hk] at h
    · simp only [mapFind, hk, if_false] at h
      by_cases hlt : k < k0
      · simp [mapInsert, hk, hlt]
      · simp [mapInsert, hk, hlt, ih h]

theorem keys_mapInsert_perm (k : K) (v : V) (m : List (K × V)) (h : mapFind k m = none) :
    ((mapInsert k v m).map Prod.fst).Perm (k :: m.map Prod.fst) := by
  induction m with
  | nil => simp [mapInsert]
  | cons p rest ih =>
    obtain ⟨k0, v0⟩ := p
    by_cases hk : k = k0
    · simp [mapFind, hk] at h
    · simp only [mapFind, hk, if_false] at h
      by_cases hlt : k < k0
      · simp [mapInsert, hk, hlt]
      · simp only [mapInsert, hk, hlt, if_false, List.map_cons]
        exact ((ih h).cons k0).trans (List.Perm.swap _ _ _)

theorem mem_mapInsert {k : K} {v : V} {m : List (K × V)} {p : K × V}
    (h : p ∈ mapInsert k v m) : p = (k, v) ∨ p ∈ m := by
  induction m with
  | nil => simpa [mapInsert] using h
  | cons q rest ih =>
    obtain ⟨k0, v0⟩ := q
    by_cases hk : k = k0
    · simp only [mapInsert, hk, if_true] at h
      exact Or.inr h
    · by_cases hlt : k < k0
      · simp only [mapInsert, hk, hlt, if_true, if_false, List.mem_cons] at h
        rcases h with h | h | h
        · exact Or.inl h
        · exact Or.inr (h ▸ List.mem_cons_self _ _)
        · exact Or.inr (List.mem_cons_of_mem _ h)
      · simp only [mapInsert, hk, hlt, if_false, List.mem_cons] at h
        rcases h with h | h
        · exact Or.inr (h ▸ List.mem_cons_self _ _)
        · rcases ih h with h' | h'
          · exact Or.inl h'
          · exact Or.inr (List.mem_cons_of_mem _ h')

end MapLemmas

/-! ## One call of `Zprofiler_start` or `Zprofiler_end` -/

theorem start_graph (name : List Char) (now : ℚ) (t : Nat) (s : ProfilerState) :
    (Zprofiler_start name now t s).mapProfilerGraph = s.mapProfilerGraph := by
  unfold Zprofiler_start
  simp only
  split <;> rfl

theorem start_output (name : List Char) (now : ℚ) (t : Nat) (s : ProfilerState) :
    (Zprofiler_start name now t s).output = s.output := by
  unfold Zprofiler_start
  simp only
  split <;> rfl

theorem start_calls (name : List Char) (now : ℚ) (t : Nat) (s : ProfilerState) :
    mapFind t (Zprofiler_start name now t s).mapCallsByThread
      = some (stackOf t s ++ [pushedFrame name now t (stackOf t s)]) := by
  unfold Zprofiler_start stackOf
  cases hf : mapFind t s.mapCallsByThread with
  | none =>
    simp [mapFind_mapInsert_self _ _ _ hf, pushedFrame, freshData, mapFind_mapSet_self]
  | some st =>
    simp only [Option.getD_some, hf]
    cases hl : st.getLast? with
    | none =>
      simp [pushedFrame, freshData, hl, mapFind_mapSet_self, hf]
    | some prev =>
      simp [pushedFrame, freshData, hl, mapFind_mapSet_self, hf]

theorem start_calls_ne (name : List Char) (now : ℚ) (t t' : Nat) (s : ProfilerState)
    (hne : t' ≠ t) :
    mapFind t' (Zprofiler_start name now t s).mapCallsByThread
      = mapFind t' s.mapCallsByThread := by
  unfold Zprofiler_start
  cases hf : mapFind t s.mapCallsByThread with
  | none =>
    simp [mapFind_mapInsert_self _ _ _ hf, mapFind_mapSet_ne _ _ _ _ hne,
      mapFind_mapInsert_ne _ _ _ _ hne]
  | some st =>
    simp only [Option.getD_some, hf]
    cases hl : st.getLast? with
    | none => simp [mapFind_mapSet_ne _ _ _ _ hne]
    | some prev => simp [mapFind_mapSet_ne _ _ _ _ hne]

theorem stackOf_start (name : List Char) (now : ℚ) (t : Nat) (s : ProfilerState) :
    stackOf t (Zprofiler_start name now t s)
      = stackOf t s ++ [pushedFrame name now t (stackOf t s)] := by
  simp [stackOf, start_calls]

theorem end_of_top (now : ℚ) (t : Nat) (s : ProfilerState) (st : tdCallStackType)
    (top : tdstGenProfilerData) (h : mapFind t s.mapCallsByThread = some (st ++ [top])) :
    Zprofiler_end now t s
      = some { s with
                mapProfilerGraph := mergeIntoGraph (endedData now top) s.mapProfilerGraph
                mapCallsByThread := mapSet t st s.mapCallsByThread } := by
  unfold Zprofiler_end
  simp [h, endedData]

theorem end_of_empty (now : ℚ) (t : Nat) (s : ProfilerState)
    (h : mapFind t s.mapCallsByThread = some []) :
    Zprofiler_end now t s = some { s with output := s.output ++ [endDiagnostic] } := by
  unfold Zprofiler_end
  simp [h]

theorem end_of_missing (now : ℚ) (t : Nat) (s : ProfilerState)
    (h : mapFind t s.mapCallsByThread = none) : Zprofiler_end now t s = none := by
  unfold Zprofiler_end
  simp [h]

/-! ## The update of the graph -/

theorem find_merge_self (G : tdstGenProfilerData)
    (g : List (List Char × tdstGenProfilerData)) :
    mapFind G.szBunchCodeName (mergeIntoGraph G g)
      = some (mergedEntry G (mapFind G.szBunchCodeName g)) := by
  unfold mergeIntoGraph
  cases hf : mapFind G.szBunchCodeName g with
  | none =>
    simp only [mergedEntry]
    exact mapFind_mapInsert_self _ _ _ hf
  | some entry =>
    simp only [mergedEntry]
    rw [mapFind_mapSet_self _ _ _ (by simp [hf])]
    congr 1
    by_cases h1 : G.elapsedTime < entry.minTime <;>
      by_cases h2 : G.elapsedTime > entry.maxTime <;> simp [h1, h2]

theorem find_merge_ne (G : tdstGenProfilerData)
    (g : List (List Char × tdstGenProfilerData)) (k : List Char)
    (hne : k ≠ G.szBunchCodeName) :
    mapFind k (mergeIntoGraph G g) = mapFind k g := by
  unfold mergeIntoGraph
  cases hf : mapFind G.szBunchCodeName g with
  | none => exact mapFind_mapInsert_ne _ _ _ _ hne
  | some entry => exact mapFind_mapSet_ne _ _ _ _ hne

theorem length_merge (G : tdstGenProfilerData)
    (g : List (List Char × tdstGenProfilerData)) :
    (mergeIntoGraph G g).length
      = if mapFind G.szBunchCodeName g = none then g.length + 1 else g.length := by
  unfold mergeIntoGraph
  cases hf : mapFind G.szBunchCodeName g with
  | none => simpa using length_mapInsert _ _ _ hf
  | some entry => simpa using length_mapSet _ _ _

theorem end_cases {now : ℚ} {t : Nat} {s s' : ProfilerState}
    (h : Zprofiler_end now t s = some s') :
    (mapFind t s.mapCallsByThread = some [] ∧
        s' = { s with output := s.output ++ [endDiagnostic] }) ∨
    ∃ st top, mapFind t s.mapCallsByThread = some (st ++ [top]) ∧
      s' = { s with
              mapProfilerGraph := mergeIntoGraph (endedData now top) s.mapProfilerGraph
              mapCallsByThread := mapSet t st s.mapCallsByThread } := by
  cases hf : mapFind t s.mapCallsByThread with
  | none => rw [end_of_missing now t s hf] at h; cases h
  | some stack =>
    rcases List.eq_nil_or_concat stack with hnil | ⟨st, top, hst⟩
    on_goal 2 => rw [List.concat_eq_append] at hst
    · subst hnil
      rw [end_of_empty now t s hf] at h
      exact Or.inl ⟨rfl, (Option.some.inj h).symm⟩
    · subst hst
      rw [end_of_top now t s st top hf] at h
      exact Or.inr ⟨st, top, rfl, (Option.some.inj h).symm⟩

theorem pushedFrame_fresh (name : List Char) (now : ℚ) (t : Nat) (stack : tdCallStackType) :
    FreshFrame (pushedFrame name now t stack) := ⟨rfl, rfl, rfl⟩

theorem reachable_fresh {s : ProfilerState} (hr : Reachable s) :
    ∀ t st, mapFind t s.mapCallsByThread = some st → ∀ f ∈ st, FreshFrame f := by
  induction hr with
  | init => intro t st h; simp [initialState, mapFind] at h
  | @start name now t0 s0 _ ih =>
    intro t st h f hf
    by_cases ht : t = t0
    · subst ht
      rw [start_calls] at h
      cases h
      rcases List.mem_append.1 hf with hf | hf
      · cases hs : mapFind t s0.mapCallsByThread with
        | none => simp [stackOf, hs] at hf
        | some st0 =>
          apply ih t st0 hs
          simpa [stackOf, hs] using hf
      · rw [List.mem_singleton.1 hf]; exact pushedFrame_fresh _ _ _ _
    · rw [start_calls_ne _ _ _ _ _ ht] at h
      exact ih t st h f hf
  | @stop now t0 s0 s1 _ hend ih =>
    intro t st h f hf
    rcases end_cases hend with ⟨_, hs'⟩ | ⟨st0, top, hst, hs'⟩
    · subst hs'
      exact ih t st h f hf
    · subst hs'
      by_cases ht : t = t0
      · subst ht
        simp only at h
        rw [mapFind_mapSet_self _ _ _ (by simp [hst])] at h
        cases h
        exact ih t _ hst f (List.mem_append_left _ hf)
      · simp only at h
        rw [mapFind_mapSet_ne _ _ _ _ ht] at h
        exact ih t st h f hf

theorem statView_merge (D : tdstGenProfilerData) (hD : SampleData D)
    (g : List (List Char × tdstGenProfilerData)) :
    statView (mergeIntoGraph D g)
      = record D.szBunchCodeName D.elapsedTime (statView g) := by
  obtain ⟨h1, h2⟩ := hD
  funext k
  unfold statView record
  by_cases hk : k = D.szBunchCodeName
  · subst hk
    simp only [if_true]
    rw [find_merge_self]
    cases hf : mapFind D.szBunchCodeName g with
    | none => simp [mergedEntry, statOf, recordStat, h1, h2]
    | some entry =>
      simp only [mergedEntry, statOf, recordStat, Option.map_some', Option.some.injEq,
        Stat.mk.injEq, true_and]
      refine ⟨?_, ?_, trivial⟩
      · by_cases hlt : D.elapsedTime < entry.minTime
        · simp [hlt, min_eq_right (le_of_lt hlt)]
        · simp [hlt, min_eq_left (not_lt.1 hlt)]
      · by_cases hgt : D.elapsedTime > entry.maxTime
        · simp [hgt, max_eq_right (le_of_lt hgt)]
        · simp [hgt, max_eq_left (not_lt.1 hgt)]
  · simp only [hk, if_false]
    rw [find_merge_ne _ _ _ hk]

theorem endedData_sample (now : ℚ) (top : tdstGenProfilerData) (h : FreshFrame top) :
    SampleData (endedData now top) := by
  obtain ⟨h1, h2, h3⟩ := h
  exact ⟨by simp [endedData, h1], by simp [endedData, h3]⟩

theorem endedData_elapsed (now : ℚ) (top : tdstGenProfilerData) (h : FreshFrame top) :
    (endedData now top).elapsedTime = now - top.lastTime := by
  obtain ⟨h1, h2, h3⟩ := h
  simp [endedData, h2]

/-- C1: in a reachable state in which thread `t` has the frame `top` on top of
its stack, `Zprofiler_end` returns and changes `mapProfilerGraph` exactly as the
reference `record(pathKey, e)` does, for the key of `top` and the elapsed time
`e = now - top.lastTime`: an absent key gets an entry with call count 1 and
total, minimum, maximum and average all `e`; a present key gets its count
incremented, its minimum and maximum updated, `e` added to its total, and the
new total divided by the new count as average. -/
theorem C1_end_merges_as_record (s : ProfilerState) (hr : Reachable s) (t : Nat)
    (st : tdCallStackType) (top : tdstGenProfilerData) (now : ℚ)
    (h : mapFind t s.mapCallsByThread = some (st ++ [top])) :
    ∃ s', Zprofiler_end now t s = some s' ∧
      statView s'.mapProfilerGraph
        = record top.szBunchCodeName (now - top.lastTime) (statView s.mapProfilerGraph) := by
  have hfresh : FreshFrame top := reachable_fresh hr t _ h top (by simp)
  refine ⟨_, end_of_top now t s st top h, ?_⟩
  have := statView_merge (endedData now top) (endedData_sample now top hfresh)
    s.mapProfilerGraph
  rw [endedData_elapsed now top hfresh] at this
  exact this

/-- C1 at a concrete input: `Main` started at clock reading 0 on thread 0 of the
initial state and ended at reading 79. -/
theorem C1_end_merges_as_record_witness :
    ∃ s', Zprofiler_end 79 0 (Zprofiler_start "Main".toList 0 0 initialState) = some s' ∧
      statView s'.mapProfilerGraph
        = record (pushedFrame "Main".toList 0 0 []).szBunchCodeName
            (79 - (pushedFrame "Main".toList 0 0 []).lastTime)
            (statView (Zprofiler_start "Main".toList 0 0 initialState).mapProfilerGraph) :=
  C1_end_merges_as_record (Zprofiler_start "Main".toList 0 0 initialState)
    (Reachable.start _ _ _ Reachable.init) 0 [] (pushedFrame "Main".toList 0 0 []) 79
    (by rfl)

/-! ## Path keys of nested frames -/

theorem intercalate_concat (sep : List Char) (l : List (List Char)) (hl : l ≠ [])
    (x : List Char) : sep.intercalate (l ++ [x]) = sep.intercalate l ++ sep ++ x := by
  induction l with
  | nil => exact absurd rfl hl
  | cons a rest ih =>
    cases rest with
    | nil => simp [List.intercalate, List.intersperse]
    | cons b rest' =>
      have := ih (by simp)
      simp only [List.intercalate, List.cons_append, List.intersperse, List.flatten_cons,
        List.append_assoc] at this ⊢
      exact congrArg (fun r => a ++ (sep ++ r)) this

theorem framesOf_nil (t : Nat) : framesOf t [] = [] := rfl

theorem framesOf_concat (t : Nat) (opened : List (List Char × ℚ)) (p : List Char × ℚ) :
    framesOf t (opened ++ [p])
      = framesOf t opened ++ [pushedFrame p.1 p.2 t (framesOf t opened)] := by
  simp [framesOf, List.foldl_append]

theorem framesOf_eq_nil (t : Nat) (opened : List (List Char × ℚ)) :
    framesOf t opened = [] ↔ opened = [] := by
  rcases List.eq_nil_or_concat opened with h | ⟨op, p, h⟩
  · subst h; simp [framesOf_nil]
  · rw [List.concat_eq_append] at h
    subst h
    simp [framesOf_concat]

theorem framesOf_topKey (t : Nat) (opened : List (List Char × ℚ)) (h : opened ≠ []) :
    (framesOf t opened).getLast?.map (fun f => f.szBunchCodeName)
      = some (pathKey t (opened.map Prod.fst)) := by
  induction opened using List.reverseRecOn with
  | nil => exact absurd rfl h
  | append_singleton op p ih =>
    rw [framesOf_concat]
    simp only [List.getLast?_append, List.getLast?_singleton, Option.or_some, Option.map_some',
      Option.some.injEq, Option.or]
    by_cases hop : op = []
    · subst hop
      simp [framesOf_nil, pushedFrame, pathKey, List.intercalate, List.intersperse]
    · have ih' := ih hop
      cases hl : (framesOf t op).getLast? with
      | none => rw [hl] at ih'; simp at ih'
      | some prev =>
        rw [hl] at ih'
        simp only [Option.map_some', Option.some.injEq] at ih'
        simp only [pushedFrame, hl, ih', pathKey, List.map_append, List.map_cons, List.map_nil]
        rw [intercalate_concat _ _ (by simpa using hop)]
        simp [List.append_assoc]

theorem pushedFrame_key (name : List Char) (now : ℚ) (t : Nat)
    (opened : List (List Char × ℚ)) :
    (pushedFrame name now t (framesOf t opened)).szBunchCodeName
      = pathKey t (opened.map Prod.fst ++ [name]) := by
  have := framesOf_topKey t (opened ++ [(name, now)]) (by simp)
  rw [framesOf_concat] at this
  simpa using this

theorem mapFind_of_stackOf {t : Nat} {s : ProfilerState} {st : tdCallStackType}
    {top : tdstGenProfilerData} (h : stackOf t s = st ++ [top]) :
    mapFind t s.mapCallsByThread = some (st ++ [top]) := by
  unfold stackOf at h
  cases hf : mapFind t s.mapCallsByThread with
  | none => rw [hf] at h; simp at h
  | some st0 => rw [hf] at h; simpa using h

theorem endedData_pushedFrame (name : List Char) (t0 now : ℚ) (t : Nat)
    (opened : List (List Char × ℚ)) :
    endedData now (pushedFrame name t0 t (framesOf t opened))
      = closedData t
          { chain := (opened ++ [(name, t0)]).map Prod.fst, startTime := t0, endTime := now } := by
  have hk := pushedFrame_key name t0 t opened
  simp only [endedData, closedData, List.map_append, List.map_cons, List.map_nil, ← hk]
  simp [pushedFrame]

/-! ## Call sequences -/

theorem run_simulation (t : Nat) (calls : List Call) :
    ∀ (opened : List (List Char × ℚ)) (s : ProfilerState),
      stackOf t s = framesOf t opened →
      wellNestedFrom opened.length calls = true →
      ∃ s', runCalls t calls s = some s' ∧
        s'.mapProfilerGraph
          = (closedFrom opened calls).foldl (fun g c => mergeIntoGraph (closedData t c) g)
              s.mapProfilerGraph := by
  induction calls with
  | nil => intro opened s _ _; exact ⟨s, rfl, rfl⟩
  | cons c rest ih =>
    intro opened s hst hwn
    cases c with
    | start name now =>
      have hst' : stackOf t (Zprofiler_start name now t s)
          = framesOf t (opened ++ [(name, now)]) := by
        rw [stackOf_start, framesOf_concat, hst]
      have hwn' : wellNestedFrom (opened ++ [(name, now)]).length rest = true := by
        simpa [wellNestedFrom] using hwn
      obtain ⟨s', hrun, hg⟩ := ih _ _ hst' hwn'
      refine ⟨s', by simpa [runCalls] using hrun, ?_⟩
      rw [hg, start_graph]
      rfl
    | stop now =>
      rcases List.eq_nil_or_concat opened with h | ⟨op, p, h⟩
      · subst h
        simp [wellNestedFrom] at hwn
      · rw [List.concat_eq_append] at h
        subst h
        obtain ⟨name, t0⟩ := p
        rw [framesOf_concat] at hst
        have hfind := mapFind_of_stackOf hst
        have hend := end_of_top now t s _ _ hfind
        have hwn' : wellNestedFrom op.length rest = true := by
          simpa [wellNestedFrom] using hwn
        have hst' : stackOf t
            { s with
              mapProfilerGraph := mergeIntoGraph
                (endedData now (pushedFrame name t0 t (framesOf t op))) s.mapProfilerGraph
              mapCallsByThread := mapSet t (framesOf t op) s.mapCallsByThread }
            = framesOf t op := by
          simp [stackOf, mapFind_mapSet_self _ _ _ (show (mapFind t s.mapCallsByThread).isSome by
            simp [hfind])]
        obtain ⟨s', hrun, hg⟩ := ih _ _ hst' hwn'
        refine ⟨s', by simp [runCalls, hend, hrun], ?_⟩
        rw [hg]
        simp [closedFrom, endedData_pushedFrame]

theorem stackOf_initialState (t : Nat) : stackOf t initialState = framesOf t [] := rfl

theorem run_from_initial (t : Nat) (calls : List Call) (h : WellNested calls) :
    ∃ s', runCalls t calls initialState = some s' ∧
      s'.mapProfilerGraph
        = (closedFrom [] calls).foldl (fun g c => mergeIntoGraph (closedData t c) g) [] :=
  run_simulation t calls [] initialState (stackOf_initialState t) h

/-! ## Aggregation over a call sequence -/

theorem closedData_sample (t : Nat) (c : ClosedFrame) : SampleData (closedData t c) :=
  ⟨rfl, rfl⟩

theorem statView_fold (t : Nat) (cs : List ClosedFrame) :
    ∀ g : List (List Char × tdstGenProfilerData),
      statView (cs.foldl (fun g c => mergeIntoGraph (closedData t c) g) g)
        = cs.foldl (fun v c => record (pathKey t c.chain) (c.endTime - c.startTime) v)
            (statView g) := by
  induction cs with
  | nil => intro g; rfl
  | cons c rest ih =>
    intro g
    simp only [List.foldl_cons]
    rw [ih, statView_merge _ (closedData_sample t c)]
    rfl

theorem record_fold_key (t : Nat) (k : List Char) (cs : List ClosedFrame) :
    ∀ v : List Char → Option Stat,
      (cs.foldl (fun v c => record (pathKey t c.chain) (c.endTime - c.startTime) v) v) k
        = ((cs.filter (fun c => pathKey t c.chain = k)).map
            (fun c => c.endTime - c.startTime)).foldl
            (fun acc e => some (recordStat acc e)) (v k) := by
  induction cs with
  | nil => intro v; rfl
  | cons c rest ih =>
    intro v
    simp only [List.foldl_cons]
    rw [ih]
    by_cases hk : pathKey t c.chain = k
    · subst hk
      simp [List.filter_cons, record]
    · have hk' : k ≠ pathKey t c.chain := fun h => hk h.symm
      simp [List.filter_cons, record, hk, hk']

theorem statView_run (t : Nat) (calls : List Call) (h : WellNested calls) :
    ∃ s', runCalls t calls initialState = some s' ∧
      ∀ k, statView s'.mapProfilerGraph k = aggregate (samplesOf t k calls) := by
  obtain ⟨s', hrun, hg⟩ := run_from_initial t calls h
  refine ⟨s', hrun, fun k => ?_⟩
  rw [hg, statView_fold, record_fold_key]
  rfl

theorem aggregate_nil : aggregate [] = none := rfl

theorem aggregate_concat (l : List ℚ) (e : ℚ) :
    aggregate (l ++ [e]) = some (recordStat (aggregate l) e) := by
  simp [aggregate, List.foldl_append]

theorem aggregate_spec (samples : List ℚ) (hne : samples ≠ []) :
    ∃ st, aggregate samples = some st ∧
      st.callCount = samples.length ∧
      st.totalTime = samples.sum ∧
      st.averageTime = samples.sum / (samples.length : ℚ) ∧
      (st.minTime ∈ samples ∧ ∀ e ∈ samples, st.minTime ≤ e) ∧
      (st.maxTime ∈ samples ∧ ∀ e ∈ samples, e ≤ st.maxTime) := by
  induction samples using List.reverseRecOn with
  | nil => exact absurd rfl hne
  | append_singleton l e ih =>
    rw [aggregate_concat]
    by_cases hl : l = []
    · subst hl
      refine ⟨_, rfl, ?_⟩
      simp [aggregate_nil, recordStat]
    · obtain ⟨st, hst, hc, htot, _, ⟨hminm, hmin⟩, ⟨hmaxm, hmax⟩⟩ := ih hl
      refine ⟨_, rfl, ?_⟩
      rw [hst]
      simp only [recordStat, List.length_append, List.length_singleton, List.sum_append,
        List.sum_singleton, List.mem_append, List.mem_singleton, hc, htot]
      refine ⟨trivial, trivial, trivial, ⟨?_, ?_⟩, ⟨?_, ?_⟩⟩
      · rcases min_choice st.minTime e with h | h
        · exact Or.inl (by rw [h]; exact hminm)
        · exact Or.inr h
      · rintro x (hx | hx)
        · exact le_trans (min_le_left _ _) (hmin x hx)
        · exact hx ▸ min_le_right _ _
      · rcases max_choice st.maxTime e with h | h
        · exact Or.inl (by rw [h]; exact hmaxm)
        · exact Or.inr h
      · rintro x (hx | hx)
        · exact le_trans (hmax x hx) (le_max_left _ _)
        · exact hx ▸ le_max_right _ _

theorem aggregate_eq_none_iff (samples : List ℚ) : aggregate samples = none ↔ samples = [] := by
  constructor
  · intro h
    by_contra hne
    obtain ⟨st, hst, _⟩ := aggregate_spec samples hne
    rw [h] at hst
    cases hst
  · intro h; subst h; rfl

theorem samplesOf_length (t : Nat) (k : List Char) (calls : List Call) :
    (samplesOf t k calls).length = (closedKeys t calls).count k := by
  unfold samplesOf closedKeys
  rw [List.length_map, List.count, List.countP_map, List.countP_eq_length_filter]
  congr 1
  apply List.filter_congr
  intro c _
  by_cases h : pathKey t c.chain = k <;> simp [h]

theorem samplesOf_eq_nil_iff (t : Nat) (k : List Char) (calls : List Call) :
    samplesOf t k calls = [] ↔ k ∉ closedKeys t calls := by
  rw [← List.length_eq_zero, samplesOf_length, List.count_eq_zero]

theorem mem_keys_iff (g : List (List Char × tdstGenProfilerData)) (k : List Char) :
    k ∈ g.map Prod.fst ↔ statView g k ≠ none := by
  unfold statView
  rw [Ne, Option.map_eq_none', mapFind_eq_none_iff, not_not]

theorem mergeIntoGraph_eq (D : tdstGenProfilerData)
    (g : List (List Char × tdstGenProfilerData)) :
    mergeIntoGraph D g =
      match mapFind D.szBunchCodeName g with
      | some entry => mapSet D.szBunchCodeName (mergedEntry D (some entry)) g
      | none => mapInsert D.szBunchCodeName (mergedEntry D none) g := by
  unfold mergeIntoGraph
  cases hf : mapFind D.szBunchCodeName g with
  | none => rfl
  | some entry =>
    simp only [mergedEntry]
    congr 1
    by_cases h1 : D.elapsedTime < entry.minTime <;>
      by_cases h2 : D.elapsedTime > entry.maxTime <;> simp [h1, h2]

theorem mem_merge {D : tdstGenProfilerData} {g : List (List Char × tdstGenProfilerData)}
    {p : List Char × tdstGenProfilerData} (h : p ∈ mergeIntoGraph D g) :
    p.2 = mergedEntry D (mapFind D.szBunchCodeName g) ∨ p ∈ g := by
  rw [mergeIntoGraph_eq] at h
  cases hf : mapFind D.szBunchCodeName g with
  | none =>
    rw [hf] at h
    rcases mem_mapInsert h with h' | h'
    · exact Or.inl (by rw [h'])
    · exact Or.inr h'
  | some entry =>
    rw [hf] at h
    rcases mem_mapSet h with h' | h'
    · exact Or.inl (by rw [h'])
    · exact Or.inr h'

theorem goodEntry_mergedEntry (D : tdstGenProfilerData) (hD : SampleData D)
    (old : Option tdstGenProfilerData) (hold : ∀ d, old = some d → GoodEntry d) :
    GoodEntry (mergedEntry D old) := by
  obtain ⟨hD1, hD2⟩ := hD
  cases old with
  | none =>
    simp only [mergedEntry, GoodEntry, hD1, hD2]
    norm_num
  | some entry =>
    obtain ⟨hn, _, hlo, hhi⟩ := hold entry rfl
    have hn0 : (0 : ℚ) ≤ (entry.nbCalls : ℚ) := Nat.cast_nonneg _
    simp only [mergedEntry, GoodEntry]
    refine ⟨Nat.le_add_left _ _, trivial, ?_, ?_⟩
    · by_cases hlt : D.elapsedTime < entry.minTime
      · simp only [hlt, if_true]
        push_cast
        nlinarith
      · simp only [hlt, if_false]
        push_cast
        have := not_lt.1 hlt
        nlinarith
    · by_cases hgt : D.elapsedTime > entry.maxTime
      · simp only [hgt, if_true]
        push_cast
        have : entry.maxTime < D.elapsedTime := hgt
        nlinarith
      · simp only [hgt, if_false]
        push_cast
        have := not_lt.1 hgt
        nlinarith

theorem goodEntry_bounds {d : tdstGenProfilerData} (h : GoodEntry d) :
    d.minTime ≤ d.averageTime ∧ d.averageTime ≤ d.maxTime := by
  obtain ⟨hn, havg, hlo, hhi⟩ := h
  have hpos : (0 : ℚ) < (d.nbCalls : ℚ) := by exact_mod_cast hn
  rw [havg]
  constructor
  · rw [le_div_iff₀ hpos]; linarith
  · rw [div_le_iff₀ hpos]; linarith

theorem reachable_goodEntry {s : ProfilerState} (hr : Reachable s) :
    ∀ p ∈ s.mapProfilerGraph, GoodEntry p.2 := by
  induction hr with
  | init => intro p hp; simp [initialState] at hp
  | @start name now t0 s0 _ ih =>
    intro p hp
    rw [start_graph] at hp
    exact ih p hp
  | @stop now t0 s0 s1 hr0 hend ih =>
    intro p hp
    rcases end_cases hend with ⟨_, hs'⟩ | ⟨st0, top, hst, hs'⟩
    · subst hs'
      exact ih p hp
    · subst hs'
      simp only at hp
      rcases mem_merge hp with h | h
      · rw [h]
        apply goodEntry_mergedEntry
        · exact endedData_sample now top (reachable_fresh hr0 t0 _ hst top (by simp))
        · intro d hd
          exact ih _ (mapFind_mem hd)
      · exact ih p h

/-- C7: in every state reachable from the initial state by `Zprofiler_start` and
`Zprofiler_end` calls, every entry of `mapProfilerGraph` has `nbCalls >= 1`,
`minTime <= averageTime <= maxTime` and `averageTime = totalTime / nbCalls`. -/
theorem C7_entry_invariant (s : ProfilerState) (hr : Reachable s) :
    ∀ p ∈ s.mapProfilerGraph,
      1 ≤ p.2.nbCalls ∧ p.2.minTime ≤ p.2.averageTime ∧ p.2.averageTime ≤ p.2.maxTime ∧
        p.2.averageTime = p.2.totalTime / (p.2.nbCalls : ℚ) := by
  intro p hp
  have hg := reachable_goodEntry hr p hp
  exact ⟨hg.1, (goodEntry_bounds hg).1, (goodEntry_bounds hg).2, hg.2.1⟩

theorem endedMain_reachable : Reachable endedMain :=
  Reachable.stop 79 0 (Reachable.start "Main".toList 0 0 Reachable.init)
    (end_of_top 79 0 startedMain [] (pushedFrame "Main".toList 0 0 []) rfl)

/-- C7 at the state reached by starting `Main` at reading 0 and ending it at
reading 79 on thread 0. -/
theorem C7_entry_invariant_witness :
    Reachable endedMain ∧
    ∀ p ∈ endedMain.mapProfilerGraph,
      1 ≤ p.2.nbCalls ∧ p.2.minTime ≤ p.2.averageTime ∧ p.2.averageTime ≤ p.2.maxTime ∧
        p.2.averageTime = p.2.totalTime / (p.2.nbCalls : ℚ) :=
  ⟨endedMain_reachable, C7_entry_invariant endedMain endedMain_reachable⟩

/-! ## Strings -/

theorem split_at_separator (c : Char) :
    ∀ (x y r r' : List Char), c ∉ x → c ∉ y → x ++ c :: r = y ++ c :: r' → x = y ∧ r = r' := by
  intro x
  induction x with
  | nil =>
    intro y r r' _ hy h
    cases y with
    | nil => simpa using h
    | cons b y' =>
      simp only [List.nil_append, List.cons_append, List.cons.injEq] at h
      exact absurd (h.1 ▸ List.mem_cons_self _ _) hy
  | cons a x' ih =>
    intro y r r' hx hy h
    cases y with
    | nil =>
      simp only [List.nil_append, List.cons_append, List.cons.injEq] at h
      exact absurd (h.1 ▸ List.mem_cons_self _ _) hx
    | cons b y' =>
      simp only [List.cons_append, List.cons.injEq] at h
      obtain ⟨hab, hrest⟩ := h
      have hx' : c ∉ x' := fun hm => hx (List.mem_cons_of_mem _ hm)
      have hy' : c ∉ y' := fun hm => hy (List.mem_cons_of_mem _ hm)
      obtain ⟨h1, h2⟩ := ih y' r r' hx' hy' hrest
      exact ⟨by rw [hab, h1], h2⟩

theorem intercalate_cons_cons (sep a b : List Char) (rest : List (List Char)) :
    sep.intercalate (a :: b :: rest) = a ++ sep ++ sep.intercalate (b :: rest) := by
  simp [List.intercalate, List.intersperse]

theorem intercalate_singleton (sep a : List Char) : sep.intercalate [a] = a := by
  simp [List.intercalate, List.intersperse]

theorem intercalate_injective :
    ∀ (l1 l2 : List (List Char)), l1 ≠ [] → l2 ≠ [] →
      (∀ x ∈ l1, '|' ∉ x) → (∀ x ∈ l2, '|' ∉ x) →
      NAME_SEPARATOR.intercalate l1 = NAME_SEPARATOR.intercalate l2 → l1 = l2 := by
  intro l1
  induction l1 with
  | nil => intro l2 h; exact absurd rfl h
  | cons a r1 ih =>
    intro l2 _ h2 hs1 hs2 heq
    cases l2 with
    | nil => exact absurd rfl h2
    | cons b r2 =>
      have ha : '|' ∉ a := hs1 a (List.mem_cons_self _ _)
      have hb : '|' ∉ b := hs2 b (List.mem_cons_self _ _)
      cases r1 with
      | nil =>
        cases r2 with
        | nil =>
          rw [intercalate_singleton, intercalate_singleton] at heq
          rw [heq]
        | cons b' r2' =>
          rw [intercalate_singleton, intercalate_cons_cons] at heq
          exfalso
          apply ha
          rw [heq]
          simp [NAME_SEPARATOR]
      | cons a' r1' =>
        cases r2 with
        | nil =>
          rw [intercalate_singleton, intercalate_cons_cons] at heq
          exfalso
          apply hb
          rw [← heq]
          simp [NAME_SEPARATOR]
        | cons b' r2' =>
          rw [intercalate_cons_cons, intercalate_cons_cons] at heq
          simp only [NAME_SEPARATOR, List.append_assoc, List.singleton_append] at heq
          obtain ⟨hab, hrest⟩ := split_at_separator '|' a b _ _ ha hb heq
          have := ih (b' :: r2') (by simp) (by simp)
            (fun x hx => hs1 x (List.mem_cons_of_mem _ hx))
            (fun x hx => hs2 x (List.mem_cons_of_mem _ hx)) hrest
          rw [hab, this]

theorem stackOf_startAll (t : Nat) (chain : List (List Char × ℚ)) :
    ∀ (opened : List (List Char × ℚ)) (s : ProfilerState),
      stackOf t s = framesOf t opened →
      stackOf t (startAll t chain s) = framesOf t (opened ++ chain) := by
  induction chain with
  | nil => intro opened s h; simpa [startAll] using h
  | cons p rest ih =>
    intro opened s h
    have h' : stackOf t (Zprofiler_start p.1 p.2 t s) = framesOf t (opened ++ [p]) := by
      rw [stackOf_start, framesOf_concat, h]
    have := ih (opened ++ [p]) _ h'
    simpa [startAll] using this

theorem topKey_startAll (t : Nat) (chain : List (List Char × ℚ)) (hne : chain ≠ [])
    (s : ProfilerState) (hs : stackOf t s = []) :
    topKey t (startAll t chain s) = some (pathKey t (chain.map Prod.fst)) := by
  unfold topKey
  rw [stackOf_startAll t chain [] s (by rw [hs]; rfl)]
  simpa using framesOf_topKey t chain hne

/-! ## The thread marker -/

theorem digitChar_injOn : ∀ d < 10, ∀ d' < 10, digitChar d = digitChar d' → d = d' := by
  decide

theorem digitChar_ne_special : ∀ d < 10,
    digitChar d ≠ '@' ∧ digitChar d ≠ '-' ∧ digitChar d ≠ '|' := by
  decide

theorem mem_decimalNat {n : Nat} {c : Char} (h : c ∈ decimalNat n) :
    ∃ d < 10, c = digitChar d := by
  unfold decimalNat at h
  split_ifs at h with h0
  · exact ⟨0, by norm_num, by simpa using h⟩
  · rw [List.mem_reverse, List.mem_map] at h
    obtain ⟨d, hd, hc⟩ := h
    exact ⟨d, Nat.digits_lt_base (by norm_num) hd, hc.symm⟩

theorem map_digitChar_injective :
    ∀ (l1 l2 : List Nat), (∀ d ∈ l1, d < 10) → (∀ d ∈ l2, d < 10) →
      l1.map digitChar = l2.map digitChar → l1 = l2 := by
  intro l1
  induction l1 with
  | nil => intro l2 _ _ h; cases l2 with
    | nil => rfl
    | cons b r => simp at h
  | cons a r ih =>
    intro l2 h1 h2 h
    cases l2 with
    | nil => simp at h
    | cons b r2 =>
      simp only [List.map_cons, List.cons.injEq] at h
      have hab := digitChar_injOn a (h1 a (List.mem_cons_self _ _)) b
        (h2 b (List.mem_cons_self _ _)) h.1
      have := ih r2 (fun d hd => h1 d (List.mem_cons_of_mem _ hd))
        (fun d hd => h2 d (List.mem_cons_of_mem _ hd)) h.2
      rw [hab, this]

theorem decimalNat_pos_ne_zero {m : Nat} (hm : m ≠ 0) : decimalNat m ≠ ['0'] := by
  unfold decimalNat
  rw [if_neg hm]
  intro h
  have h' : (Nat.digits 10 m).map digitChar = ['0'] := by
    have := congrArg List.reverse h
    simpa using this
  have hd : Nat.digits 10 m = [0] := by
    apply map_digitChar_injective _ _ (fun d hd => Nat.digits_lt_base (by norm_num) hd)
      (by simp)
    rw [h']
    decide
  have hlast := Nat.getLast_digit_ne_zero 10 hm
  simp [hd] at hlast

theorem decimalNat_injective {n m : Nat} (h : decimalNat n = decimalNat m) : n = m := by
  by_cases hn : n = 0
  · by_cases hm : m = 0
    · rw [hn, hm]
    · exfalso
      apply decimalNat_pos_ne_zero hm
      rw [← h, hn]
      rfl
  · by_cases hm : m = 0
    · exfalso
      apply decimalNat_pos_ne_zero hn
      rw [h, hm]
      rfl
    · unfold decimalNat at h
      rw [if_neg hn, if_neg hm] at h
      have h' := List.reverse_injective h
      have := map_digitChar_injective _ _
        (fun d hd => Nat.digits_lt_base (by norm_num) hd)
        (fun d hd => Nat.digits_lt_base (by norm_num) hd) h'
      exact Nat.digits.injective 10 this

theorem decimalNat_ne_nil (n : Nat) : decimalNat n ≠ [] := by
  unfold decimalNat
  split_ifs with h0
  · simp
  · simp [Nat.digits_ne_nil_iff_ne_zero.2 h0]

theorem minus_not_mem_decimalNat (n : Nat) : '-' ∉ decimalNat n := by
  intro h
  obtain ⟨d, hd, hc⟩ := mem_decimalNat h
  exact (digitChar_ne_special d hd).2.1 hc.symm

theorem decimalInt_injective {i j : Int} (h : decimalInt i = decimalInt j) : i = j := by
  unfold decimalInt at h
  by_cases hi : i < 0
  · by_cases hj : j < 0
    · rw [if_pos hi, if_pos hj] at h
      have := decimalNat_injective (List.cons.inj h).2
      omega
    · rw [if_pos hi, if_neg hj] at h
      exfalso
      apply minus_not_mem_decimalNat j.natAbs
      rw [← h]
      exact List.mem_cons_self _ _
  · by_cases hj : j < 0
    · rw [if_neg hi, if_pos hj] at h
      exfalso
      apply minus_not_mem_decimalNat i.natAbs
      rw [h]
      exact List.mem_cons_self _ _
    · rw [if_neg hi, if_neg hj] at h
      have := decimalNat_injective h
      omega

theorem at_not_mem_decimalInt (i : Int) : '@' ∉ decimalInt i := by
  intro h
  unfold decimalInt at h
  have hmem : '@' ∈ decimalNat i.natAbs := by
    split_ifs at h
    · simpa using h
    · exact h
  obtain ⟨d, hd, hc⟩ := mem_decimalNat hmem
  exact (digitChar_ne_special d hd).1 hc.symm

theorem toInt32_eq_iff (t1 t2 : Nat) :
    toInt32 t1 = toInt32 t2 ↔ t1 % 2 ^ 32 = t2 % 2 ^ 32 := by
  unfold toInt32
  constructor
  · intro h
    split_ifs at h <;> omega
  · intro h
    rw [h]

theorem toInt32_of_lt {t : Nat} (h : t < 2 ^ 31) : toInt32 t = (t : Int) := by
  unfold toInt32
  have : t % 2 ^ 32 = t := Nat.mod_eq_of_lt (by omega)
  rw [this, if_pos h]

theorem threadMarker_injective {t1 t2 : Nat} {r1 r2 : List Char}
    (h : threadMarker t1 ++ r1 = threadMarker t2 ++ r2) : t1 % 2 ^ 32 = t2 % 2 ^ 32 := by
  unfold threadMarker at h
  simp only [NAME_SEPARATOR, THREADID_NAME_SEPARATOR, List.append_assoc, List.singleton_append,
    List.cons_append, List.cons.injEq, true_and, List.nil_append] at h
  obtain ⟨hd, _⟩ := split_at_separator '@' _ _ _ _ (at_not_mem_decimalInt _)
    (at_not_mem_decimalInt _) h
  exact (toInt32_eq_iff t1 t2).1 (decimalInt_injective hd)

/-! ## Key construction by `Zprofiler_start` -/

theorem pathKey_X_ne_XX (t : Nat) :
    pathKey t ["X".toList] ≠ pathKey t ["X".toList, "X".toList] := by
  unfold pathKey
  intro h
  have h' := List.append_cancel_left h
  revert h'
  decide

/-- On one thread whose stack is empty, two non-empty chains of region names
without `|` that give the same key by nested `Zprofiler_start` calls are equal.
In particular `start("X")` directly inside `start("X")` gives the keys `X` and
`X|X` after the thread marker, and the two `end()` calls leave two separate
entries, each with call count 1. -/
theorem key_identifies_chain (t : Nat) (s : ProfilerState) (hs : stackOf t s = [])
    (c1 c2 : List (List Char × ℚ)) (h1 : c1 ≠ []) (h2 : c2 ≠ [])
    (hsep1 : ∀ p ∈ c1, '|' ∉ p.1) (hsep2 : ∀ p ∈ c2, '|' ∉ p.1) (a b c d : ℚ) :
    (topKey t (startAll t c1 s) = topKey t (startAll t c2 s) →
      c1.map Prod.fst = c2.map Prod.fst) ∧
    topKey t (startAll t [("X".toList, a)] initialState)
      = some (threadMarker t ++ "X".toList) ∧
    topKey t (startAll t [("X".toList, a), ("X".toList, b)] initialState)
      = some (threadMarker t ++ "X|X".toList) ∧
    threadMarker t ++ "X".toList ≠ threadMarker t ++ "X|X".toList ∧
    (∃ s', runCalls t [Call.start "X".toList a, Call.start "X".toList b, Call.stop c,
            Call.stop d] initialState = some s' ∧
      s'.mapProfilerGraph.length = 2 ∧
      statView s'.mapProfilerGraph (threadMarker t ++ "X".toList)
        = some { callCount := 1, totalTime := d - a, minTime := d - a,
                 maxTime := d - a, averageTime := d - a } ∧
      statView s'.mapProfilerGraph (threadMarker t ++ "X|X".toList)
        = some { callCount := 1, totalTime := c - b, minTime := c - b,
                 maxTime := c - b, averageTime := c - b }) := by
  have hne : pathKey t [['X']] ≠ pathKey t [['X'], ['X']] := pathKey_X_ne_XX t
  have hk1 : pathKey t [['X']] = threadMarker t ++ "X".toList := rfl
  have hk2 : pathKey t [['X'], ['X']] = threadMarker t ++ "X|X".toList := rfl
  refine ⟨?_, ?_, ?_, ?_, ?_⟩
  · intro heq
    rw [topKey_startAll t c1 h1 s hs, topKey_startAll t c2 h2 s hs] at heq
    have hkey := List.append_cancel_left (Option.some.inj heq)
    apply intercalate_injective _ _ (by simpa using h1) (by simpa using h2) _ _ hkey
    · intro x hx
      obtain ⟨p, hp, hpx⟩ := List.mem_map.1 hx
      exact hpx ▸ hsep1 p hp
    · intro x hx
      obtain ⟨p, hp, hpx⟩ := List.mem_map.1 hx
      exact hpx ▸ hsep2 p hp
  · rw [topKey_startAll t _ (by simp) initialState rfl]
    rfl
  · rw [topKey_startAll t _ (by simp) initialState rfl]
    rfl
  · rw [← hk1, ← hk2]
    exact hne
  · obtain ⟨s', hrun, hg⟩ := run_simulation t
      [Call.start "X".toList a, Call.start "X".toList b, Call.stop c, Call.stop d]
      [] initialState (stackOf_initialState t) rfl
    have hcl : closedFrom [] [Call.start "X".toList a, Call.start "X".toList b, Call.stop c,
        Call.stop d]
        = [{ chain := ["X".toList, "X".toList], startTime := b, endTime := c },
           { chain := ["X".toList], startTime := a, endTime := d }] := rfl
    rw [hcl] at hg
    simp only [List.foldl_cons, List.foldl_nil] at hg
    rw [← hk1, ← hk2]
    refine ⟨s', hrun, ?_, ?_, ?_⟩
    · rw [hg, length_merge, find_merge_ne _ _ _ (by simpa [closedData] using hne), length_merge]
      simp [mapFind, initialState]
    · rw [hg, statView_merge _ (closedData_sample t _), statView_merge _ (closedData_sample t _)]
      simp [record, closedData, hne, recordStat, statView, mapFind, initialState]
    · rw [hg, statView_merge _ (closedData_sample t _), statView_merge _ (closedData_sample t _)]
      simp [record, closedData, hne.symm, recordStat, statView, mapFind, initialState]

/-- For two thread identifiers that differ modulo `2^32` (in
particular two distinct identifiers below `2^32`) and any non-empty chains of
region names, the key built by nested `Zprofiler_start` calls on the first
thread differs from the key built on the second. -/
theorem keys_differ_modulo (t1 t2 : Nat) (hne : t1 % 2 ^ 32 ≠ t2 % 2 ^ 32)
    (c1 c2 : List (List Char × ℚ)) (h1 : c1 ≠ []) (h2 : c2 ≠ [])
    (s1 s2 : ProfilerState) (hs1 : stackOf t1 s1 = []) (hs2 : stackOf t2 s2 = []) :
    topKey t1 (startAll t1 c1 s1) ≠ topKey t2 (startAll t2 c2 s2) := by
  rw [topKey_startAll t1 c1 h1 s1 hs1, topKey_startAll t2 c2 h2 s2 hs2]
  intro h
  exact hne (threadMarker_injective (Option.some.inj h))

/-! ## Unbalanced `end` -/

/-- C10: `Zprofiler_end` called by a thread that has never called
`Zprofiler_start`, so that `mapCallsByThread` holds no stack for it, dereferences
the `end()` iterator: the behaviour is undefined, in the initial state as in any
other. -/
theorem C10_end_without_stack_is_undefined (now : ℚ) (t : Nat) :
    Zprofiler_end now t initialState = none :=
  end_of_missing now t initialState rfl

/-! ## Names that contain the separator -/

/-- `Zprofiler_start` neither rejects nor escapes a name, whatever
it contains: it always pushes one frame, whose key is the thread marker or the
parent key and `|`, followed by the name exactly as given.  The key differs from
the key of every different call path of the thread when no name of either path
contains `|`. -/
theorem names_taken_verbatim (t : Nat) (s : ProfilerState) (hs : stackOf t s = [])
    (c1 c2 : List (List Char × ℚ)) (h1 : c1 ≠ []) (h2 : c2 ≠ [])
    (hsep1 : ∀ p ∈ c1, '|' ∉ p.1) (hsep2 : ∀ p ∈ c2, '|' ∉ p.1)
    (hne : c1.map Prod.fst ≠ c2.map Prod.fst) (name : List Char) (now : ℚ)
    (s0 : ProfilerState) :
    topKey t (startAll t c1 s) ≠ topKey t (startAll t c2 s) ∧
    ∃ frame pre,
      mapFind t (Zprofiler_start name now t s0).mapCallsByThread
        = some (stackOf t s0 ++ [frame]) ∧
      frame.szBunchCodeName = pre ++ name ∧
      (pre = threadMarker t ∨
        ∃ top, (stackOf t s0).getLast? = some top ∧
          pre = top.szBunchCodeName ++ NAME_SEPARATOR) := by
  constructor
  · intro heq
    rw [topKey_startAll t c1 h1 s hs, topKey_startAll t c2 h2 s hs] at heq
    have hkey := List.append_cancel_left (Option.some.inj heq)
    apply hne
    apply intercalate_injective _ _ (by simpa using h1) (by simpa using h2) _ _ hkey
    · intro x hx
      obtain ⟨p, hp, hpx⟩ := List.mem_map.1 hx
      exact hpx ▸ hsep1 p hp
    · intro x hx
      obtain ⟨p, hp, hpx⟩ := List.mem_map.1 hx
      exact hpx ▸ hsep2 p hp
  · cases hl : (stackOf t s0).getLast? with
    | none =>
      refine ⟨pushedFrame name now t (stackOf t s0), threadMarker t,
        start_calls name now t s0, ?_, Or.inl rfl⟩
      simp [pushedFrame, hl]
    | some top =>
      refine ⟨pushedFrame name now t (stackOf t s0), top.szBunchCodeName ++ NAME_SEPARATOR,
        start_calls name now t s0, ?_, Or.inr ⟨top, rfl, rfl⟩⟩
      simp [pushedFrame, hl]

/-! ## Calls without `Zprofiler_enable` -/

/-- C12, as stated, fails: without a prior `Zprofiler_enable`, `Zprofiler_start`
locks the critical section through the null `gProfilerCriticalSection` and
`Zprofiler_end` dereferences the missing stack of the thread; neither call is a
no-op that returns with the state unchanged. -/
theorem C12_counterexample :
    startCall "A".toList 0 0 initialProcess = none ∧
    endCall 0 0 initialProcess = none ∧
    startCall "A".toList 0 0 initialProcess ≠ some initialProcess ∧
    endCall 0 0 initialProcess ≠ some initialProcess := by
  decide

/-- C12 (amended): `LogProfiler` called without a prior `Zprofiler_enable` leaves
the call stacks and `mapProfilerGraph` unchanged and its report has no block and
no line; `Zprofiler_enable` itself changes neither map. -/
theorem C12_log_without_enable
    (stdSort : (tdstGenProfilerData → tdstGenProfilerData → Bool) →
      List tdstGenProfilerData → List tdstGenProfilerData)
    (unAbove : Bool) (hsort : stdSort (MyDataSortPredicate unAbove) [] = [])
    (p : Process) :
    logCall stdSort unAbove initialProcess
      = some (initialProcess, { callstack := [], dump := some [] }) ∧
    (Zprofiler_enable p).state = p.state := by
  constructor
  · simp [logCall, LogProfiler, sortedCallStack, namedGraph, initialProcess, initialState,
      hsort, collectThreadIds, logThreads, dumpThreads]
  · rfl

/-- C12 (amended) for a `std::sort` that moves nothing. -/
theorem C12_log_without_enable_witness :
    sortKeeps (MyDataSortPredicate false) [] = [] ∧
    logCall sortKeeps false initialProcess
      = some (initialProcess, { callstack := [], dump := some [] }) ∧
    (Zprofiler_enable initialProcess).state = initialProcess.state :=
  ⟨rfl, C12_log_without_enable sortKeeps false rfl initialProcess⟩

/-! ## Text functions of `LogProfiler` -/

theorem strstr_iff (haystack needle : List Char) :
    strstr haystack needle = true ↔ needle <:+: haystack := by
  unfold strstr
  rw [List.any_eq_true, List.infix_iff_prefix_suffix]
  constructor
  · rintro ⟨x, hx, hp⟩
    exact ⟨x, List.isPrefixOf_iff_prefix.1 hp, (List.mem_tails _ _).1 hx⟩
  · rintro ⟨x, hp, hx⟩
    exact ⟨x, (List.mem_tails _ _).2 hx, List.isPrefixOf_iff_prefix.2 hp⟩

theorem strstr_prefix (needle rest : List Char) : strstr (needle ++ rest) needle = true :=
  (strstr_iff _ _).2 (List.prefix_append _ _).isInfix

theorem afterLast_eq_none {c : Char} {l : List Char} (h : c ∉ l) : afterLast c l = none := by
  induction l with
  | nil => rfl
  | cons x xs ih =>
    have hx : x ≠ c := fun hxc => h (hxc ▸ List.mem_cons_self _ _)
    have hxs : c ∉ xs := fun hm => h (List.mem_cons_of_mem _ hm)
    simp [afterLast, ih hxs, hx]

theorem afterLast_append (c : Char) (pre post : List Char) (h : c ∉ post) :
    afterLast c (pre ++ c :: post) = some post := by
  induction pre with
  | nil => simp [afterLast, afterLast_eq_none h]
  | cons x xs ih => simp [afterLast, ih]

theorem bar_not_mem_decimalInt (i : Int) : '|' ∉ decimalInt i := by
  intro h
  unfold decimalInt at h
  have hmem : '|' ∈ decimalNat i.natAbs := by
    split_ifs at h
    · simpa using h
    · exact h
  obtain ⟨d, hd, hc⟩ := mem_decimalNat hmem
  exact (digitChar_ne_special d hd).2.2 hc.symm

theorem threadMarker_eq (t : Nat) :
    threadMarker t = '|' :: (decimalInt (toInt32 t) ++ ['@']) := by
  simp [threadMarker, NAME_SEPARATOR, THREADID_NAME_SEPARATOR]

theorem decimalInt_ne_nil (i : Int) : decimalInt i ≠ [] := by
  unfold decimalInt
  split_ifs
  · simp
  · exact decimalNat_ne_nil _

theorem threadIdText_marker (t : Nat) (rest : List Char) :
    threadIdText (threadMarker t ++ rest) = some (decimalInt (toInt32 t)) := by
  have hat := at_not_mem_decimalInt (toInt32 t)
  have hidx : (threadMarker t ++ rest).indexOf '@' = (decimalInt (toInt32 t)).length + 1 := by
    rw [threadMarker_eq]
    simp only [List.cons_append, List.append_assoc, List.singleton_append]
    rw [List.indexOf_cons_ne _ (by decide), List.indexOf_append_of_not_mem hat,
      List.indexOf_cons_self]
  have hmem : '@' ∈ threadMarker t ++ rest := by
    rw [threadMarker_eq]
    simp
  unfold threadIdText
  rw [if_pos hmem, hidx, if_neg (by omega)]
  rw [threadMarker_eq]
  simp

theorem count_bar_intercalate (chain : List (List Char)) (hne : chain ≠ [])
    (hsep : ∀ x ∈ chain, '|' ∉ x) :
    (NAME_SEPARATOR.intercalate chain).count '|' = chain.length - 1 := by
  induction chain with
  | nil => exact absurd rfl hne
  | cons a rest ih =>
    cases rest with
    | nil =>
      rw [intercalate_singleton]
      simpa using List.count_eq_zero.2 (hsep a (List.mem_cons_self _ _))
    | cons b rest' =>
      rw [intercalate_cons_cons]
      have hrec := ih (by simp) (fun x hx => hsep x (List.mem_cons_of_mem _ hx))
      have ha : a.count '|' = 0 := List.count_eq_zero.2 (hsep a (List.mem_cons_self _ _))
      have hs : NAME_SEPARATOR.count '|' = 1 := by decide
      rw [List.count_append, List.count_append, ha, hrec, hs]
      simp
      omega

theorem count_bar_pathKey (t : Nat) (chain : List (List Char)) (hne : chain ≠ [])
    (hsep : ∀ x ∈ chain, '|' ∉ x) :
    ((pathKey t chain).drop 1).count '|' = chain.length - 1 := by
  unfold pathKey
  rw [threadMarker_eq]
  simp only [List.cons_append, List.drop_succ_cons, List.drop_zero, List.count_append]
  rw [List.count_eq_zero.2 (bar_not_mem_decimalInt _), count_bar_intercalate chain hne hsep]
  simp

theorem afterLast_pathKey_nested (t : Nat) (anc : List (List Char)) (hanc : anc ≠ [])
    (name : List Char) (h : '|' ∉ name) :
    afterLast '|' (pathKey t (anc ++ [name])) = some name := by
  have : pathKey t (anc ++ [name])
      = (threadMarker t ++ NAME_SEPARATOR.intercalate anc) ++ '|' :: name := by
    unfold pathKey
    rw [intercalate_concat _ _ hanc]
    simp [NAME_SEPARATOR]
  rw [this]
  exact afterLast_append '|' _ _ h

/-! ## The hierarchical report of one thread -/

theorem afterLast_isSome {c : Char} {l : List Char} (h : c ∈ l) :
    ∃ r, afterLast c l = some r := by
  induction l with
  | nil => simp at h
  | cons x xs ih =>
    by_cases hxs : c ∈ xs
    · obtain ⟨r, hr⟩ := ih hxs
      exact ⟨r, by simp [afterLast, hr]⟩
    · have hx : x = c := by
        rcases List.mem_cons.1 h with h1 | h1
        · exact h1.symm
        · exact absurd h1 hxs
      exact ⟨xs, by simp [afterLast, afterLast_eq_none hxs, hx]⟩

theorem markedBy_strstr {t : Nat} {e : tdstGenProfilerData} (h : MarkedBy t e) :
    strstr (e.szBunchCodeName.drop 1) (decimalInt (toInt32 t)) = true := by
  obtain ⟨rest, hr⟩ := h
  rw [hr, threadMarker_eq]
  simp only [List.cons_append, List.drop_succ_cons, List.drop_zero, List.append_assoc]
  exact strstr_prefix _ _

theorem markedBy_afterLast {t : Nat} {e : tdstGenProfilerData} (h : MarkedBy t e) :
    ∃ leaf, afterLast '|' e.szBunchCodeName = some leaf := by
  obtain ⟨rest, hr⟩ := h
  apply afterLast_isSome
  rw [hr, threadMarker_eq]
  simp

theorem logEntry_marked {t : Nat} {e : tdstGenProfilerData} (h : MarkedBy t e)
    (acc : List (List Char × tdstGenProfilerData) × List ReportLine) :
    logEntry (decimalInt (toInt32 t)) acc e
      = some (mergeIntoCalls (decimalInt (toInt32 t))
                ((afterLast '|' e.szBunchCodeName).getD []) e acc.1,
              acc.2 ++ [hierLine (decimalInt (toInt32 t)) e]) := by
  obtain ⟨leaf, hleaf⟩ := markedBy_afterLast h
  unfold logEntry
  simp only [markedBy_strstr h, if_true, hleaf, Option.getD_some, hierLine]

theorem logEntries_marked (t : Nat) (l : List tdstGenProfilerData) :
    ∀ (_ : ∀ e ∈ l, MarkedBy t e)
      (acc : List (List Char × tdstGenProfilerData) × List ReportLine),
      logEntries (decimalInt (toInt32 t)) l acc
        = some (callsAfter (decimalInt (toInt32 t)) l acc.1,
                acc.2 ++ l.map (hierLine (decimalInt (toInt32 t)))) := by
  induction l with
  | nil => intro _ acc; simp [logEntries, callsAfter]
  | cons e rest ih =>
    intro h acc
    have he := h e (List.mem_cons_self _ _)
    have hrest : ∀ x ∈ rest, MarkedBy t x := fun x hx => h x (List.mem_cons_of_mem _ hx)
    simp only [logEntries, logEntry_marked he, Option.some_bind]
    rw [ih hrest]
    simp [callsAfter, List.append_assoc]

theorem countThreadId_keys (szThreadId : List Char) (ids : List (List Char × Int))
    (h : ids.map Prod.fst = [] ∨ ids.map Prod.fst = [szThreadId]) :
    (countThreadId szThreadId ids).map Prod.fst = [szThreadId] := by
  unfold countThreadId
  rcases h with h | h
  · have hnil : ids = [] := by simpa using h
    subst hnil
    simp [mapFind, mapInsert]
  · cases hf : mapFind szThreadId ids with
    | none =>
      exfalso
      have := (mapFind_eq_none_iff _ _).1 hf
      rw [h] at this
      simp at this
    | some n =>
      simp only
      rw [keys_mapSet, h]

theorem collectThreadIds_marked (t : Nat) (l : List tdstGenProfilerData) :
    ∀ (_ : ∀ e ∈ l, MarkedBy t e) (ids : List (List Char × Int))
      (_ : ids.map Prod.fst = [] ∨ ids.map Prod.fst = [decimalInt (toInt32 t)]),
      ∃ ids', collectThreadIds l ids = some ids' ∧
        ids'.map Prod.fst = if l = [] then ids.map Prod.fst else [decimalInt (toInt32 t)] := by
  induction l with
  | nil => intro _ ids _; exact ⟨ids, rfl, by simp⟩
  | cons e rest ih =>
    intro h ids hids
    obtain ⟨r, hr⟩ := h e (List.mem_cons_self _ _)
    have hrest : ∀ x ∈ rest, MarkedBy t x := fun x hx => h x (List.mem_cons_of_mem _ hx)
    have hk := countThreadId_keys (decimalInt (toInt32 t)) ids hids
    obtain ⟨ids', hc, hkeys⟩ := ih hrest _ (Or.inr hk)
    refine ⟨ids', ?_, ?_⟩
    · simp only [collectThreadIds, hr, threadIdText_marker, hc]
    · rw [hkeys, hk]
      simp

theorem logProfiler_marked (t : Nat)
    (stdSort : (tdstGenProfilerData → tdstGenProfilerData → Bool) →
      List tdstGenProfilerData → List tdstGenProfilerData)
    (unAbove : Bool) (s : ProfilerState)
    (h : ∀ e ∈ sortedCallStack stdSort unAbove s, MarkedBy t e) :
    LogProfiler stdSort unAbove s
      = some ({ s with mapProfilerGraph := namedGraph s.mapProfilerGraph },
          { callstack :=
              (if sortedCallStack stdSort unAbove s = [] then []
               else [{ szThreadId := decimalInt (toInt32 t)
                       lines := (sortedCallStack stdSort unAbove s).map
                                  (hierLine (decimalInt (toInt32 t))) }])
            dump :=
              dumpThreads
                (callsAfter (decimalInt (toInt32 t)) (sortedCallStack stdSort unAbove s) [])
                (if sortedCallStack stdSort unAbove s = [] then []
                 else [decimalInt (toInt32 t)]) }) := by
  obtain ⟨ids, hc, hkeys⟩ := collectThreadIds_marked t _ h [] (Or.inl rfl)
  unfold LogProfiler
  simp only [hc]
  by_cases hnil : sortedCallStack stdSort unAbove s = []
  · rw [if_pos hnil] at hkeys
    simp only [List.map_nil] at hkeys
    rw [hkeys]
    simp [logThreads, hnil, callsAfter]
  · rw [if_neg hnil] at hkeys
    rw [hkeys]
    simp [logThreads, logEntries_marked t _ h, hnil]

/-! ## The graph of a call sequence of one thread -/

theorem run_keys {t : Nat} {calls : List Call} (hwn : WellNested calls) {s : ProfilerState}
    (hrun : runCalls t calls initialState = some s) (k : List Char) :
    k ∈ s.mapProfilerGraph.map Prod.fst ↔ k ∈ closedKeys t calls := by
  obtain ⟨s', hrun', hview⟩ := statView_run t calls hwn
  rw [hrun] at hrun'
  cases hrun'
  rw [mem_keys_iff, hview, Ne, aggregate_eq_none_iff, samplesOf_eq_nil_iff, not_not]

theorem closedFrom_chain (calls : List Call) :
    ∀ (opened : List (List Char × ℚ)) (c : ClosedFrame), c ∈ closedFrom opened calls →
      c.chain ≠ [] ∧
      ∀ n ∈ c.chain, n ∈ opened.map Prod.fst ∨ ∃ now, Call.start n now ∈ calls := by
  induction calls with
  | nil => intro opened c hc; simp [closedFrom] at hc
  | cons call rest ih =>
    intro opened c hc
    cases call with
    | start name now =>
      simp only [closedFrom] at hc
      obtain ⟨hne, hmem⟩ := ih _ c hc
      refine ⟨hne, fun n hn => ?_⟩
      rcases hmem n hn with h | ⟨now', h⟩
      · simp only [List.map_append, List.map_cons, List.map_nil, List.mem_append,
          List.mem_singleton] at h
        rcases h with h | h
        · exact Or.inl h
        · exact Or.inr ⟨now, by simp [h]⟩
      · exact Or.inr ⟨now', List.mem_cons_of_mem _ h⟩
    | stop now =>
      simp only [closedFrom] at hc
      cases hl : opened.getLast? with
      | none =>
        rw [hl] at hc
        obtain ⟨hne, hmem⟩ := ih _ c hc
        refine ⟨hne, fun n hn => ?_⟩
        rcases hmem n hn with h | ⟨now', h⟩
        · exact Or.inl h
        · exact Or.inr ⟨now', List.mem_cons_of_mem _ h⟩
      | some p =>
        rw [hl] at hc
        simp only [List.mem_cons] at hc
        rcases hc with hc | hc
        · subst hc
          have hopen : opened ≠ [] := by
            intro h0
            rw [h0] at hl
            simp at hl
          exact ⟨by simpa using hopen, fun n hn => Or.inl hn⟩
        · obtain ⟨hne, hmem⟩ := ih _ c hc
          refine ⟨hne, fun n hn => ?_⟩
          rcases hmem n hn with h | ⟨now', h⟩
          · refine Or.inl ?_
            obtain ⟨q, hq, hqn⟩ := List.mem_map.1 h
            exact List.mem_map.2 ⟨q, List.dropLast_subset _ hq, hqn⟩
          · exact Or.inr ⟨now', List.mem_cons_of_mem _ h⟩

theorem closed_chain_avoids {calls : List Call} {ch : Char}
    (hsep : ∀ name now, Call.start name now ∈ calls → ch ∉ name)
    {c : ClosedFrame} (hc : c ∈ closedFrom [] calls) :
    c.chain ≠ [] ∧ ∀ n ∈ c.chain, ch ∉ n := by
  obtain ⟨hne, hmem⟩ := closedFrom_chain calls [] c hc
  refine ⟨hne, fun n hn => ?_⟩
  rcases hmem n hn with h | ⟨now, h⟩
  · simp at h
  · exact hsep n now h

theorem mem_namedGraph_snd {g : List (List Char × tdstGenProfilerData)}
    {e : tdstGenProfilerData} (h : e ∈ (namedGraph g).map Prod.snd) :
    e.szBunchCodeName ∈ g.map Prod.fst := by
  unfold namedGraph at h
  simp only [List.map_map, List.mem_map, Function.comp_apply] at h
  obtain ⟨p, hp, he⟩ := h
  rw [← he]
  exact List.mem_map.2 ⟨p, hp, rfl⟩

theorem namedGraph_names (g : List (List Char × tdstGenProfilerData)) :
    ((namedGraph g).map Prod.snd).map (fun e => e.szBunchCodeName) = g.map Prod.fst := by
  unfold namedGraph
  simp [List.map_map, Function.comp_def]

theorem sorted_entry_closed {t : Nat} {calls : List Call} (hwn : WellNested calls)
    {s : ProfilerState} (hrun : runCalls t calls initialState = some s)
    {stdSort : (tdstGenProfilerData → tdstGenProfilerData → Bool) →
      List tdstGenProfilerData → List tdstGenProfilerData}
    {unAbove : Bool}
    (hperm : ∀ l, (stdSort (MyDataSortPredicate unAbove) l).Perm l)
    {e : tdstGenProfilerData} (he : e ∈ sortedCallStack stdSort unAbove s) :
    ∃ c ∈ closedFrom [] calls, e.szBunchCodeName = pathKey t c.chain := by
  unfold sortedCallStack at he
  have h1 := (hperm _).mem_iff.1 he
  have h2 := (run_keys hwn hrun _).1 (mem_namedGraph_snd h1)
  unfold closedKeys at h2
  obtain ⟨c, hc, hk⟩ := List.mem_map.1 h2
  exact ⟨c, hc, hk.symm⟩

theorem closed_entry_sorted {t : Nat} {calls : List Call} (hwn : WellNested calls)
    {s : ProfilerState} (hrun : runCalls t calls initialState = some s)
    {stdSort : (tdstGenProfilerData → tdstGenProfilerData → Bool) →
      List tdstGenProfilerData → List tdstGenProfilerData}
    {unAbove : Bool}
    (hperm : ∀ l, (stdSort (MyDataSortPredicate unAbove) l).Perm l)
    {c : ClosedFrame} (hc : c ∈ closedFrom [] calls) :
    ∃ e ∈ sortedCallStack stdSort unAbove s, e.szBunchCodeName = pathKey t c.chain := by
  have hk : pathKey t c.chain ∈ closedKeys t calls := List.mem_map.2 ⟨c, hc, rfl⟩
  have h2 := (run_keys hwn hrun _).2 hk
  rw [← namedGraph_names] at h2
  obtain ⟨e, he, hname⟩ := List.mem_map.1 h2
  exact ⟨e, (hperm _).mem_iff.2 he, hname⟩

theorem sorted_marked {t : Nat} {calls : List Call} (hwn : WellNested calls)
    {s : ProfilerState} (hrun : runCalls t calls initialState = some s)
    {stdSort : (tdstGenProfilerData → tdstGenProfilerData → Bool) →
      List tdstGenProfilerData → List tdstGenProfilerData}
    {unAbove : Bool}
    (hperm : ∀ l, (stdSort (MyDataSortPredicate unAbove) l).Perm l) :
    ∀ e ∈ sortedCallStack stdSort unAbove s, MarkedBy t e := by
  intro e he
  obtain ⟨c, _, hk⟩ := sorted_entry_closed hwn hrun hperm he
  exact ⟨_, hk⟩

theorem mem_callstack_lines {t : Nat} {l : List tdstGenProfilerData}
    {b : ThreadBlock} {line : ReportLine}
    (hb : b ∈ (if l = [] then []
               else [({ szThreadId := decimalInt (toInt32 t)
                        lines := l.map (hierLine (decimalInt (toInt32 t))) } : ThreadBlock)]))
    (hline : line ∈ b.lines) :
    ∃ e ∈ l, line = hierLine (decimalInt (toInt32 t)) e := by
  split_ifs at hb with h
  · simp at hb
  · rw [List.mem_singleton] at hb
    subst hb
    obtain ⟨e, he, hl⟩ := List.mem_map.1 hline
    exact ⟨e, he, hl.symm⟩

/-- After a well-nested call sequence of one thread with region names free of
`|`, the hierarchical report has a line for every closed region, and every line
is indented by as many two-space units as there are `|` in its path key after
the first character, which is the number of ancestors of the region (the length
of its chain of names minus one; none for a top-level region). -/
theorem indentation_is_depth (t : Nat) (calls : List Call) (hwn : WellNested calls)
    (hsep : ∀ name now, Call.start name now ∈ calls → '|' ∉ name)
    (stdSort : (tdstGenProfilerData → tdstGenProfilerData → Bool) →
      List tdstGenProfilerData → List tdstGenProfilerData)
    (unAbove : Bool)
    (hperm : ∀ l, (stdSort (MyDataSortPredicate unAbove) l).Perm l) :
    ∃ s s' r, runCalls t calls initialState = some s ∧
      LogProfiler stdSort unAbove s = some (s', r) ∧
      (∀ c ∈ closedFrom [] calls, ∃ b ∈ r.callstack, ∃ line ∈ b.lines,
        line.key = pathKey t c.chain) ∧
      (∀ b ∈ r.callstack, ∀ line ∈ b.lines,
        line.indent = (line.key.drop 1).count '|' ∧
        ∀ c ∈ closedFrom [] calls, line.key = pathKey t c.chain →
          line.indent = c.chain.length - 1) := by
  obtain ⟨s, hrun, _⟩ := run_from_initial t calls hwn
  have hmarked := sorted_marked hwn hrun hperm
  refine ⟨s, _, _, hrun, logProfiler_marked t stdSort unAbove s hmarked, ?_, ?_⟩
  · intro c hc
    obtain ⟨e, he, hk⟩ := closed_entry_sorted hwn hrun hperm hc
    have hne : sortedCallStack stdSort unAbove s ≠ [] := List.ne_nil_of_mem he
    refine ⟨_, by simp only [if_neg hne]; exact List.mem_singleton.2 rfl, ?_⟩
    exact ⟨hierLine _ e, List.mem_map.2 ⟨e, he, rfl⟩, hk⟩
  · intro b hb line hline
    obtain ⟨e, _, hl⟩ := mem_callstack_lines hb hline
    subst hl
    refine ⟨rfl, fun c hc hk => ?_⟩
    obtain ⟨hne, hfree⟩ := closed_chain_avoids hsep hc
    simp only [hierLine] at hk ⊢
    rw [hk, count_bar_pathKey t c.chain hne hfree]

/-! ## Ascending key order -/

theorem mapInsert_keys_sorted (k : List Char) (v : tdstGenProfilerData)
    (m : List (List Char × tdstGenProfilerData))
    (h : (m.map Prod.fst).Pairwise (· < ·)) :
    ((mapInsert k v m).map Prod.fst).Pairwise (· < ·) := by
  induction m with
  | nil => simp [mapInsert]
  | cons p rest ih =>
    obtain ⟨k0, v0⟩ := p
    simp only [List.map_cons, List.pairwise_cons] at h
    obtain ⟨h0, hrest⟩ := h
    by_cases hk : k = k0
    · simp only [mapInsert, hk, if_true, List.map_cons, List.pairwise_cons]
      exact ⟨h0, hrest⟩
    · by_cases hlt : k < k0
      · simp only [mapInsert, hk, hlt, if_true, if_false, List.map_cons, List.pairwise_cons]
        refine ⟨?_, h0, hrest⟩
        intro a ha
        rcases List.mem_cons.1 ha with ha | ha
        · rw [ha]; exact hlt
        · exact lt_trans hlt (h0 a ha)
      · simp only [mapInsert, hk, hlt, if_false, List.map_cons, List.pairwise_cons]
        refine ⟨?_, ih hrest⟩
        intro a ha
        obtain ⟨q, hq, hqa⟩ := List.mem_map.1 ha
        rcases mem_mapInsert hq with hq' | hq'
        · rw [← hqa, hq']
          rcases lt_trichotomy k k0 with h1 | h1 | h1
          · exact absurd h1 hlt
          · exact absurd h1 hk
          · exact h1
        · exact h0 a (hqa ▸ List.mem_map.2 ⟨q, hq', rfl⟩)

theorem keys_sorted_merge (D : tdstGenProfilerData)
    (g : List (List Char × tdstGenProfilerData))
    (h : (g.map Prod.fst).Pairwise (· < ·)) :
    ((mergeIntoGraph D g).map Prod.fst).Pairwise (· < ·) := by
  rw [mergeIntoGraph_eq]
  cases hf : mapFind D.szBunchCodeName g with
  | none => exact mapInsert_keys_sorted _ _ _ h
  | some entry =>
    simp only
    rw [keys_mapSet]
    exact h

theorem keys_sorted_fold (t : Nat) (cs : List ClosedFrame) :
    ∀ g : List (List Char × tdstGenProfilerData), (g.map Prod.fst).Pairwise (· < ·) →
      ((cs.foldl (fun g c => mergeIntoGraph (closedData t c) g) g).map Prod.fst).Pairwise
        (· < ·) := by
  induction cs with
  | nil => intro g h; exact h
  | cons c rest ih =>
    intro g h
    exact ih _ (keys_sorted_merge _ _ h)

theorem run_keys_sorted {t : Nat} {calls : List Call} (hwn : WellNested calls)
    {s : ProfilerState} (hrun : runCalls t calls initialState = some s) :
    (s.mapProfilerGraph.map Prod.fst).Pairwise (· < ·) := by
  obtain ⟨s', hrun', hg⟩ := run_from_initial t calls hwn
  rw [hrun] at hrun'
  cases hrun'
  rw [hg]
  exact keys_sorted_fold t _ [] List.Pairwise.nil

theorem append_lt_append_left (P : List Char) {a b : List Char} (h : a < b) :
    P ++ a < P ++ b :=
  List.Lex.append_left _ h P

theorem pairwise_between {α : Type} (f : α → List Char) :
    ∀ (l : List α), (l.map f).Pairwise (· < ·) → ∀ (x y : α), x ∈ l → y ∈ l → f x < f y →
      ∃ pre mid post, l = pre ++ x :: (mid ++ y :: post) ∧
        ∀ m ∈ mid, f x < f m ∧ f m < f y := by
  intro l hl x y hx hy hxy
  obtain ⟨pre, tail, hsplit⟩ := List.append_of_mem hx
  subst hsplit
  rw [List.map_append, List.map_cons, List.pairwise_append, List.pairwise_cons] at hl
  obtain ⟨_, ⟨hxtail, htail⟩, hcross⟩ := hl
  rcases List.mem_append.1 hy with hy1 | hy1
  · exfalso
    have := hcross (f y) (List.mem_map.2 ⟨y, hy1, rfl⟩) (f x) (List.mem_cons_self _ _)
    exact lt_asymm this hxy
  · rcases List.mem_cons.1 hy1 with hy2 | hy2
    · exfalso
      rw [hy2] at hxy
      exact lt_irrefl _ hxy
    · obtain ⟨mid, post, hsplit2⟩ := List.append_of_mem hy2
      subst hsplit2
      refine ⟨pre, mid, post, rfl, fun m hm => ?_⟩
      rw [List.map_append, List.map_cons, List.pairwise_append] at htail
      obtain ⟨_, _, hcross2⟩ := htail
      refine ⟨hxtail (f m) (List.mem_map.2 ⟨m, List.mem_append_left _ hm, rfl⟩), ?_⟩
      exact hcross2 (f m) (List.mem_map.2 ⟨m, hm, rfl⟩) (f y) (List.mem_cons_self _ _)

theorem hierLine_key (T : List Char) (l : List tdstGenProfilerData) :
    (l.map (hierLine T)).map (fun line => line.key) = l.map (fun e => e.szBunchCodeName) := by
  simp [List.map_map, Function.comp_def, hierLine]

theorem lines_sorted {t : Nat} {calls : List Call} (hwn : WellNested calls)
    {s : ProfilerState} (hrun : runCalls t calls initialState = some s)
    {stdSort : (tdstGenProfilerData → tdstGenProfilerData → Bool) →
      List tdstGenProfilerData → List tdstGenProfilerData}
    {unAbove : Bool}
    (hkeep : ∀ l, stdSort (MyDataSortPredicate unAbove) l = l)
    {b : ThreadBlock}
    (hb : b ∈ (if sortedCallStack stdSort unAbove s = [] then []
               else [({ szThreadId := decimalInt (toInt32 t)
                        lines := (sortedCallStack stdSort unAbove s).map
                                   (hierLine (decimalInt (toInt32 t))) } : ThreadBlock)])) :
    (b.lines.map (fun line => line.key)).Pairwise (· < ·) := by
  split_ifs at hb with h
  · simp at hb
  · rw [List.mem_singleton] at hb
    subst hb
    simp only
    rw [hierLine_key]
    unfold sortedCallStack
    rw [hkeep, namedGraph_names]
    exact run_keys_sorted hwn hrun

theorem mainCalls_no_at : ∀ name now, Call.start name now ∈ mainCalls → '@' ∉ name := by
  intro name now h
  simp only [mainCalls, List.mem_cons, Call.start.injEq, List.mem_singleton, reduceCtorEq,
    false_or, or_false, List.not_mem_nil] at h
  rcases h with ⟨h, _⟩ | ⟨h, _⟩ | ⟨h, _⟩ <;> subst h <;> decide

/-- When the call of `std::sort` leaves the vector in the ascending
key order in which it was copied from the map, two regions with the same parent
path appear in the hierarchical report of a well-nested call sequence of one
thread in the ascending order of their names (compared character by character),
whatever the order in which they were recorded. -/
theorem siblings_in_name_order (t : Nat) (calls : List Call) (hwn : WellNested calls)
    (stdSort : (tdstGenProfilerData → tdstGenProfilerData → Bool) →
      List tdstGenProfilerData → List tdstGenProfilerData)
    (unAbove : Bool)
    (hkeep : ∀ l, stdSort (MyDataSortPredicate unAbove) l = l) :
    ∃ s s' r, runCalls t calls initialState = some s ∧
      LogProfiler stdSort unAbove s = some (s', r) ∧
      ∀ b ∈ r.callstack, ∀ first ∈ b.lines, ∀ second ∈ b.lines,
        ∀ (parentKey name1 name2 : List Char),
        first.key = parentKey ++ NAME_SEPARATOR ++ name1 →
        second.key = parentKey ++ NAME_SEPARATOR ++ name2 →
        name1 < name2 →
        ∃ pre mid post, b.lines = pre ++ first :: (mid ++ second :: post) := by
  obtain ⟨s, hrun, _⟩ := run_from_initial t calls hwn
  have hperm : ∀ l, (stdSort (MyDataSortPredicate unAbove) l).Perm l :=
    fun l => by rw [hkeep]
  have hmarked := sorted_marked hwn hrun hperm
  refine ⟨s, _, _, hrun, logProfiler_marked t stdSort unAbove s hmarked, ?_⟩
  intro b hb first hf second hs parentKey name1 name2 hk1 hk2 hlt
  have hsorted := lines_sorted hwn hrun hkeep hb
  have hkeys : first.key < second.key := by
    rw [hk1, hk2]
    exact append_lt_append_left _ hlt
  obtain ⟨pre, mid, post, hsplit, _⟩ :=
    pairwise_between (fun line : ReportLine => line.key) b.lines hsorted first second hf hs hkeys
  exact ⟨pre, mid, post, hsplit⟩

theorem twoThread_run :
    ∃ s1 s2, runCalls 4 threadFourCalls initialState = some s1 ∧
      runCalls 24 threadTwentyFourCalls s1 = some s2 ∧
      s2.mapProfilerGraph = twoThreadGraph := by
  obtain ⟨s1, hrun1, hg1⟩ := run_simulation 4 threadFourCalls [] initialState
    (stackOf_initialState 4) rfl
  have hstack : stackOf 24 s1 = framesOf 24 [] := by
    have : runCalls 4 threadFourCalls initialState = some s1 := hrun1
    simp only [threadFourCalls, runCalls, Option.bind_eq_some] at this
    obtain ⟨s', hend, hs'⟩ := this
    cases hs'
    rcases end_cases hend with ⟨_, hs⟩ | ⟨st, top, _, hs⟩
    · rw [hs]
      simp [stackOf, start_calls_ne _ _ 4 24 initialState (by decide), initialState, mapFind,
        framesOf]
    · rw [hs]
      simp [stackOf, mapFind_mapSet_ne, start_calls_ne _ _ 4 24 initialState (by decide),
        initialState, mapFind, framesOf]
  obtain ⟨s2, hrun2, hg2⟩ := run_simulation 24 threadTwentyFourCalls [] s1 hstack rfl
  refine ⟨s1, s2, hrun1, hrun2, ?_⟩
  rw [hg2, hg1]
  have hk4 : pathKey 4 [['A']] = "|4@A".toList := by
    simp [pathKey, threadMarker, NAME_SEPARATOR, THREADID_NAME_SEPARATOR, decimalInt, toInt32,
      decimalNat, digitChar, List.intercalate, List.intersperse]
  have hk24 : pathKey 24 [['A']] = "|24@A".toList := by
    simp [pathKey, threadMarker, NAME_SEPARATOR, THREADID_NAME_SEPARATOR, decimalInt, toInt32,
      decimalNat, digitChar, List.intercalate, List.intersperse]
  have hc4 : closedFrom [] threadFourCalls
      = [{ chain := [['A']], startTime := 0, endTime := 2 }] := rfl
  have hc24 : closedFrom [] threadTwentyFourCalls
      = [{ chain := [['A']], startTime := 0, endTime := 1 }] := rfl
  rw [hc4, hc24]
  simp only [List.foldl_cons, List.foldl_nil, closedData, hk4, hk24, twoThreadGraph]
  rfl

theorem logProfiler_of_graph {α : Type}
    (stdSort : (tdstGenProfilerData → tdstGenProfilerData → Bool) →
      List tdstGenProfilerData → List tdstGenProfilerData)
    (unAbove : Bool) (s : ProfilerState) (view : Report → α) (v : α)
    (h : (reportOfGraph stdSort unAbove s.mapProfilerGraph).map view = some v) :
    ∃ s' r, LogProfiler stdSort unAbove s = some (s', r) ∧ view r = v := by
  unfold reportOfGraph LogProfiler sortedCallStack at h
  unfold LogProfiler sortedCallStack
  simp only at h ⊢
  cases hc : collectThreadIds
      (stdSort (MyDataSortPredicate unAbove) ((namedGraph s.mapProfilerGraph).map Prod.snd)) [] with
  | none => rw [hc] at h; simp at h
  | some ids =>
    rw [hc] at h
    simp only at h ⊢
    cases hl : logThreads
        (stdSort (MyDataSortPredicate unAbove) ((namedGraph s.mapProfilerGraph).map Prod.snd))
        (ids.map Prod.fst) [] with
    | none => rw [hl] at h; simp at h
    | some res =>
      rw [hl] at h
      obtain ⟨mc, cs⟩ := res
      simp only [Option.map_some', Option.some.injEq] at h
      exact ⟨_, _, rfl, h⟩

/-- C13: a region `A` started inside a region `A` on thread 0 gives two call
paths with the leaf name `A`, one top-level and one nested: the hierarchical
report has two lines and the flat report has two lines as well, both named `A`,
instead of one line with the sums; `mapCalls` holds the top-level one under
`0@A` and the nested one under `A`.  The result is the same when `std::sort`
reverses the vector. -/
theorem C13_same_leaf_two_flat_lines :
    WellNested nestedSameCalls ∧
    (reportAfter sortKeeps false 0 nestedSameCalls).map callstackView
      = some [("0".toList, [("|0@A".toList, 0, "A".toList),
                            ("|0@A|A".toList, 1, "A".toList)])] ∧
    (reportAfter sortKeeps false 0 nestedSameCalls).bind dumpView
      = some [("0".toList, [("0@A".toList, "A".toList), ("A".toList, "A".toList)])] ∧
    (reportAfter sortReverses true 0 nestedSameCalls).bind dumpView
      = some [("0".toList, [("0@A".toList, "A".toList), ("A".toList, "A".toList)])] :=
  ⟨by decide, by rfl, by rfl, by rfl⟩

/-- C17: with the threads 4 and 24, each recording one region `A`, the
`CALLSTACK` block of thread 4 also lists the entry `|24@A` of thread 24 (with
the name `@A`), because its key contains the text `4`. -/
theorem C17_block_lists_other_thread :
    ∃ s1 s2 s' r, runCalls 4 threadFourCalls initialState = some s1 ∧
      runCalls 24 threadTwentyFourCalls s1 = some s2 ∧
      LogProfiler sortKeeps false s2 = some (s', r) ∧
      callstackView r
        = [("24".toList, [("|24@A".toList, 0, "A".toList)]),
           ("4".toList, [("|24@A".toList, 0, "@A".toList), ("|4@A".toList, 0, "A".toList)])] := by
  obtain ⟨s1, s2, h1, h2, hg⟩ := twoThread_run
  have hrep : (reportOfGraph sortKeeps false s2.mapProfilerGraph).map callstackView
      = some [("24".toList, [("|24@A".toList, 0, "A".toList)]),
              ("4".toList, [("|24@A".toList, 0, "@A".toList),
                            ("|4@A".toList, 0, "A".toList)])] := by
    rw [hg]
    rfl
  obtain ⟨s', r, hlog, hview⟩ := logProfiler_of_graph sortKeeps false s2 callstackView _ hrep
  exact ⟨s1, s2, s', r, h1, h2, hlog, hview⟩

/-- C19: the region `f0` nested in `A` on thread 0 is printed in the flat report
with an empty section name: its name contains the text `0` of the thread
identifier, so it is stored without the prefix `0@` that printing skips. -/
theorem C19_flat_name_is_cut :
    WellNested digitNameCalls ∧
    (reportAfter sortKeeps false 0 digitNameCalls).map callstackView
      = some [("0".toList, [("|0@A".toList, 0, "A".toList),
                            ("|0@A|f0".toList, 1, "f0".toList)])] ∧
    (reportAfter sortKeeps false 0 digitNameCalls).bind dumpView
      = some [("0".toList, [("0@A".toList, "A".toList), ("f0".toList, [])])] ∧
    (reportAfter sortReverses true 0 digitNameCalls).bind dumpView
      = some [("0".toList, [("0@A".toList, "A".toList), ("f0".toList, [])])] :=
  ⟨by decide, by rfl, by rfl, by rfl⟩

/-! ## Frame of `Zprofiler_start` and `Zprofiler_end` -/

/-- `Zprofiler_start` on thread `t` leaves `mapProfilerGraph` and the stack
of every other thread unchanged and puts one new frame on top of the unchanged
frames of the stack of `t`; `Zprofiler_end` on a thread `t` whose stack is
`st ++ [top]` returns, leaves `st` as the stack of `t`, leaves the stack of every
other thread unchanged, and changes no entry of `mapProfilerGraph` other than
the one stored under the path key of `top`. -/
theorem frame_of_start_and_end (name : List Char) (now : ℚ) (t : Nat)
    (s : ProfilerState) :
    ((Zprofiler_start name now t s).mapProfilerGraph = s.mapProfilerGraph ∧
      (∀ t', t' ≠ t → mapFind t' (Zprofiler_start name now t s).mapCallsByThread
                        = mapFind t' s.mapCallsByThread) ∧
      ∃ frame, mapFind t (Zprofiler_start name now t s).mapCallsByThread
                 = some (stackOf t s ++ [frame])) ∧
    ∀ st top, mapFind t s.mapCallsByThread = some (st ++ [top]) →
      ∃ s', Zprofiler_end now t s = some s' ∧
        mapFind t s'.mapCallsByThread = some st ∧
        (∀ t', t' ≠ t → mapFind t' s'.mapCallsByThread = mapFind t' s.mapCallsByThread) ∧
        (∀ k, k ≠ top.szBunchCodeName →
          mapFind k s'.mapProfilerGraph = mapFind k s.mapProfilerGraph) := by
  refine ⟨⟨start_graph _ _ _ _, fun t' ht' => start_calls_ne _ _ _ _ _ ht',
    ⟨_, start_calls _ _ _ _⟩⟩, ?_⟩
  intro st top h
  refine ⟨_, end_of_top now t s st top h, ?_, ?_, ?_⟩
  · exact mapFind_mapSet_self _ _ _ (by simp [h])
  · intro t' ht'
    exact mapFind_mapSet_ne _ _ _ _ ht'
  · intro k hk
    exact find_merge_ne _ _ _ hk

/-! ## `Zprofiler_disable` -/

theorem mem_merge_pair {D : tdstGenProfilerData} {g : List (List Char × tdstGenProfilerData)}
    {p : List Char × tdstGenProfilerData} (h : p ∈ mergeIntoGraph D g) :
    p = (D.szBunchCodeName, mergedEntry D (mapFind D.szBunchCodeName g)) ∨ p ∈ g := by
  rw [mergeIntoGraph_eq] at h
  cases hf : mapFind D.szBunchCodeName g with
  | none =>
    rw [hf] at h
    exact mem_mapInsert h
  | some entry =>
    rw [hf] at h
    exact mem_mapSet h

theorem pushedFrame_marked (name : List Char) (now : ℚ) (t : Nat) (stack : tdCallStackType)
    (h : ∀ f ∈ stack, MarkedBy t f) : MarkedBy t (pushedFrame name now t stack) := by
  unfold MarkedBy pushedFrame
  cases hl : stack.getLast? with
  | none => exact ⟨name, rfl⟩
  | some previous =>
    obtain ⟨rest, hrest⟩ := h previous (List.mem_of_mem_getLast? (by rw [hl]; rfl))
    exact ⟨rest ++ NAME_SEPARATOR ++ name, by simp [hrest, List.append_assoc]⟩

theorem reachable_stack_marked {s : ProfilerState} (hr : Reachable s) :
    ∀ t st, mapFind t s.mapCallsByThread = some st → ∀ f ∈ st, MarkedBy t f := by
  induction hr with
  | init => intro t st h; simp [initialState, mapFind] at h
  | @start name now t0 s0 _ ih =>
    intro t st h f hf
    by_cases ht : t = t0
    · subst ht
      have hold : ∀ f ∈ stackOf t s0, MarkedBy t f := by
        intro f hf
        cases hs : mapFind t s0.mapCallsByThread with
        | none => simp [stackOf, hs] at hf
        | some st0 => exact ih t st0 hs f (by simpa [stackOf, hs] using hf)
      rw [start_calls] at h
      cases h
      rcases List.mem_append.1 hf with hf | hf
      · exact hold f hf
      · rw [List.mem_singleton.1 hf]
        exact pushedFrame_marked _ _ _ _ hold
    · rw [start_calls_ne _ _ _ _ _ ht] at h
      exact ih t st h f hf
  | @stop now t0 s0 s1 _ hend ih =>
    intro t st h f hf
    rcases end_cases hend with ⟨_, hs'⟩ | ⟨st0, top, hst, hs'⟩
    · subst hs'
      exact ih t st h f hf
    · subst hs'
      by_cases ht : t = t0
      · subst ht
        simp only at h
        rw [mapFind_mapSet_self _ _ _ (by simp [hst])] at h
        cases h
        exact ih t _ hst f (List.mem_append_left _ hf)
      · simp only at h
        rw [mapFind_mapSet_ne _ _ _ _ ht] at h
        exact ih t st h f hf

theorem reachable_graph_named {s : ProfilerState} (hr : Reachable s) :
    ∀ p ∈ s.mapProfilerGraph, p.2.szBunchCodeName = p.1 ∧ ∃ t, MarkedBy t p.2 := by
  induction hr with
  | init => intro p hp; simp [initialState] at hp
  | @start name now t0 s0 _ ih =>
    intro p hp
    rw [start_graph] at hp
    exact ih p hp
  | @stop now t0 s0 s1 hr0 hend ih =>
    intro p hp
    rcases end_cases hend with ⟨_, hs'⟩ | ⟨st0, top, hst, hs'⟩
    · subst hs'
      exact ih p hp
    · subst hs'
      simp only at hp
      rcases mem_merge_pair hp with h | h
      · subst h
        cases hf : mapFind (endedData now top).szBunchCodeName s0.mapProfilerGraph with
        | none =>
          refine ⟨rfl, t0, ?_⟩
          exact reachable_stack_marked hr0 t0 _ hst top (by simp)
        | some entry =>
          have hentry := ih _ (mapFind_mem hf)
          exact ⟨hentry.1, hentry.2⟩
      · exact ih p h

theorem namedGraph_eq_self {g : List (List Char × tdstGenProfilerData)}
    (h : ∀ p ∈ g, p.2.szBunchCodeName = p.1) : namedGraph g = g := by
  unfold namedGraph
  conv_rhs => rw [← List.map_id g]
  apply List.map_congr_left
  intro p hp
  obtain ⟨k, e⟩ := p
  have := h _ hp
  simp only at this
  simp [← this]

theorem namedGraph_idem (g : List (List Char × tdstGenProfilerData)) :
    namedGraph (namedGraph g) = namedGraph g := by
  unfold namedGraph
  simp [List.map_map, Function.comp_def]

/-! ## The blocks of a report -/

theorem countThreadId_mem (szThreadId : List Char) (ids : List (List Char × Int))
    (T : List Char) :
    T ∈ (countThreadId szThreadId ids).map Prod.fst ↔ T = szThreadId ∨ T ∈ ids.map Prod.fst := by
  unfold countThreadId
  cases hf : mapFind szThreadId ids with
  | none =>
    simp only
    rw [(keys_mapInsert_perm szThreadId 1 ids hf).mem_iff, List.mem_cons]
  | some n =>
    simp only
    rw [keys_mapSet]
    constructor
    · exact Or.inr
    · rintro (h | h)
      · subst h
        have := mapFind_mem hf
        exact List.mem_map.2 ⟨_, this, rfl⟩
      · exact h

theorem countThreadId_nodup (szThreadId : List Char) (ids : List (List Char × Int))
    (h : (ids.map Prod.fst).Nodup) : ((countThreadId szThreadId ids).map Prod.fst).Nodup := by
  unfold countThreadId
  cases hf : mapFind szThreadId ids with
  | none =>
    simp only
    rw [(keys_mapInsert_perm szThreadId 1 ids hf).nodup_iff, List.nodup_cons]
    exact ⟨(mapFind_eq_none_iff _ _).1 hf, h⟩
  | some n =>
    simp only
    rw [keys_mapSet]
    exact h

theorem collectThreadIds_spec (l : List tdstGenProfilerData) :
    ∀ (_ : ∀ e ∈ l, ∃ t, MarkedBy t e) (ids : List (List Char × Int))
      (_ : (ids.map Prod.fst).Nodup),
      ∃ ids', collectThreadIds l ids = some ids' ∧ (ids'.map Prod.fst).Nodup ∧
        ∀ T, T ∈ ids'.map Prod.fst ↔
          T ∈ ids.map Prod.fst ∨ ∃ e ∈ l, threadIdText e.szBunchCodeName = some T := by
  induction l with
  | nil => intro _ ids hnd; exact ⟨ids, rfl, hnd, fun T => by simp⟩
  | cons e rest ih =>
    intro h ids hnd
    obtain ⟨t, r, hr⟩ := h e (List.mem_cons_self _ _)
    have hrest : ∀ x ∈ rest, ∃ t, MarkedBy t x := fun x hx => h x (List.mem_cons_of_mem _ hx)
    have htext : threadIdText e.szBunchCodeName = some (decimalInt (toInt32 t)) := by
      rw [hr, threadIdText_marker]
    obtain ⟨ids', hc, hnd', hmem⟩ := ih hrest _
      (countThreadId_nodup (decimalInt (toInt32 t)) ids hnd)
    refine ⟨ids', by simp only [collectThreadIds, htext, hc], hnd', fun T => ?_⟩
    rw [hmem, countThreadId_mem]
    constructor
    · rintro ((h1 | h1) | ⟨x, hx, hT⟩)
      · exact Or.inr ⟨e, List.mem_cons_self _ _, by rw [htext, h1]⟩
      · exact Or.inl h1
      · exact Or.inr ⟨x, List.mem_cons_of_mem _ hx, hT⟩
    · rintro (h1 | ⟨x, hx, hT⟩)
      · exact Or.inl (Or.inr h1)
      · rcases List.mem_cons.1 hx with hxe | hxr
        · subst hxe
          rw [htext] at hT
          exact Or.inl (Or.inl (Option.some.inj hT).symm)
        · exact Or.inr ⟨x, hxr, hT⟩

theorem logEntry_line (szThreadId : List Char) {e : tdstGenProfilerData}
    (he : '|' ∈ e.szBunchCodeName)
    (acc : List (List Char × tdstGenProfilerData) × List ReportLine) :
    logEntry szThreadId acc e = some acc ∨
    ∃ leaf line, afterLast '|' e.szBunchCodeName = some leaf ∧
      line.key = e.szBunchCodeName ∧
      logEntry szThreadId acc e
        = some (mergeIntoCalls szThreadId leaf e acc.1, acc.2 ++ [line]) := by
  obtain ⟨leaf, hleaf⟩ := afterLast_isSome he
  unfold logEntry
  by_cases hs : strstr (e.szBunchCodeName.drop 1) szThreadId = true
  · refine Or.inr ⟨leaf,
      { totalTime := e.totalTime, averageTime := e.averageTime, minTime := e.minTime,
        maxTime := e.maxTime, nbCalls := toInt32 e.nbCalls,
        indent := (e.szBunchCodeName.drop 1).count '|',
        name := if strstr leaf THREADID_NAME_SEPARATOR = true
                then leaf.drop (szThreadId.length + 1) else leaf,
        key := e.szBunchCodeName }, hleaf, rfl, ?_⟩
    simp only [hs, if_true, hleaf]
  · exact Or.inl (by simp only [hs]; rfl)

theorem logEntries_spec (szThreadId : List Char) (l : List tdstGenProfilerData)
    (P : List (List Char × tdstGenProfilerData) → Prop)
    (hstep : ∀ mc e leaf, e ∈ l → afterLast '|' e.szBunchCodeName = some leaf → P mc →
      P (mergeIntoCalls szThreadId leaf e mc)) :
    ∀ (l' : List tdstGenProfilerData) (_ : ∀ e ∈ l', e ∈ l ∧ '|' ∈ e.szBunchCodeName)
      (acc : List (List Char × tdstGenProfilerData) × List ReportLine)
      (_ : P acc.1),
      ∃ mc lines, logEntries szThreadId l' acc = some (mc, acc.2 ++ lines) ∧ P mc ∧
        ∀ line ∈ lines, ∃ e ∈ l', line.key = e.szBunchCodeName := by
  intro l'
  induction l' with
  | nil => intro _ acc hP; exact ⟨acc.1, [], by simp [logEntries], hP, by simp⟩
  | cons e rest ih =>
    intro h acc hP
    obtain ⟨hel, hbar⟩ := h e (List.mem_cons_self _ _)
    have hrest : ∀ x ∈ rest, x ∈ l ∧ '|' ∈ x.szBunchCodeName :=
      fun x hx => h x (List.mem_cons_of_mem _ hx)
    rcases logEntry_line szThreadId hbar acc with
      hskip | ⟨leaf, line, hleaf, hkey, hlog⟩
    · obtain ⟨mc, lines, hrun, hPmc, hlines⟩ := ih hrest acc hP
      refine ⟨mc, lines, by simp only [logEntries, hskip, Option.some_bind, hrun], hPmc, ?_⟩
      intro line hline
      obtain ⟨x, hx, hk⟩ := hlines line hline
      exact ⟨x, List.mem_cons_of_mem _ hx, hk⟩
    · obtain ⟨mc, lines, hrun, hPmc, hlines⟩ :=
        ih hrest (mergeIntoCalls szThreadId leaf e acc.1, acc.2 ++ [line])
          (hstep _ _ _ hel hleaf hP)
      refine ⟨mc, line :: lines, ?_, hPmc, ?_⟩
      · simp only [logEntries, hlog, Option.some_bind, hrun, List.append_assoc,
          List.singleton_append]
      · intro x hx
        rcases List.mem_cons.1 hx with hx | hx
        · subst hx
          exact ⟨e, List.mem_cons_self _ _, hkey⟩
        · obtain ⟨y, hy, hk⟩ := hlines x hx
          exact ⟨y, List.mem_cons_of_mem _ hy, hk⟩

theorem logThreads_spec (l : List tdstGenProfilerData) (hbar : ∀ e ∈ l, '|' ∈ e.szBunchCodeName)
    (ids : List (List Char))
    (P : List (List Char × tdstGenProfilerData) → Prop)
    (hstep : ∀ T ∈ ids, ∀ mc e leaf, e ∈ l → afterLast '|' e.szBunchCodeName = some leaf →
      P mc → P (mergeIntoCalls T leaf e mc)) :
    ∀ (ids' : List (List Char)) (_ : ∀ T ∈ ids', T ∈ ids)
      (mapCalls : List (List Char × tdstGenProfilerData)) (_ : P mapCalls),
      ∃ mc blocks, logThreads l ids' mapCalls = some (mc, blocks) ∧ P mc ∧
        blocks.map (fun b => b.szThreadId) = ids' ∧
        ∀ b ∈ blocks, ∀ line ∈ b.lines, ∃ e ∈ l, line.key = e.szBunchCodeName := by
  intro ids'
  induction ids' with
  | nil => intro _ mapCalls hP; exact ⟨mapCalls, [], rfl, hP, rfl, by simp⟩
  | cons T rest ih =>
    intro hsub mapCalls hP
    obtain ⟨mc1, lines, hrun1, hP1, hlines⟩ :=
      logEntries_spec T l P (hstep T (hsub T (List.mem_cons_self _ _))) l
        (fun e he => ⟨he, hbar e he⟩) (mapCalls, []) hP
    obtain ⟨mc2, blocks, hrun2, hP2, hheads, hblocks⟩ :=
      ih (fun T' hT' => hsub T' (List.mem_cons_of_mem _ hT')) mc1 hP1
    refine ⟨mc2, { szThreadId := T, lines := lines } :: blocks, ?_, hP2, ?_, ?_⟩
    · simp only [logThreads, hrun1, List.nil_append, hrun2]
    · simp [hheads]
    · intro b hb line hline
      rcases List.mem_cons.1 hb with hb | hb
      · subst hb
        exact hlines line hline
      · exact hblocks b hb line hline

theorem dumpLines_spec (T : List Char) :
    ∀ (mc : List (List Char × tdstGenProfilerData)) (lines : List ReportLine),
      dumpLines T mc = some lines → ∀ line ∈ lines, ∃ p ∈ mc, line.key = p.1 := by
  intro mc
  induction mc with
  | nil =>
    intro lines h line hline
    simp only [dumpLines, Option.some.injEq] at h
    subst h
    simp at hline
  | cons q rest ih =>
    obtain ⟨k, m⟩ := q
    intro lines h line hline
    simp only [dumpLines] at h
    split_ifs at h with h1 h2
    · cases hrest : dumpLines T rest with
      | none => rw [hrest] at h; simp at h
      | some lines' =>
        rw [hrest] at h
        simp only [Option.map_some', Option.some.injEq] at h
        subst h
        rcases List.mem_cons.1 hline with hl | hl
        · subst hl
          exact ⟨(k, m), List.mem_cons_self _ _, rfl⟩
        · obtain ⟨p, hp, hk⟩ := ih lines' hrest line hl
          exact ⟨p, List.mem_cons_of_mem _ hp, hk⟩
    · obtain ⟨p, hp, hk⟩ := ih lines h line hline
      exact ⟨p, List.mem_cons_of_mem _ hp, hk⟩

theorem dumpLines_isSome (T : List Char) :
    ∀ (mc : List (List Char × tdstGenProfilerData)),
      (∀ p ∈ mc, strstr p.2.szBunchCodeName T = true →
        T.length + 1 ≤ p.2.szBunchCodeName.length) →
      ∃ lines, dumpLines T mc = some lines := by
  intro mc
  induction mc with
  | nil => intro _; exact ⟨[], rfl⟩
  | cons q rest ih =>
    obtain ⟨k, m⟩ := q
    intro h
    obtain ⟨lines, hlines⟩ := ih (fun p hp => h p (List.mem_cons_of_mem _ hp))
    by_cases h1 : strstr m.szBunchCodeName T = true
    · have h2 := h (k, m) (List.mem_cons_self _ _) h1
      have h2' : T.length + 1 ≤ m.szBunchCodeName.length := h2
      refine ⟨{ totalTime := m.totalTime, averageTime := m.averageTime,
                minTime := m.minTime, maxTime := m.maxTime,
                nbCalls := toInt32 m.nbCalls, indent := 0,
                name := m.szBunchCodeName.drop (T.length + 1), key := k } :: lines, ?_⟩
      simp only [dumpLines, h1, if_true, h2', hlines, Option.map_some']
    · exact ⟨lines, by simp only [dumpLines, h1, hlines]; rfl⟩

theorem dumpThreads_spec (mc : List (List Char × tdstGenProfilerData)) :
    ∀ (ids : List (List Char)) (blocks : List ThreadBlock),
      dumpThreads mc ids = some blocks →
      blocks.map (fun b => b.szThreadId) = ids ∧
        ∀ b ∈ blocks, ∀ line ∈ b.lines, ∃ p ∈ mc, line.key = p.1 := by
  intro ids
  induction ids with
  | nil =>
    intro blocks h
    simp only [dumpThreads, Option.some.injEq] at h
    subst h
    exact ⟨rfl, fun b hb => absurd hb (List.not_mem_nil _)⟩
  | cons T rest ih =>
    intro blocks h
    simp only [dumpThreads] at h
    cases hl : dumpLines T mc with
    | none => rw [hl] at h; simp at h
    | some lines =>
      rw [hl] at h
      simp only at h
      cases hr : dumpThreads mc rest with
      | none => rw [hr] at h; simp at h
      | some blocks' =>
        rw [hr] at h
        simp only [Option.map_some', Option.some.injEq] at h
        subst h
        obtain ⟨hheads, hblocks⟩ := ih blocks' hr
        refine ⟨by simp [hheads], ?_⟩
        intro b hb line hline
        rcases List.mem_cons.1 hb with hb | hb
        · subst hb
          exact dumpLines_spec T mc lines hl line hline
        · exact hblocks b hb line hline

theorem dumpThreads_isSome (mc : List (List Char × tdstGenProfilerData)) :
    ∀ (ids : List (List Char)),
      (∀ T ∈ ids, ∀ p ∈ mc, strstr p.2.szBunchCodeName T = true →
        T.length + 1 ≤ p.2.szBunchCodeName.length) →
      ∃ blocks, dumpThreads mc ids = some blocks := by
  intro ids
  induction ids with
  | nil => intro _; exact ⟨[], rfl⟩
  | cons T rest ih =>
    intro h
    obtain ⟨lines, hl⟩ := dumpLines_isSome T mc (h T (List.mem_cons_self _ _))
    obtain ⟨blocks, hb⟩ := ih (fun T' hT' => h T' (List.mem_cons_of_mem _ hT'))
    exact ⟨{ szThreadId := T, lines := lines } :: blocks,
      by simp only [dumpThreads, hl, hb, Option.map_some']⟩

theorem mem_mergeIntoCalls {T leaf : List Char} {e : tdstGenProfilerData}
    {mc : List (List Char × tdstGenProfilerData)} {p : List Char × tdstGenProfilerData}
    (h : p ∈ mergeIntoCalls T leaf e mc) :
    p ∈ mc ∨
    (p.1 = leaf ∧
      (p.2.szBunchCodeName
          = (if strstr leaf T = true then leaf else T ++ THREADID_NAME_SEPARATOR ++ leaf) ∨
        ∃ m, mapFind leaf mc = some m ∧ p.2.szBunchCodeName = m.szBunchCodeName)) := by
  unfold mergeIntoCalls at h
  cases hf : mapFind leaf mc with
  | none =>
    rw [hf] at h
    rcases mem_mapInsert h with h' | h'
    · subst h'
      exact Or.inr ⟨rfl, Or.inl rfl⟩
    · exact Or.inl h'
  | some m =>
    rw [hf] at h
    rcases mem_mapSet h with h' | h'
    · subst h'
      refine Or.inr ⟨rfl, Or.inr ⟨m, rfl, ?_⟩⟩
      simp only
      split_ifs <;> rfl
    · exact Or.inl h'

theorem strstr_length {haystack needle : List Char} (h : strstr haystack needle = true)
    (hne : haystack ≠ needle) : needle.length + 1 ≤ haystack.length := by
  have hin := (strstr_iff _ _).1 h
  have hle := hin.length_le
  by_contra hlt
  exact hne (hin.eq_of_length (by omega)).symm

theorem bar_mem_of_marked {e : tdstGenProfilerData} (h : ∃ t, MarkedBy t e) :
    '|' ∈ e.szBunchCodeName := by
  obtain ⟨t, rest, hr⟩ := h
  rw [hr, threadMarker_eq]
  simp

theorem mem_sortedCallStack
    (stdSort : (tdstGenProfilerData → tdstGenProfilerData → Bool) →
      List tdstGenProfilerData → List tdstGenProfilerData)
    (unAbove : Bool)
    (hperm : ∀ l, (stdSort (MyDataSortPredicate unAbove) l).Perm l)
    (s : ProfilerState) (k : List Char) :
    (∃ e ∈ sortedCallStack stdSort unAbove s, e.szBunchCodeName = k)
      ↔ k ∈ s.mapProfilerGraph.map Prod.fst := by
  unfold sortedCallStack
  constructor
  · rintro ⟨e, he, hk⟩
    rw [← hk]
    exact mem_namedGraph_snd ((hperm _).mem_iff.1 he)
  · intro hk
    rw [← namedGraph_names] at hk
    obtain ⟨e, he, hname⟩ := List.mem_map.1 hk
    exact ⟨e, (hperm _).mem_iff.2 he, hname⟩

theorem logProfiler_blocks
    (stdSort : (tdstGenProfilerData → tdstGenProfilerData → Bool) →
      List tdstGenProfilerData → List tdstGenProfilerData)
    (unAbove : Bool)
    (hperm : ∀ l, (stdSort (MyDataSortPredicate unAbove) l).Perm l)
    (s : ProfilerState)
    (hmark : ∀ p ∈ s.mapProfilerGraph, ∃ t rest, p.1 = threadMarker t ++ rest) :
    ∃ r, LogProfiler stdSort unAbove s
          = some ({ s with mapProfilerGraph := namedGraph s.mapProfilerGraph }, r) ∧
      (r.callstack.map (fun b => b.szThreadId)).Nodup ∧
      (∀ T, T ∈ r.callstack.map (fun b => b.szThreadId) ↔
        ∃ p ∈ s.mapProfilerGraph, threadIdText p.1 = some T) ∧
      (∀ b ∈ r.callstack, ∀ line ∈ b.lines, line.key ∈ s.mapProfilerGraph.map Prod.fst) ∧
      (∀ blocks, r.dump = some blocks →
        blocks.map (fun b => b.szThreadId) = r.callstack.map (fun b => b.szThreadId) ∧
        ∀ b ∈ blocks, ∀ line ∈ b.lines,
          ∃ p ∈ s.mapProfilerGraph, afterLast '|' p.1 = some line.key) ∧
      ((∀ p ∈ s.mapProfilerGraph, ∀ T ∈ r.callstack.map (fun b => b.szThreadId),
          afterLast '|' p.1 ≠ some T) → r.dump.isSome = true) := by
  have hkeys := mem_sortedCallStack stdSort unAbove hperm s
  have hmarkl : ∀ e ∈ sortedCallStack stdSort unAbove s, ∃ t, MarkedBy t e := by
    intro e he
    obtain ⟨p, hp, hk⟩ := List.mem_map.1 ((hkeys _).1 ⟨e, he, rfl⟩)
    obtain ⟨t, rest, hrest⟩ := hmark p hp
    exact ⟨t, rest, by rw [← hk, hrest]⟩
  have hbar : ∀ e ∈ sortedCallStack stdSort unAbove s, '|' ∈ e.szBunchCodeName :=
    fun e he => bar_mem_of_marked (hmarkl e he)
  obtain ⟨ids, hc, hnd, hmem⟩ := collectThreadIds_spec _ hmarkl [] (by simp)
  have hmem' : ∀ T, T ∈ ids.map Prod.fst ↔
      ∃ p ∈ s.mapProfilerGraph, threadIdText p.1 = some T := by
    intro T
    rw [hmem]
    simp only [List.map_nil, List.not_mem_nil, false_or]
    constructor
    · rintro ⟨e, he, hT⟩
      obtain ⟨p, hp, hk⟩ := List.mem_map.1 ((hkeys _).1 ⟨e, he, rfl⟩)
      exact ⟨p, hp, by rw [hk]; exact hT⟩
    · rintro ⟨p, hp, hT⟩
      obtain ⟨e, he, hk⟩ := (hkeys p.1).2 (List.mem_map.2 ⟨p, hp, rfl⟩)
      exact ⟨e, he, by rw [hk]; exact hT⟩
  have hleafkey : ∀ e ∈ sortedCallStack stdSort unAbove s, ∀ leaf,
      afterLast '|' e.szBunchCodeName = some leaf →
      ∃ p ∈ s.mapProfilerGraph, afterLast '|' p.1 = some leaf := by
    intro e he leaf hleaf
    obtain ⟨p, hp, hk⟩ := List.mem_map.1 ((hkeys _).1 ⟨e, he, rfl⟩)
    exact ⟨p, hp, by rw [hk]; exact hleaf⟩
  obtain ⟨mc, blocks, hlog, hP, hheads, hlines⟩ :=
    logThreads_spec (sortedCallStack stdSort unAbove s) hbar (ids.map Prod.fst)
      (fun mc => ∀ p ∈ mc,
        (∃ q ∈ s.mapProfilerGraph, afterLast '|' q.1 = some p.1) ∧
        (p.2.szBunchCodeName = p.1 ∨ '@' ∈ p.2.szBunchCodeName))
      (by
        intro T _ mc e leaf he hleaf hPmc p hp
        rcases mem_mergeIntoCalls hp with h | ⟨hk, h | ⟨m, hm, hname⟩⟩
        · exact hPmc p h
        · refine ⟨by rw [hk]; exact hleafkey e he leaf hleaf, ?_⟩
          rw [h, hk]
          split_ifs
          · exact Or.inl rfl
          · exact Or.inr (by simp [THREADID_NAME_SEPARATOR])
        · refine ⟨by rw [hk]; exact hleafkey e he leaf hleaf, ?_⟩
          have := (hPmc _ (mapFind_mem hm)).2
          rw [hname, hk]
          exact this)
      (ids.map Prod.fst) (fun T hT => hT) []
      (fun p hp => absurd hp (List.not_mem_nil _))
  refine ⟨{ callstack := blocks, dump := dumpThreads mc (ids.map Prod.fst) }, ?_, ?_, ?_, ?_,
    ?_, ?_⟩
  · unfold LogProfiler
    simp only [hc, hlog]
  · simp only [hheads]
    exact hnd
  · intro T
    simp only [hheads]
    exact hmem' T
  · intro b hb line hline
    obtain ⟨e, he, hk⟩ := hlines b hb line hline
    rw [hk]
    exact (hkeys _).1 ⟨e, he, rfl⟩
  · intro dblocks hd
    simp only at hd
    obtain ⟨h1, h2⟩ := dumpThreads_spec mc _ dblocks hd
    refine ⟨by simp only [h1, hheads], ?_⟩
    intro b hb line hline
    obtain ⟨p, hp, hk⟩ := h2 b hb line hline
    rw [hk]
    exact (hP p hp).1
  · intro hcond
    simp only [hheads] at hcond
    have : ∃ dblocks, dumpThreads mc (ids.map Prod.fst) = some dblocks := by
      apply dumpThreads_isSome
      intro T hT p hp hstr
      apply strstr_length hstr
      intro heq
      obtain ⟨⟨q, hq, hleaf⟩, hname⟩ := hP p hp
      obtain ⟨q', hq', hT'⟩ := (hmem' T).1 hT
      obtain ⟨t, rest, hrest⟩ := hmark q' hq'
      rw [hrest, threadIdText_marker] at hT'
      have hat : '@' ∉ T := by
        rw [← Option.some.inj hT']
        exact at_not_mem_decimalInt _
      rcases hname with hname | hname
      · apply hcond q hq T hT
        rw [hleaf, ← hname, heq]
      · exact hat (heq ▸ hname)
    obtain ⟨dblocks, hd⟩ := this
    simp [hd]

/-! ## `LogProfiler` on reachable states -/

theorem reachable_marked_keys {s : ProfilerState} (hr : Reachable s) :
    ∀ p ∈ s.mapProfilerGraph, ∃ t rest, p.1 = threadMarker t ++ rest := by
  intro p hp
  obtain ⟨hname, t, rest, hrest⟩ := reachable_graph_named hr p hp
  exact ⟨t, rest, by rw [← hname, hrest]⟩

theorem reachable_namedGraph {s : ProfilerState} (hr : Reachable s) :
    ({ s with mapProfilerGraph := namedGraph s.mapProfilerGraph } : ProfilerState) = s := by
  rw [namedGraph_eq_self (fun p hp => (reachable_graph_named hr p hp).1)]

theorem logProfiler_report_congr
    (stdSort : (tdstGenProfilerData → tdstGenProfilerData → Bool) →
      List tdstGenProfilerData → List tdstGenProfilerData)
    (unAbove : Bool) {s1 s2 : ProfilerState}
    (h : s1.mapProfilerGraph = s2.mapProfilerGraph) :
    (LogProfiler stdSort unAbove s1).map Prod.snd
      = (LogProfiler stdSort unAbove s2).map Prod.snd := by
  unfold LogProfiler sortedCallStack
  simp only [h]
  cases collectThreadIds
      (stdSort (MyDataSortPredicate unAbove) ((namedGraph s2.mapProfilerGraph).map Prod.snd)) [] with
  | none => rfl
  | some ids =>
    simp only
    cases logThreads
        (stdSort (MyDataSortPredicate unAbove) ((namedGraph s2.mapProfilerGraph).map Prod.snd))
        (ids.map Prod.fst) [] with
    | none => rfl
    | some res => rfl

/-- In every state reachable by `Zprofiler_start` and `Zprofiler_end` calls,
`LogProfiler` (with a `std::sort` that permutes the vector) returns, and its
`CALLSTACK` part has exactly one block per distinct thread identifier text that
occurs as the thread marker of a key of `mapProfilerGraph`: the headings are
pairwise distinct, and a text heads a block if and only if some key starts with
the marker of a thread with that text.  A thread whose marker starts no key has
no block, every line of a block is the line of a graph entry, and a call of
`Zprofiler_start` alone does not change the report.  The `DUMP` part, whenever
printing it is defined, has the same headings in the same order, and its lines
are those of last name segments of graph keys; printing it is defined when no
key ends in a segment that is the bare identifier text of a heading.  With an
empty graph both parts have no block. -/
theorem one_block_per_thread (s : ProfilerState) (hr : Reachable s)
    (stdSort : (tdstGenProfilerData → tdstGenProfilerData → Bool) →
      List tdstGenProfilerData → List tdstGenProfilerData)
    (unAbove : Bool)
    (hperm : ∀ l, (stdSort (MyDataSortPredicate unAbove) l).Perm l) :
    ∃ r, LogProfiler stdSort unAbove s = some (s, r) ∧
      (r.callstack.map (fun b => b.szThreadId)).Nodup ∧
      (∀ T, T ∈ r.callstack.map (fun b => b.szThreadId) ↔
        ∃ p ∈ s.mapProfilerGraph, ∃ t rest,
          p.1 = threadMarker t ++ rest ∧ T = decimalInt (toInt32 t)) ∧
      (∀ t, (∀ p ∈ s.mapProfilerGraph, ∀ rest, p.1 ≠ threadMarker t ++ rest) →
        decimalInt (toInt32 t) ∉ r.callstack.map (fun b => b.szThreadId)) ∧
      (∀ b ∈ r.callstack, ∀ line ∈ b.lines, line.key ∈ s.mapProfilerGraph.map Prod.fst) ∧
      (∀ blocks, r.dump = some blocks →
        blocks.map (fun b => b.szThreadId) = r.callstack.map (fun b => b.szThreadId) ∧
        ∀ b ∈ blocks, ∀ line ∈ b.lines,
          ∃ p ∈ s.mapProfilerGraph, afterLast '|' p.1 = some line.key) ∧
      ((∀ p ∈ s.mapProfilerGraph, ∀ T ∈ r.callstack.map (fun b => b.szThreadId),
          afterLast '|' p.1 ≠ some T) → r.dump.isSome = true) ∧
      (s.mapProfilerGraph = [] → r = { callstack := [], dump := some [] }) ∧
      (∀ name now t,
        (LogProfiler stdSort unAbove (Zprofiler_start name now t s)).map Prod.snd = some r) := by
  obtain ⟨r, hlog, hnd, hmem, hlines, hdump, hdef⟩ :=
    logProfiler_blocks stdSort unAbove hperm s (reachable_marked_keys hr)
  rw [reachable_namedGraph hr] at hlog
  have hmem' : ∀ T, T ∈ r.callstack.map (fun b => b.szThreadId) ↔
      ∃ p ∈ s.mapProfilerGraph, ∃ t rest,
        p.1 = threadMarker t ++ rest ∧ T = decimalInt (toInt32 t) := by
    intro T
    rw [hmem]
    constructor
    · rintro ⟨p, hp, hT⟩
      obtain ⟨t, rest, hrest⟩ := reachable_marked_keys hr p hp
      rw [hrest, threadIdText_marker] at hT
      exact ⟨p, hp, t, rest, hrest, (Option.some.inj hT).symm⟩
    · rintro ⟨p, hp, t, rest, hrest, hT⟩
      exact ⟨p, hp, by rw [hrest, threadIdText_marker, hT]⟩
  refine ⟨r, hlog, hnd, hmem', ?_, hlines, hdump, hdef, ?_, ?_⟩
  · intro t hno hin
    obtain ⟨p, hp, t', rest, hrest, hT⟩ := (hmem' _).1 hin
    have hmk : threadMarker t' = threadMarker t := by
      unfold threadMarker
      rw [decimalInt_injective hT]
    exact hno p hp rest (by rw [hrest, hmk])
  · intro hnil
    have hcs : r.callstack = [] := by
      cases hcs : r.callstack with
      | nil => rfl
      | cons b rest =>
        exfalso
        obtain ⟨p, hp, _⟩ := (hmem' b.szThreadId).1 (by rw [hcs]; simp)
        rw [hnil] at hp
        exact List.not_mem_nil _ hp
    have hsome := hdef (by
      intro p hp
      rw [hnil] at hp
      exact absurd hp (List.not_mem_nil _))
    cases hd : r.dump with
    | none => rw [hd] at hsome; simp at hsome
    | some blocks =>
      have hb := (hdump blocks hd).1
      rw [hcs] at hb
      have hb' : blocks = [] := by simpa using hb
      obtain ⟨cs, d⟩ := r
      simp only at hcs hd
      rw [hcs, hd, hb']
  · intro name now t
    rw [logProfiler_report_congr stdSort unAbove (start_graph name now t s), hlog]
    rfl

/-! ## The per-leaf aggregation map -/

theorem find_mergeIntoCalls_self (T leaf : List Char) (e : tdstGenProfilerData)
    (mc : List (List Char × tdstGenProfilerData)) :
    mapFind leaf (mergeIntoCalls T leaf e mc) = some (mergedLeaf T leaf e (mapFind leaf mc)) := by
  unfold mergeIntoCalls
  cases hf : mapFind leaf mc with
  | none =>
    simp only [mergedLeaf]
    exact mapFind_mapInsert_self _ _ _ hf
  | some m =>
    simp only [mergedLeaf]
    rw [mapFind_mapSet_self _ _ _ (by simp [hf])]
    congr 1
    by_cases h1 : e.minTime < m.minTime <;>
      by_cases h2 : e.maxTime > m.maxTime <;> simp [h1, h2]

theorem find_mergeIntoCalls_ne (T leaf : List Char) (e : tdstGenProfilerData)
    (mc : List (List Char × tdstGenProfilerData)) (k : List Char) (hne : k ≠ leaf) :
    mapFind k (mergeIntoCalls T leaf e mc) = mapFind k mc := by
  unfold mergeIntoCalls
  cases hf : mapFind leaf mc with
  | none => exact mapFind_mapInsert_ne _ _ _ _ hne
  | some m => exact mapFind_mapSet_ne _ _ _ _ hne

theorem keys_nodup_mergeIntoCalls (T leaf : List Char) (e : tdstGenProfilerData)
    (mc : List (List Char × tdstGenProfilerData)) (h : (mc.map Prod.fst).Nodup) :
    ((mergeIntoCalls T leaf e mc).map Prod.fst).Nodup := by
  unfold mergeIntoCalls
  cases hf : mapFind leaf mc with
  | none =>
    simp only
    rw [(keys_mapInsert_perm leaf _ mc hf).nodup_iff, List.nodup_cons]
    exact ⟨(mapFind_eq_none_iff _ _).1 hf, h⟩
  | some m =>
    simp only
    rw [keys_mapSet]
    exact h

theorem keys_nodup_callsAfter (T : List Char) (l : List tdstGenProfilerData) :
    ∀ mc : List (List Char × tdstGenProfilerData), (mc.map Prod.fst).Nodup →
      ((callsAfter T l mc).map Prod.fst).Nodup := by
  induction l with
  | nil => intro mc h; exact h
  | cons e rest ih =>
    intro mc h
    simp only [callsAfter, List.foldl_cons]
    exact ih _ (keys_nodup_mergeIntoCalls _ _ _ _ h)

theorem find_callsAfter (T leaf : List Char) (l : List tdstGenProfilerData)
    (hbar : ∀ e ∈ l, '|' ∈ e.szBunchCodeName) :
    ∀ mc : List (List Char × tdstGenProfilerData),
      mapFind leaf (callsAfter T l mc)
        = (l.filter (fun e => afterLast '|' e.szBunchCodeName = some leaf)).foldl
            (fun acc e => some (mergedLeaf T leaf e acc)) (mapFind leaf mc) := by
  induction l with
  | nil => intro mc; rfl
  | cons e rest ih =>
    intro mc
    have hrest : ∀ x ∈ rest, '|' ∈ x.szBunchCodeName :=
      fun x hx => hbar x (List.mem_cons_of_mem _ hx)
    obtain ⟨lf, hlf⟩ := afterLast_isSome (hbar e (List.mem_cons_self _ _))
    have hstep : callsAfter T (e :: rest) mc
        = callsAfter T rest (mergeIntoCalls T lf e mc) := by
      simp only [callsAfter, List.foldl_cons, hlf, Option.getD_some]
    rw [hstep, ih hrest]
    by_cases hk : lf = leaf
    · subst hk
      simp only [List.filter_cons, hlf, decide_True, if_true, List.foldl_cons]
      rw [find_mergeIntoCalls_self]
    · have hne : afterLast '|' e.szBunchCodeName ≠ some leaf := by
        rw [hlf]
        intro h
        exact hk (Option.some.inj h)
      simp only [List.filter_cons, hne, decide_False, if_false, Bool.false_eq_true]
      rw [find_mergeIntoCalls_ne _ _ _ _ _ (fun h => hk h.symm)]

theorem mergedLeaf_fold (T leaf : List Char) (es : List tdstGenProfilerData) (hne : es ≠ [])
    (hgood : ∀ e ∈ es, e.averageTime = e.totalTime / (e.nbCalls : ℚ)) :
    ∃ d, es.foldl (fun acc e => some (mergedLeaf T leaf e acc)) none = some d ∧
      d.totalTime = (es.map (fun e => e.totalTime)).sum ∧
      d.nbCalls = (es.map (fun e => e.nbCalls)).sum ∧
      (d.minTime ∈ es.map (fun e => e.minTime) ∧ ∀ e ∈ es, d.minTime ≤ e.minTime) ∧
      (d.maxTime ∈ es.map (fun e => e.maxTime) ∧ ∀ e ∈ es, e.maxTime ≤ d.maxTime) ∧
      d.averageTime = d.totalTime / (d.nbCalls : ℚ) ∧
      d.szBunchCodeName
        = (if strstr leaf T = true then leaf else T ++ THREADID_NAME_SEPARATOR ++ leaf) := by
  induction es using List.reverseRecOn with
  | nil => exact absurd rfl hne
  | append_singleton l e ih =>
    rw [List.foldl_append]
    by_cases hl : l = []
    · subst hl
      refine ⟨_, rfl, ?_⟩
      have he := hgood e (by simp)
      simp [mergedLeaf, he]
    · obtain ⟨d, hd, htot, hnb, ⟨hminm, hmin⟩, ⟨hmaxm, hmax⟩, _, hname⟩ :=
        ih hl (fun x hx => hgood x (List.mem_append_left _ hx))
      rw [hd]
      refine ⟨_, rfl, ?_⟩
      simp only [List.foldl_cons, List.foldl_nil, mergedLeaf, List.map_append, List.map_cons,
        List.map_nil, List.sum_append, List.sum_cons, List.sum_nil, add_zero, List.mem_append,
        List.mem_singleton, htot, hnb, hname]
      refine ⟨trivial, trivial, ⟨?_, ?_⟩, ⟨?_, ?_⟩, trivial, trivial⟩
      · by_cases h : e.minTime < d.minTime
        · simp [h]
        · simp only [h, if_false]
          exact Or.inl hminm
      · rintro x (hx | hx)
        · by_cases h : e.minTime < d.minTime
          · simp only [h, if_true]
            exact le_trans (le_of_lt h) (hmin x hx)
          · simp only [h, if_false]
            exact hmin x hx
        · subst hx
          by_cases h : x.minTime < d.minTime
          · simp [h]
          · simp only [h, if_false]
            exact not_lt.1 h
      · by_cases h : e.maxTime > d.maxTime
        · simp [h]
        · simp only [h, if_false]
          exact Or.inl hmaxm
      · rintro x (hx | hx)
        · by_cases h : e.maxTime > d.maxTime
          · simp only [h, if_true]
            exact le_trans (hmax x hx) (le_of_lt h)
          · simp only [h, if_false]
            exact hmax x hx
        · subst hx
          by_cases h : x.maxTime > d.maxTime
          · simp [h]
          · simp only [h, if_false]
            exact not_lt.1 h

theorem leafMap_marked (t : Nat)
    (stdSort : (tdstGenProfilerData → tdstGenProfilerData → Bool) →
      List tdstGenProfilerData → List tdstGenProfilerData)
    (unAbove : Bool) (s : ProfilerState)
    (h : ∀ e ∈ sortedCallStack stdSort unAbove s, MarkedBy t e)
    (hne : sortedCallStack stdSort unAbove s ≠ []) :
    leafMap stdSort unAbove s
      = some (callsAfter (decimalInt (toInt32 t)) (sortedCallStack stdSort unAbove s) []) := by
  obtain ⟨ids, hc, hkeys⟩ := collectThreadIds_marked t _ h [] (Or.inl rfl)
  rw [if_neg hne] at hkeys
  unfold leafMap
  simp only [hc, hkeys, logThreads, logEntries_marked t _ h, List.nil_append, Option.map_some']

theorem entriesEndingIn_perm
    (stdSort : (tdstGenProfilerData → tdstGenProfilerData → Bool) →
      List tdstGenProfilerData → List tdstGenProfilerData)
    (unAbove : Bool)
    (hperm : ∀ l, (stdSort (MyDataSortPredicate unAbove) l).Perm l)
    (s : ProfilerState) (hname : ∀ p ∈ s.mapProfilerGraph, p.2.szBunchCodeName = p.1)
    (leaf : List Char) :
    ((sortedCallStack stdSort unAbove s).filter
        (fun e => afterLast '|' e.szBunchCodeName = some leaf)).Perm
      (entriesEndingIn leaf s.mapProfilerGraph) := by
  unfold sortedCallStack entriesEndingIn
  rw [namedGraph_eq_self hname]
  refine ((hperm _).filter _).trans ?_
  rw [List.filter_map]
  apply List.Perm.of_eq
  congr 1
  apply List.filter_congr
  intro p hp
  simp only [Function.comp_apply, hname p hp]

/-- In a reachable state whose graph holds keys of one thread `t` only, for
every name `leaf` that is the last name segment of at least one path key,
`mapCalls` of `LogProfiler` (with a `std::sort` that permutes the vector) holds
exactly one entry under the key `leaf`; its `totalTime` and `nbCalls` are the
sums, its `minTime` the least and its `maxTime` the greatest over the graph
entries whose key ends in the segment `leaf`, and its `averageTime` is its
`totalTime` divided by its `nbCalls`.  It is the map the `DUMP` part is printed
from, and when `leaf` does not contain the decimal text of the thread
identifier the entry carries the name `<identifier>@leaf`. -/
theorem leaf_entry_aggregates (t : Nat) (s : ProfilerState) (hr : Reachable s)
    (hthread : ∀ p ∈ s.mapProfilerGraph, ∃ rest, p.1 = threadMarker t ++ rest)
    (stdSort : (tdstGenProfilerData → tdstGenProfilerData → Bool) →
      List tdstGenProfilerData → List tdstGenProfilerData)
    (unAbove : Bool)
    (hperm : ∀ l, (stdSort (MyDataSortPredicate unAbove) l).Perm l)
    (leaf : List Char) (hleaf : entriesEndingIn leaf s.mapProfilerGraph ≠ []) :
    ∃ mapCalls d, leafMap stdSort unAbove s = some mapCalls ∧
      (∃ r, LogProfiler stdSort unAbove s = some (s, r) ∧
        r.dump = dumpThreads mapCalls [decimalInt (toInt32 t)]) ∧
      mapFind leaf mapCalls = some d ∧
      (∀ p ∈ mapCalls, p.1 = leaf → p = (leaf, d)) ∧
      d.totalTime = ((entriesEndingIn leaf s.mapProfilerGraph).map (fun e => e.totalTime)).sum ∧
      d.nbCalls = ((entriesEndingIn leaf s.mapProfilerGraph).map (fun e => e.nbCalls)).sum ∧
      (d.minTime ∈ (entriesEndingIn leaf s.mapProfilerGraph).map (fun e => e.minTime) ∧
        ∀ e ∈ entriesEndingIn leaf s.mapProfilerGraph, d.minTime ≤ e.minTime) ∧
      (d.maxTime ∈ (entriesEndingIn leaf s.mapProfilerGraph).map (fun e => e.maxTime) ∧
        ∀ e ∈ entriesEndingIn leaf s.mapProfilerGraph, e.maxTime ≤ d.maxTime) ∧
      d.averageTime = d.totalTime / (d.nbCalls : ℚ) ∧
      (strstr leaf (decimalInt (toInt32 t)) = false →
        d.szBunchCodeName = decimalInt (toInt32 t) ++ THREADID_NAME_SEPARATOR ++ leaf) := by
  have hname : ∀ p ∈ s.mapProfilerGraph, p.2.szBunchCodeName = p.1 :=
    fun p hp => (reachable_graph_named hr p hp).1
  have hkeys := mem_sortedCallStack stdSort unAbove hperm s
  have hmark : ∀ e ∈ sortedCallStack stdSort unAbove s, MarkedBy t e := by
    intro e he
    obtain ⟨p, hp, hk⟩ := List.mem_map.1 ((hkeys _).1 ⟨e, he, rfl⟩)
    obtain ⟨rest, hrest⟩ := hthread p hp
    exact ⟨rest, by rw [← hk, hrest]⟩
  have hbar : ∀ e ∈ sortedCallStack stdSort unAbove s, '|' ∈ e.szBunchCodeName :=
    fun e he => bar_mem_of_marked ⟨t, hmark e he⟩
  have hp := entriesEndingIn_perm stdSort unAbove hperm s hname leaf
  have hes : (sortedCallStack stdSort unAbove s).filter
      (fun e => afterLast '|' e.szBunchCodeName = some leaf) ≠ [] := by
    intro h0
    rw [h0] at hp
    exact hleaf hp.symm.eq_nil
  have hl : sortedCallStack stdSort unAbove s ≠ [] := by
    intro h0
    rw [h0] at hes
    exact hes rfl
  have hgood : ∀ e ∈ (sortedCallStack stdSort unAbove s).filter
      (fun e => afterLast '|' e.szBunchCodeName = some leaf),
      e.averageTime = e.totalTime / (e.nbCalls : ℚ) := by
    intro e he
    have he' : e ∈ entriesEndingIn leaf s.mapProfilerGraph := hp.mem_iff.1 he
    obtain ⟨p, hp', hpe⟩ := List.mem_map.1 he'
    rw [← hpe]
    exact (reachable_goodEntry hr p (List.mem_filter.1 hp').1).2.1
  obtain ⟨d, hd, htot, hnb, ⟨hminm, hmin⟩, ⟨hmaxm, hmax⟩, havg, hnm⟩ :=
    mergedLeaf_fold (decimalInt (toInt32 t)) leaf _ hes hgood
  have hfind : mapFind leaf
      (callsAfter (decimalInt (toInt32 t)) (sortedCallStack stdSort unAbove s) []) = some d := by
    rw [find_callsAfter _ _ _ hbar]
    exact hd
  refine ⟨_, d, leafMap_marked t stdSort unAbove s hmark hl, ?_, hfind, ?_, ?_, ?_, ⟨?_, ?_⟩,
    ⟨?_, ?_⟩, havg, ?_⟩
  · have hlog := logProfiler_marked t stdSort unAbove s hmark
    rw [reachable_namedGraph hr] at hlog
    simp only [hl, if_false] at hlog
    exact ⟨_, hlog, rfl⟩
  · intro p hpm hpk
    have hnd := keys_nodup_callsAfter (decimalInt (toInt32 t))
      (sortedCallStack stdSort unAbove s) [] (by simp)
    exact List.inj_on_of_nodup_map hnd hpm (mapFind_mem hfind) hpk
  · rw [htot]
    exact (hp.map _).sum_eq
  · rw [hnb]
    exact (hp.map _).sum_eq
  · exact (hp.map _).mem_iff.1 hminm
  · intro e he
    exact hmin e (hp.mem_iff.2 he)
  · exact (hp.map _).mem_iff.1 hmaxm
  · intro e he
    exact hmax e (hp.mem_iff.2 he)
  · intro hs
    rw [hnm]
    simp [hs]

theorem reachable_run (t : Nat) (calls : List Call) :
    ∀ s s', Reachable s → runCalls t calls s = some s' → Reachable s' := by
  induction calls with
  | nil =>
    intro s s' hr h
    simp only [runCalls, Option.some.injEq] at h
    exact h ▸ hr
  | cons c rest ih =>
    intro s s' hr h
    cases c with
    | start name now =>
      simp only [runCalls] at h
      exact ih _ _ (Reachable.start name now t hr) h
    | stop now =>
      simp only [runCalls, Option.bind_eq_some] at h
      obtain ⟨s1, hend, hrest⟩ := h
      exact ih _ _ (Reachable.stop now t hr hend) hrest

theorem reachable_getD_run (t : Nat) (calls : List Call) :
    Reachable ((runCalls t calls initialState).getD initialState) := by
  cases h : runCalls t calls initialState with
  | none => exact Reachable.init
  | some s' => exact reachable_run t calls _ _ Reachable.init h

theorem run_marked_keys (t : Nat) (calls : List Call) (hwn : WellNested calls) :
    ∀ p ∈ ((runCalls t calls initialState).getD initialState).mapProfilerGraph,
      ∃ rest, p.1 = threadMarker t ++ rest := by
  intro p hp
  cases h : runCalls t calls initialState with
  | none =>
    rw [h] at hp
    simp [initialState] at hp
  | some s' =>
    rw [h] at hp
    simp only [Option.getD_some] at hp
    have hk := (run_keys hwn h p.1).1 (List.mem_map.2 ⟨p, hp, rfl⟩)
    obtain ⟨c, _, hc⟩ := List.mem_map.1 hk
    exact ⟨_, hc.symm⟩

/-! ## Interleaved calls of several threads -/

theorem pathKey_concat (t : Nat) (ch : List (List Char)) (hch : ch ≠ []) (name : List Char) :
    pathKey t (ch ++ [name]) = pathKey t ch ++ NAME_SEPARATOR ++ name := by
  unfold pathKey
  rw [intercalate_concat _ _ hch]
  simp [List.append_assoc]

theorem writeArray_eq_some {size : Nat} {text x : List Char} :
    writeArray size text = some x ↔ text.length < size ∧ x = text := by
  unfold writeArray
  split_ifs with h
  · simp only [Option.some.injEq, h, true_and]
    exact eq_comm
  · simp [h]

theorem writeArray_of_lt {size : Nat} {text : List Char} (h : text.length < size) :
    writeArray size text = some text := by
  simp [writeArray, h]

theorem writeArray_eq_none {size : Nat} {text : List Char} :
    writeArray size text = none ↔ size ≤ text.length := by
  unfold writeArray
  split_ifs with h
  · simp only [reduceCtorEq, false_iff, not_le]
    exact h
  · simp only [true_iff]
    omega

theorem start_bounded_eq (name : List Char) (now : ℚ) (t : Nat) (s : ProfilerState) :
    Zprofiler_start_bounded name now t s
      = if (pushedFrame name now t (stackOf t s)).szBunchCodeName.length < 1024
        then some (Zprofiler_start name now t s) else none := by
  unfold Zprofiler_start_bounded stackOf
  cases hf : mapFind t s.mapCallsByThread with
  | none =>
    simp only [mapFind_mapInsert_self _ _ _ hf, Option.getD_some, Option.getD_none,
      List.getLast?_nil, pushedFrame, writeArray]
    split_ifs <;> rfl
  | some st =>
    simp only [Option.getD_some, hf]
    cases hl : st.getLast? with
    | none =>
      simp only [pushedFrame, hl, writeArray]
      split_ifs <;> rfl
    | some previous =>
      simp only [pushedFrame, hl, writeArray, NAME_SEPARATOR, List.length_append,
        List.length_singleton]
      by_cases h : previous.szBunchCodeName.length + 1 + name.length < 1024
      · have h1 : previous.szBunchCodeName.length < 1024 := by omega
        have h2 : previous.szBunchCodeName.length + 1 < 1024 := by omega
        simp [h, h1, h2]
      · simp only [h, if_false]
        by_cases h1 : previous.szBunchCodeName.length < 1024
        · by_cases h2 : previous.szBunchCodeName.length + 1 < 1024
          · simp [h, h1, h2]
          · simp [h1, h2]
        · simp [h1]

theorem start_bounded_some {name : List Char} {now : ℚ} {t : Nat} {s s' : ProfilerState}
    (h : Zprofiler_start_bounded name now t s = some s') :
    s' = Zprofiler_start name now t s ∧
      (pushedFrame name now t (stackOf t s)).szBunchCodeName.length < 1024 := by
  rw [start_bounded_eq] at h
  split_ifs at h with hlt
  exact ⟨(Option.some.inj h).symm, hlt⟩

theorem runCalls_bounded_some (t : Nat) (calls : List Call) :
    ∀ s s', runCalls_bounded t calls s = some s' → runCalls t calls s = some s' := by
  induction calls with
  | nil => intro s s' h; exact h
  | cons c rest ih =>
    intro s s' h
    cases c with
    | start name now =>
      simp only [runCalls_bounded, Option.bind_eq_some] at h
      obtain ⟨s1, h1, h2⟩ := h
      obtain ⟨hs1, _⟩ := start_bounded_some h1
      subst hs1
      simpa [runCalls] using ih _ _ h2
    | stop now =>
      simp only [runCalls_bounded, Option.bind_eq_some] at h
      obtain ⟨s1, h1, h2⟩ := h
      simp only [runCalls, Option.bind_eq_some]
      exact ⟨s1, h1, ih _ _ h2⟩

theorem pathKey_nil (t : Nat) : pathKey t [] = threadMarker t := by
  simp [pathKey, List.intercalate]

theorem pathKey_concat_length (t : Nat) (ch : List (List Char)) (name : List Char) :
    (pathKey t (ch ++ [name])).length ≤ (pathKey t ch).length + (name.length + 1) := by
  by_cases hch : ch = []
  · subst hch
    simp [pathKey, List.intercalate, List.intersperse]
  · rw [pathKey_concat t ch hch]
    simp [NAME_SEPARATOR]

theorem pathKey_length_concat_ge (t : Nat) (ch : List (List Char)) (name : List Char) :
    (pathKey t ch).length ≤ (pathKey t (ch ++ [name])).length := by
  by_cases hch : ch = []
  · subst hch
    simp [pathKey, List.intercalate, List.intersperse]
  · rw [pathKey_concat t ch hch]
    simp

theorem pathKey_dropLast_length (t : Nat) (ch : List (List Char)) :
    (pathKey t ch.dropLast).length ≤ (pathKey t ch).length := by
  rcases List.eq_nil_or_concat ch with h | ⟨op, p, h⟩
  · subst h
    simp
  · rw [List.concat_eq_append] at h
    subst h
    rw [List.dropLast_concat]
    exact pathKey_length_concat_ge t op p

/-- A well-nested call sequence whose names, with one separator each, fit the
array after the key already on top of the stack runs with the array as it runs
without. -/
theorem run_bounded_eq (t : Nat) (calls : List Call) :
    ∀ (opened : List (List Char × ℚ)) (s : ProfilerState),
      stackOf t s = framesOf t opened →
      wellNestedFrom opened.length calls = true →
      (pathKey t (opened.map Prod.fst)).length + (calls.map Call.growth).sum < 1024 →
      runCalls_bounded t calls s = runCalls t calls s := by
  induction calls with
  | nil => intro opened s _ _ _; rfl
  | cons c rest ih =>
    intro opened s hst hwn hlen
    cases c with
    | start name now =>
      have hst' : stackOf t (Zprofiler_start name now t s)
          = framesOf t (opened ++ [(name, now)]) := by
        rw [stackOf_start, framesOf_concat, hst]
      have hwn' : wellNestedFrom (opened ++ [(name, now)]).length rest = true := by
        simpa [wellNestedFrom] using hwn
      have hk := pathKey_concat_length t (opened.map Prod.fst) name
      simp only [List.map_cons, List.sum_cons, Call.growth] at hlen
      have hfit : (pushedFrame name now t (stackOf t s)).szBunchCodeName.length < 1024 := by
        rw [hst, pushedFrame_key]
        omega
      have hlen' : (pathKey t ((opened ++ [(name, now)]).map Prod.fst)).length
          + (rest.map Call.growth).sum < 1024 := by
        simp only [List.map_append, List.map_cons, List.map_nil]
        omega
      simp only [runCalls_bounded, runCalls, start_bounded_eq, if_pos hfit, Option.some_bind]
      exact ih _ _ hst' hwn' hlen'
    | stop now =>
      rcases List.eq_nil_or_concat opened with h | ⟨op, p, h⟩
      · subst h
        simp [wellNestedFrom] at hwn
      · rw [List.concat_eq_append] at h
        subst h
        obtain ⟨name, t0⟩ := p
        rw [framesOf_concat] at hst
        have hfind := mapFind_of_stackOf hst
        have hend := end_of_top now t s _ _ hfind
        have hwn' : wellNestedFrom op.length rest = true := by
          simpa [wellNestedFrom] using hwn
        have hst' : stackOf t
            { s with
              mapProfilerGraph := mergeIntoGraph
                (endedData now (pushedFrame name t0 t (framesOf t op))) s.mapProfilerGraph
              mapCallsByThread := mapSet t (framesOf t op) s.mapCallsByThread }
            = framesOf t op := by
          simp [stackOf, mapFind_mapSet_self _ _ _ (show (mapFind t s.mapCallsByThread).isSome by
            simp [hfind])]
        have hk := pathKey_length_concat_ge t (op.map Prod.fst) name
        simp only [List.map_cons, List.sum_cons, Call.growth, List.map_append, List.map_nil]
          at hlen
        have hlen' : (pathKey t (op.map Prod.fst)).length + (rest.map Call.growth).sum
            < 1024 := by omega
        simp only [runCalls_bounded, runCalls, hend, Option.some_bind]
        exact ih _ _ hst' hwn' hlen'

theorem startAll_bounded_some (t : Nat) (chain : List (List Char × ℚ)) :
    ∀ s s', startAll_bounded t chain s = some s' → s' = startAll t chain s := by
  induction chain with
  | nil => intro s s' h; simpa [startAll_bounded, startAll] using h.symm
  | cons p rest ih =>
    intro s s' h
    simp only [startAll_bounded, Option.bind_eq_some] at h
    obtain ⟨s1, h1, h2⟩ := h
    obtain ⟨hs1, _⟩ := start_bounded_some h1
    subst hs1
    simpa [startAll] using ih _ _ h2

/-- Nested starts on a stack built by `Zprofiler_start`: with the array, the calls
have a defined result exactly when the key of the innermost region fits. -/
theorem startAll_bounded_eq (t : Nat) (chain : List (List Char × ℚ)) :
    ∀ (opened : List (List Char × ℚ)) (s : ProfilerState),
      stackOf t s = framesOf t opened → chain ≠ [] →
      startAll_bounded t chain s
        = if (pathKey t ((opened ++ chain).map Prod.fst)).length < 1024
          then some (startAll t chain s) else none := by
  induction chain with
  | nil => intro opened s _ h; exact absurd rfl h
  | cons p rest ih =>
    intro opened s hst _
    have hst' : stackOf t (Zprofiler_start p.1 p.2 t s) = framesOf t (opened ++ [p]) := by
      rw [stackOf_start, framesOf_concat, hst]
    have hkey : (pushedFrame p.1 p.2 t (stackOf t s)).szBunchCodeName
        = pathKey t ((opened ++ [p]).map Prod.fst) := by
      rw [hst, pushedFrame_key]
      simp
    simp only [startAll_bounded, start_bounded_eq, hkey]
    by_cases hrest : rest = []
    · subst hrest
      split_ifs with h
      · simp [startAll_bounded, startAll]
      · rfl
    · have hmono : ∀ (l : List (List Char)) (pre : List (List Char)),
          (pathKey t pre).length ≤ (pathKey t (pre ++ l)).length := by
        intro l
        induction l using List.reverseRecOn with
        | nil => intro pre; simp
        | append_singleton l x ihl =>
          intro pre
          rw [← List.append_assoc]
          exact le_trans (ihl pre) (pathKey_length_concat_ge t _ x)
      have hle := hmono (rest.map Prod.fst) ((opened ++ [p]).map Prod.fst)
      have happ : (opened ++ [p]).map Prod.fst ++ rest.map Prod.fst
          = (opened ++ p :: rest).map Prod.fst := by simp
      rw [happ] at hle
      by_cases h1 : (pathKey t ((opened ++ [p]).map Prod.fst)).length < 1024
      · simp only [if_pos h1, Option.some_bind]
        rw [ih (opened ++ [p]) _ hst' hrest]
        simp [startAll]
      · have h2 : ¬ (pathKey t ((opened ++ p :: rest).map Prod.fst)).length < 1024 := by omega
        rw [if_neg h1, if_neg h2]
        rfl

theorem pushedFrame_startKey (name : List Char) (now : ℚ) (t : Nat) (s : ProfilerState) :
    (pushedFrame name now t (stackOf t s)).szBunchCodeName = startKey name t s := by
  unfold pushedFrame startKey
  cases (stackOf t s).getLast? <;> rfl

theorem start_bounded_of_fit {name : List Char} {now : ℚ} {t : Nat} {s : ProfilerState}
    (h : (startKey name t s).length < 1024) :
    Zprofiler_start_bounded name now t s = some (Zprofiler_start name now t s) := by
  rw [start_bounded_eq, pushedFrame_startKey, if_pos h]

theorem start_bounded_of_long {name : List Char} {now : ℚ} {t : Nat} {s : ProfilerState}
    (h : 1024 ≤ (startKey name t s).length) :
    Zprofiler_start_bounded name now t s = none := by
  rw [start_bounded_eq, pushedFrame_startKey, if_neg (by omega)]

theorem longName_start : Zprofiler_start_bounded longName 0 0 initialState = none := by
  apply start_bounded_of_long
  have h : startKey longName 0 initialState = threadMarker 0 ++ longName := rfl
  rw [h, List.length_append, longName, List.length_replicate]
  omega

theorem decimalNat_length_le (n k : Nat) (hk : 0 < k) (h : n < 10 ^ k) :
    (decimalNat n).length ≤ k := by
  unfold decimalNat
  split_ifs with h0
  · simpa using hk
  · simp only [List.length_reverse, List.length_map]
    have h1 := Nat.base_pow_length_digits_le 10 n (by norm_num) h0
    have h2 : 10 ^ (Nat.digits 10 n).length < 10 ^ (k + 1) := by
      calc 10 ^ (Nat.digits 10 n).length ≤ 10 * n := h1
        _ < 10 * 10 ^ k := by omega
        _ = 10 ^ (k + 1) := by ring
    have h3 := (Nat.pow_lt_pow_iff_right (by norm_num : 1 < 10)).1 h2
    omega

theorem decimalInt_toInt32_length (t : Nat) : (decimalInt (toInt32 t)).length ≤ 11 := by
  have hb : (toInt32 t).natAbs < 10 ^ 10 := by
    unfold toInt32
    split_ifs with h <;> omega
  have := decimalNat_length_le _ 10 (by norm_num) hb
  unfold decimalInt
  split_ifs <;> simp <;> omega

theorem threadMarker_length (t : Nat) : (threadMarker t).length ≤ 13 := by
  have := decimalInt_toInt32_length t
  rw [threadMarker_eq]
  simp
  omega

/-- C4, as stated, fails in two ways.  For a thread identifier of `2^31` the key
of a first frame `A` is `|-2147483648@A`, not `|2147483648@A`.  For a name of 1030
characters on thread 0 the claimed key has 1033 characters: `sprintf` overruns
the array `szBunchCodeName[1024]`, and the call has undefined behaviour. -/
theorem C4_counterexample :
    (Zprofiler_start_bounded "A".toList 0 2147483648 initialState).map (topKey 2147483648)
      = some (some "|-2147483648@A".toList) ∧
    claimedFirstKey 2147483648 "A".toList = "|2147483648@A".toList ∧
    (Zprofiler_start_bounded "A".toList 0 2147483648 initialState).map (topKey 2147483648)
      ≠ some (some (claimedFirstKey 2147483648 "A".toList)) ∧
    (claimedFirstKey 0 longName).length = 1033 ∧
    Zprofiler_start_bounded longName 0 0 initialState = none := by
  have h0 : Zprofiler_start_bounded "A".toList 0 2147483648 initialState
      = some (Zprofiler_start "A".toList 0 2147483648 initialState) := by
    apply start_bounded_of_fit
    simp [startKey, stackOf, initialState, mapFind, threadMarker, NAME_SEPARATOR,
      THREADID_NAME_SEPARATOR, decimalInt, toInt32, decimalNat, digitChar]
  have h1 : topKey 2147483648 (Zprofiler_start "A".toList 0 2147483648 initialState)
      = some "|-2147483648@A".toList := by
    simp [topKey, stackOf_start, stackOf, initialState, mapFind, pushedFrame, threadMarker,
      NAME_SEPARATOR, THREADID_NAME_SEPARATOR, decimalInt, toInt32, decimalNat, digitChar]
  have h2 : claimedFirstKey 2147483648 "A".toList = "|2147483648@A".toList := by
    simp [claimedFirstKey, decimalNat, digitChar]
  refine ⟨by rw [h0, Option.map_some', h1], h2, ?_, ?_, longName_start⟩
  · rw [h0, Option.map_some', h1, h2]
    decide
  · simp only [claimedFirstKey, decimalNat, List.length_append, longName,
      List.length_replicate]
    rfl

/-- C4 (amended): when the key `Zprofiler_start(name)` builds on thread `t` has at
most 1023 characters, the call pushes one new frame on top of `t`'s stack, with
the clock reading as start timestamp and with that key: when the stack is empty
or does not exist, `"|" ++ decimal((int)t) ++ "@" ++ name`, where `(int)t` is `t`
reduced to a signed 32-bit integer, and otherwise the key of the top frame
followed by `"|"` and `name`.  A longer key overruns `szBunchCodeName[1024]`:
the call has undefined behaviour.  For `t < 2^31` the first form is
`"|" ++ decimal(t) ++ "@" ++ name`. -/
theorem C4_start_builds_key (name : List Char) (now : ℚ) (t : Nat) (s : ProfilerState)
    (key : List Char)
    (hkey : key = (match (stackOf t s).getLast? with
                   | none => ['|'] ++ decimalInt (toInt32 t) ++ ['@'] ++ name
                   | some top => top.szBunchCodeName ++ ['|'] ++ name)) :
    (key.length < 1024 →
      ∃ s' frame, Zprofiler_start_bounded name now t s = some s' ∧
        mapFind t s'.mapCallsByThread = some (stackOf t s ++ [frame]) ∧
        frame.lastTime = now ∧ frame.szBunchCodeName = key) ∧
    (1024 ≤ key.length → Zprofiler_start_bounded name now t s = none) ∧
    (t < 2 ^ 31 →
      ['|'] ++ decimalInt (toInt32 t) ++ ['@'] ++ name = claimedFirstKey t name) := by
  have hk : startKey name t s = key := by
    rw [hkey]
    unfold startKey
    cases (stackOf t s).getLast? <;> rfl
  refine ⟨fun hfit => ?_, fun hlong => ?_, fun ht => ?_⟩
  · refine ⟨_, pushedFrame name now t (stackOf t s),
      start_bounded_of_fit (by rw [hk]; exact hfit), start_calls name now t s, rfl, ?_⟩
    rw [pushedFrame_startKey, hk]
  · exact start_bounded_of_long (by rw [hk]; exact hlong)
  · rw [toInt32_of_lt ht]
    simp [claimedFirstKey, decimalInt]

/-- C4 (amended) at thread 0 of the initial state, for the name `A` at clock
reading 5. -/
theorem C4_start_builds_key_witness :
    "|0@A".toList.length < 1024 ∧ (0 : Nat) < 2 ^ 31 ∧
    ∃ s' frame, Zprofiler_start_bounded "A".toList 5 0 initialState = some s' ∧
      mapFind 0 s'.mapCallsByThread = some (stackOf 0 initialState ++ [frame]) ∧
      frame.lastTime = 5 ∧ frame.szBunchCodeName = "|0@A".toList :=
  ⟨by decide, by decide,
    (C4_start_builds_key "A".toList 5 0 initialState "|0@A".toList (by rfl)).1 (by decide)⟩

/-- C5, as stated, fails for chains whose key does not fit the array
`szBunchCodeName[1024]`: the two one-name chains of 1030 and 1031 characters are
different, and for both `Zprofiler_start` overruns the array, so that no key is
built that could tell them apart. -/
theorem C5_counterexample :
    [longName] ≠ [longName ++ ['b']] ∧ '|' ∉ longName ∧ '|' ∉ longName ++ ['b'] ∧
    startAll_bounded 0 [(longName, 0)] initialState = none ∧
    startAll_bounded 0 [(longName ++ ['b'], 0)] initialState = none ∧
    (startAll_bounded 0 [(longName, 0)] initialState).map (topKey 0)
      = (startAll_bounded 0 [(longName ++ ['b'], 0)] initialState).map (topKey 0) := by
  have h1 : startAll_bounded 0 [(longName, 0)] initialState = none := by
    simp [startAll_bounded, longName_start]
  have h2 : startAll_bounded 0 [(longName ++ ['b'], 0)] initialState = none := by
    have : Zprofiler_start_bounded (longName ++ ['b']) 0 0 initialState = none := by
      apply start_bounded_of_long
      have h : startKey (longName ++ ['b']) 0 initialState
          = threadMarker 0 ++ (longName ++ ['b']) := rfl
      rw [h, List.length_append, List.length_append, longName, List.length_replicate]
      omega
    simp [startAll_bounded, this]
  have hmem : '|' ∉ longName := by
    intro h
    have := List.eq_of_mem_replicate h
    revert this
    decide
  refine ⟨?_, hmem, ?_, h1, h2, by rw [h1, h2]⟩
  · intro h
    have h' := congrArg List.length (List.head_eq_of_cons_eq h)
    simp at h'
  · intro h
    rcases List.mem_append.1 h with h | h
    · exact hmem h
    · revert h
      decide

/-- C5 (amended): on one thread whose stack is empty, two non-empty chains of
region names without `|`, whose keys have at most 1023 characters, are given
their keys by nested `Zprofiler_start` calls, and if the two keys are equal the
two chains are equal.  In particular `start("X")` directly inside `start("X")`
gives the keys `X` and `X|X` after the thread marker, and the two `end()` calls
leave two separate entries, each with call count 1. -/
theorem C5_key_identifies_chain (t : Nat) (s : ProfilerState) (hs : stackOf t s = [])
    (c1 c2 : List (List Char × ℚ)) (h1 : c1 ≠ []) (h2 : c2 ≠ [])
    (hsep1 : ∀ p ∈ c1, '|' ∉ p.1) (hsep2 : ∀ p ∈ c2, '|' ∉ p.1)
    (hfit1 : (pathKey t (c1.map Prod.fst)).length < 1024)
    (hfit2 : (pathKey t (c2.map Prod.fst)).length < 1024) (a b c d : ℚ) :
    (∃ s1 s2, startAll_bounded t c1 s = some s1 ∧ startAll_bounded t c2 s = some s2 ∧
      topKey t s1 = some (pathKey t (c1.map Prod.fst)) ∧
      topKey t s2 = some (pathKey t (c2.map Prod.fst)) ∧
      (topKey t s1 = topKey t s2 → c1.map Prod.fst = c2.map Prod.fst)) ∧
    (startAll_bounded t [("X".toList, a)] initialState).map (topKey t)
      = some (some (threadMarker t ++ "X".toList)) ∧
    (startAll_bounded t [("X".toList, a), ("X".toList, b)] initialState).map (topKey t)
      = some (some (threadMarker t ++ "X|X".toList)) ∧
    threadMarker t ++ "X".toList ≠ threadMarker t ++ "X|X".toList ∧
    (∃ s', runCalls_bounded t [Call.start "X".toList a, Call.start "X".toList b, Call.stop c,
            Call.stop d] initialState = some s' ∧
      s'.mapProfilerGraph.length = 2 ∧
      statView s'.mapProfilerGraph (threadMarker t ++ "X".toList)
        = some { callCount := 1, totalTime := d - a, minTime := d - a,
                 maxTime := d - a, averageTime := d - a } ∧
      statView s'.mapProfilerGraph (threadMarker t ++ "X|X".toList)
        = some { callCount := 1, totalTime := c - b, minTime := c - b,
                 maxTime := c - b, averageTime := c - b }) := by
  obtain ⟨hinj, hx1, hx2, hne, s', hrun, hlen, hst1, hst2⟩ :=
    key_identifies_chain t s hs c1 c2 h1 h2 hsep1 hsep2 a b c d
  have hb1 : startAll_bounded t c1 s = some (startAll t c1 s) := by
    rw [startAll_bounded_eq t c1 [] s (by rw [hs]; rfl) h1]
    simp only [List.nil_append]
    rw [if_pos hfit1]
  have hb2 : startAll_bounded t c2 s = some (startAll t c2 s) := by
    rw [startAll_bounded_eq t c2 [] s (by rw [hs]; rfl) h2]
    simp only [List.nil_append]
    rw [if_pos hfit2]
  have hm := threadMarker_length t
  refine ⟨⟨_, _, hb1, hb2, topKey_startAll t c1 h1 s hs, topKey_startAll t c2 h2 s hs, hinj⟩,
    ?_, ?_, hne, s', ?_, hlen, hst1, hst2⟩
  · rw [startAll_bounded_eq t _ [] initialState rfl (by simp), if_pos, Option.map_some', hx1]
    have hk : pathKey t ["X".toList] = threadMarker t ++ "X".toList := rfl
    simp only [List.nil_append, List.map_cons, List.map_nil]
    rw [hk, List.length_append]
    simp
    omega
  · rw [startAll_bounded_eq t _ [] initialState rfl (by simp), if_pos, Option.map_some', hx2]
    have hk : pathKey t ["X".toList, "X".toList] = threadMarker t ++ "X|X".toList := rfl
    simp only [List.nil_append, List.map_cons, List.map_nil]
    rw [hk, List.length_append]
    simp
    omega
  · rw [run_bounded_eq t [Call.start "X".toList a, Call.start "X".toList b, Call.stop c,
      Call.stop d] [] initialState (stackOf_initialState t) rfl]
    · exact hrun
    · simp only [List.map_nil, pathKey_nil, List.map_cons, Call.growth, List.sum_cons,
        List.sum_nil]
      simp
      omega

/-- C5 (amended) at thread 0 of the initial state, for the chains `X` and `X`, `X`. -/
theorem C5_key_identifies_chain_witness :
    stackOf 0 initialState = [] ∧
    (∀ p ∈ [("X".toList, (0 : ℚ)), ("X".toList, 1)], '|' ∉ p.1) ∧
    (pathKey 0 ([("X".toList, (0 : ℚ))].map Prod.fst)).length < 1024 ∧
    (pathKey 0 ([("X".toList, (0 : ℚ)), ("X".toList, 1)].map Prod.fst)).length < 1024 ∧
    (startAll_bounded 0 [("X".toList, 0)] initialState).map (topKey 0)
      = some (some "|0@X".toList) ∧
    (startAll_bounded 0 [("X".toList, 0), ("X".toList, 1)] initialState).map (topKey 0)
      = some (some "|0@X|X".toList) ∧
    ∃ s', runCalls_bounded 0 [Call.start "X".toList 0, Call.start "X".toList 1, Call.stop 2,
            Call.stop 3] initialState = some s' ∧
      s'.mapProfilerGraph.length = 2 := by
  have h := C5_key_identifies_chain 0 initialState rfl [("X".toList, 0)]
    [("X".toList, 0), ("X".toList, 1)] (by simp) (by simp) (by decide) (by decide)
    (by decide) (by decide) 0 1 2 3
  obtain ⟨_, hk1, hk2, _, s', hrun, hlen, _⟩ := h
  exact ⟨rfl, by decide, by decide, by decide, hk1, hk2, s', hrun, hlen⟩

/-- C9: for two distinct thread identifiers below `2^32`, the values
`GetCurrentThreadId` can return (a 32-bit `DWORD` on Windows, the constant 0 on
Linux and macOS), and any non-empty chains of region names, the key built by
nested `Zprofiler_start` calls on the first thread differs from the key built on
the second, whenever both are built; they are built when they fit the array
`szBunchCodeName[1024]`. -/
theorem C9_threads_never_collide (t1 t2 : Nat) (hlt1 : t1 < 2 ^ 32) (hlt2 : t2 < 2 ^ 32)
    (hne : t1 ≠ t2) (c1 c2 : List (List Char × ℚ)) (h1 : c1 ≠ []) (h2 : c2 ≠ [])
    (s1 s2 : ProfilerState) (hs1 : stackOf t1 s1 = []) (hs2 : stackOf t2 s2 = []) :
    (∀ r1 r2, startAll_bounded t1 c1 s1 = some r1 → startAll_bounded t2 c2 s2 = some r2 →
      topKey t1 r1 ≠ topKey t2 r2) ∧
    ((pathKey t1 (c1.map Prod.fst)).length < 1024 →
      ∃ r1, startAll_bounded t1 c1 s1 = some r1 ∧
        topKey t1 r1 = some (pathKey t1 (c1.map Prod.fst))) ∧
    ((pathKey t2 (c2.map Prod.fst)).length < 1024 →
      ∃ r2, startAll_bounded t2 c2 s2 = some r2 ∧
        topKey t2 r2 = some (pathKey t2 (c2.map Prod.fst))) ∧
    pathKey t1 (c1.map Prod.fst) ≠ pathKey t2 (c2.map Prod.fst) := by
  have hmod : t1 % 2 ^ 32 ≠ t2 % 2 ^ 32 := by
    rw [Nat.mod_eq_of_lt hlt1, Nat.mod_eq_of_lt hlt2]
    exact hne
  have hkeys := keys_differ_modulo t1 t2 hmod c1 c2 h1 h2 s1 s2 hs1 hs2
  refine ⟨?_, ?_, ?_, ?_⟩
  · intro r1 r2 hr1 hr2
    rw [startAll_bounded_some t1 c1 s1 r1 hr1, startAll_bounded_some t2 c2 s2 r2 hr2]
    exact hkeys
  · intro hfit
    refine ⟨_, ?_, topKey_startAll t1 c1 h1 s1 hs1⟩
    rw [startAll_bounded_eq t1 c1 [] s1 (by rw [hs1]; rfl) h1]
    simp only [List.nil_append]
    rw [if_pos hfit]
  · intro hfit
    refine ⟨_, ?_, topKey_startAll t2 c2 h2 s2 hs2⟩
    rw [startAll_bounded_eq t2 c2 [] s2 (by rw [hs2]; rfl) h2]
    simp only [List.nil_append]
    rw [if_pos hfit]
  · intro h
    apply hkeys
    rw [topKey_startAll t1 c1 h1 s1 hs1, topKey_startAll t2 c2 h2 s2 hs2, h]

/-- C9 at the thread identifiers 1 and 2 in the initial state. -/
theorem C9_threads_never_collide_witness :
    (1 : Nat) < 2 ^ 32 ∧ (2 : Nat) < 2 ^ 32 ∧ (1 : Nat) ≠ 2 ∧
    (startAll_bounded 1 [("A".toList, 0)] initialState).map (topKey 1)
      = some (some "|1@A".toList) ∧
    (startAll_bounded 2 [("A".toList, 0)] initialState).map (topKey 2)
      = some (some "|2@A".toList) ∧
    pathKey 1 ([("A".toList, (0 : ℚ))].map Prod.fst)
      ≠ pathKey 2 ([("A".toList, (0 : ℚ))].map Prod.fst) := by
  have h := C9_threads_never_collide 1 2 (by decide) (by decide) (by decide)
    [("A".toList, 0)] [("A".toList, 0)] (by simp) (by simp) initialState initialState rfl rfl
  obtain ⟨_, hb1, hb2, hk⟩ := h
  have hk1 : pathKey 1 ([("A".toList, (0 : ℚ))].map Prod.fst) = "|1@A".toList := by
    simp [pathKey, threadMarker, NAME_SEPARATOR, THREADID_NAME_SEPARATOR, decimalInt, toInt32,
      decimalNat, digitChar, List.intercalate, List.intersperse]
  have hk2 : pathKey 2 ([("A".toList, (0 : ℚ))].map Prod.fst) = "|2@A".toList := by
    simp [pathKey, threadMarker, NAME_SEPARATOR, THREADID_NAME_SEPARATOR, decimalInt, toInt32,
      decimalNat, digitChar, List.intercalate, List.intersperse]
  obtain ⟨r1, hr1, ht1⟩ := hb1 (by rw [hk1]; decide)
  obtain ⟨r2, hr2, ht2⟩ := hb2 (by rw [hk2]; decide)
  refine ⟨by decide, by decide, by decide, ?_, ?_, hk⟩
  · rw [hr1, Option.map_some', ht1, hk1]
  · rw [hr2, Option.map_some', ht2, hk2]

/-- C11, as stated, fails in two ways.  `start("A|B")` at top level and
`start("B")` inside `start("A")` are two different call paths with the same key
`|0@A|B`: the name is neither rejected nor escaped, with the array
`szBunchCodeName[1024]` as without it.  And a name of 1030 characters followed
by `|B` is not rejected either: its key has 1035 characters and `sprintf`
overruns the array. -/
theorem C11_counterexample :
    ["A|B".toList] ≠ ["A".toList, "B".toList] ∧
    topKey 0 (startAll 0 [("A|B".toList, 0)] initialState) = some "|0@A|B".toList ∧
    topKey 0 (startAll 0 [("A".toList, 0), ("B".toList, 0)] initialState)
      = some "|0@A|B".toList ∧
    (startAll_bounded 0 [("A|B".toList, 0)] initialState).map (topKey 0)
      = some (some "|0@A|B".toList) ∧
    (startAll_bounded 0 [("A".toList, 0), ("B".toList, 0)] initialState).map (topKey 0)
      = some (some "|0@A|B".toList) ∧
    '|' ∈ longName ++ ['|', 'B'] ∧
    (startKey (longName ++ ['|', 'B']) 0 initialState).length = 1035 ∧
    Zprofiler_start_bounded (longName ++ ['|', 'B']) 0 0 initialState = none := by
  have hk : startKey (longName ++ ['|', 'B']) 0 initialState
      = threadMarker 0 ++ (longName ++ ['|', 'B']) := rfl
  have hlen : (startKey (longName ++ ['|', 'B']) 0 initialState).length = 1035 := by
    rw [hk, List.length_append, List.length_append, longName, List.length_replicate]
    rfl
  refine ⟨by decide, by decide, by decide, ?_, ?_, by simp, hlen,
    start_bounded_of_long (by rw [hlen]; norm_num)⟩
  · rw [startAll_bounded_eq 0 _ [] initialState rfl (by simp), if_pos (by decide)]
    rfl
  · rw [startAll_bounded_eq 0 _ [] initialState rfl (by simp), if_pos (by decide)]
    rfl

/-- C11 (amended): `Zprofiler_start` neither rejects nor escapes a name, whatever
it contains: whenever the key it builds has at most 1023 characters it pushes
one frame, whose key is the thread marker or the parent key and `|`, followed by
the name exactly as given; a longer key overruns `szBunchCodeName[1024]`.  The
key differs from the key of every different call path of the thread when no
name of either path contains `|` and both keys have at most 1023 characters. -/
theorem C11_names_taken_verbatim (t : Nat) (s : ProfilerState) (hs : stackOf t s = [])
    (c1 c2 : List (List Char × ℚ)) (h1 : c1 ≠ []) (h2 : c2 ≠ [])
    (hsep1 : ∀ p ∈ c1, '|' ∉ p.1) (hsep2 : ∀ p ∈ c2, '|' ∉ p.1)
    (hne : c1.map Prod.fst ≠ c2.map Prod.fst)
    (hfit1 : (pathKey t (c1.map Prod.fst)).length < 1024)
    (hfit2 : (pathKey t (c2.map Prod.fst)).length < 1024)
    (name : List Char) (now : ℚ) (s0 : ProfilerState) :
    (∃ s1 s2, startAll_bounded t c1 s = some s1 ∧ startAll_bounded t c2 s = some s2 ∧
      topKey t s1 ≠ topKey t s2) ∧
    ((startKey name t s0).length < 1024 →
      ∃ s' frame pre, Zprofiler_start_bounded name now t s0 = some s' ∧
        mapFind t s'.mapCallsByThread = some (stackOf t s0 ++ [frame]) ∧
        frame.szBunchCodeName = pre ++ name ∧
        (pre = threadMarker t ∨
          ∃ top, (stackOf t s0).getLast? = some top ∧
            pre = top.szBunchCodeName ++ NAME_SEPARATOR)) ∧
    (1024 ≤ (startKey name t s0).length → Zprofiler_start_bounded name now t s0 = none) := by
  obtain ⟨hkeys, frame, pre, hfind, hname, hpre⟩ :=
    names_taken_verbatim t s hs c1 c2 h1 h2 hsep1 hsep2 hne name now s0
  have hb1 : startAll_bounded t c1 s = some (startAll t c1 s) := by
    rw [startAll_bounded_eq t c1 [] s (by rw [hs]; rfl) h1]
    simp only [List.nil_append]
    rw [if_pos hfit1]
  have hb2 : startAll_bounded t c2 s = some (startAll t c2 s) := by
    rw [startAll_bounded_eq t c2 [] s (by rw [hs]; rfl) h2]
    simp only [List.nil_append]
    rw [if_pos hfit2]
  exact ⟨⟨_, _, hb1, hb2, hkeys⟩,
    fun hfit => ⟨_, frame, pre, start_bounded_of_fit hfit, hfind, hname, hpre⟩,
    fun hlong => start_bounded_of_long hlong⟩

/-- C11 (amended) at thread 0 of the initial state, for the chains `A` and
`A`, `B` and the name `A|B`. -/
theorem C11_names_taken_verbatim_witness :
    stackOf 0 initialState = [] ∧
    (∀ p ∈ [("A".toList, (0 : ℚ))], '|' ∉ p.1) ∧
    (∀ p ∈ [("A".toList, (0 : ℚ)), ("B".toList, 0)], '|' ∉ p.1) ∧
    (pathKey 0 ([("A".toList, (0 : ℚ))].map Prod.fst)).length < 1024 ∧
    (pathKey 0 ([("A".toList, (0 : ℚ)), ("B".toList, 0)].map Prod.fst)).length < 1024 ∧
    (startKey "A|B".toList 0 initialState).length < 1024 ∧
    (∃ s1 s2, startAll_bounded 0 [("A".toList, 0)] initialState = some s1 ∧
      startAll_bounded 0 [("A".toList, 0), ("B".toList, 0)] initialState = some s2 ∧
      topKey 0 s1 ≠ topKey 0 s2) ∧
    ∃ s' frame pre, Zprofiler_start_bounded "A|B".toList 0 0 initialState = some s' ∧
      mapFind 0 s'.mapCallsByThread = some (stackOf 0 initialState ++ [frame]) ∧
      frame.szBunchCodeName = pre ++ "A|B".toList ∧
      (pre = threadMarker 0 ∨
        ∃ top, (stackOf 0 initialState).getLast? = some top ∧
          pre = top.szBunchCodeName ++ NAME_SEPARATOR) := by
  have h := C11_names_taken_verbatim 0 initialState rfl [("A".toList, 0)]
    [("A".toList, 0), ("B".toList, 0)] (by simp) (by simp) (by decide) (by decide)
    (by decide) (by decide) (by decide) "A|B".toList 0 initialState
  exact ⟨rfl, by decide, by decide, by decide, by decide, by decide, h.1, h.2.1 (by decide)⟩

/-- C24, as stated, fails for a name whose key does not fit the array: for the
name of 1030 characters on thread 0 of the initial state the key has 1033
characters, `sprintf` overruns `szBunchCodeName[1024]` of the local
`GenProfilerData`, and nothing can be said of the maps after the call. -/
theorem C24_counterexample :
    (startKey longName 0 initialState).length = 1033 ∧
    Zprofiler_start_bounded longName 0 0 initialState = none := by
  refine ⟨?_, longName_start⟩
  have h : startKey longName 0 initialState = threadMarker 0 ++ longName := rfl
  rw [h, List.length_append, longName, List.length_replicate]
  rfl

/-- C24 (amended): `Zprofiler_start` on thread `t`, when the key it builds has at
most 1023 characters, leaves `mapProfilerGraph` and the stack of every other
thread unchanged and puts one new frame on top of the unchanged frames of the
stack of `t`; `Zprofiler_end` on a thread `t` whose stack is `st ++ [top]`
returns, leaves `st` as the stack of `t`, leaves the stack of every other thread
unchanged, and changes no entry of `mapProfilerGraph` other than the one stored
under the path key of `top`. -/
theorem C24_frame_of_start_and_end (name : List Char) (now : ℚ) (t : Nat)
    (s : ProfilerState) :
    ((startKey name t s).length < 1024 →
      ∃ s1, Zprofiler_start_bounded name now t s = some s1 ∧
        s1.mapProfilerGraph = s.mapProfilerGraph ∧
        (∀ t', t' ≠ t → mapFind t' s1.mapCallsByThread = mapFind t' s.mapCallsByThread) ∧
        ∃ frame, mapFind t s1.mapCallsByThread = some (stackOf t s ++ [frame]) ∧
          frame.szBunchCodeName = startKey name t s ∧ frame.lastTime = now) ∧
    ∀ st top, mapFind t s.mapCallsByThread = some (st ++ [top]) →
      ∃ s', Zprofiler_end now t s = some s' ∧
        mapFind t s'.mapCallsByThread = some st ∧
        (∀ t', t' ≠ t → mapFind t' s'.mapCallsByThread = mapFind t' s.mapCallsByThread) ∧
        (∀ k, k ≠ top.szBunchCodeName →
          mapFind k s'.mapProfilerGraph = mapFind k s.mapProfilerGraph) := by
  obtain ⟨⟨hg, hother, _⟩, hend⟩ := frame_of_start_and_end name now t s
  exact ⟨fun hfit => ⟨_, start_bounded_of_fit hfit, hg, hother,
    pushedFrame name now t (stackOf t s), start_calls name now t s,
    pushedFrame_startKey name now t s, rfl⟩, hend⟩

/-- C24 (amended) at a concrete input: thread 0 starts `Main` at clock reading 0
in the initial state; then the `end` at reading 79 leaves the empty stack. -/
theorem C24_frame_of_start_and_end_witness :
    (startKey "Main".toList 0 initialState).length < 1024 ∧
    Zprofiler_start_bounded "Main".toList 0 0 initialState = some startedMain ∧
    mapFind 0 startedMain.mapCallsByThread = some ([] ++ [pushedFrame "Main".toList 0 0 []]) ∧
    (∃ s1, Zprofiler_start_bounded "Main".toList 0 0 initialState = some s1 ∧
        s1.mapProfilerGraph = initialState.mapProfilerGraph ∧
        (∀ t', t' ≠ 0 →
          mapFind t' s1.mapCallsByThread = mapFind t' initialState.mapCallsByThread) ∧
        ∃ frame, mapFind 0 s1.mapCallsByThread = some (stackOf 0 initialState ++ [frame]) ∧
          frame.szBunchCodeName = startKey "Main".toList 0 initialState ∧
          frame.lastTime = 0) ∧
    ∃ s', Zprofiler_end 79 0 startedMain = some s' ∧
      mapFind 0 s'.mapCallsByThread = some [] ∧
      (∀ t', t' ≠ 0 → mapFind t' s'.mapCallsByThread = mapFind t' startedMain.mapCallsByThread) ∧
      (∀ k, k ≠ (pushedFrame "Main".toList 0 0 []).szBunchCodeName →
        mapFind k s'.mapProfilerGraph = mapFind k startedMain.mapProfilerGraph) :=
  ⟨by decide, start_bounded_of_fit (by decide), by rfl,
   (C24_frame_of_start_and_end "Main".toList 0 0 initialState).1 (by decide),
   (C24_frame_of_start_and_end "A".toList 79 0 startedMain).2 []
     (pushedFrame "Main".toList 0 0 []) (by rfl)⟩

/-! ## The width of the printed columns -/

theorem padLeft_length (width : Nat) (text : List Char) :
    (padLeft width text).length = max width text.length := by
  unfold padLeft
  rw [List.length_append, List.length_replicate]
  omega

theorem fieldF_length_ge (v : ℚ) : 12 ≤ (fieldF v).length := by
  unfold fieldF
  rw [padLeft_length]
  exact le_max_left _ _

theorem fieldD_length_ge (i : Int) : 6 ≤ (fieldD i).length := by
  unfold fieldD
  rw [padLeft_length]
  exact le_max_left _ _

theorem callstackColumns_length_ge (e : tdstGenProfilerData) :
    71 ≤ (callstackColumns e).length := by
  have h1 := fieldF_length_ge e.totalTime
  have h2 := fieldF_length_ge e.averageTime
  have h3 := fieldF_length_ge e.minTime
  have h4 := fieldF_length_ge e.maxTime
  have h5 := fieldD_length_ge (toInt32 e.nbCalls)
  simp only [callstackColumns, List.length_append, List.length_cons, List.length_nil]
  omega

theorem fieldF_length_of_small {v : ℚ} (h0 : 0 ≤ v) (h1 : v < 9999999) :
    (fieldF v).length = 12 := by
  unfold fieldF
  rw [padLeft_length]
  apply max_eq_left
  unfold fixedPoint
  have hneg : ¬ v < 0 := not_lt.2 h0
  simp only [hneg, if_false, List.nil_append, List.length_append, List.length_cons,
    List.length_nil]
  have hfl : ⌊|v| * 10000 + 1 / 2⌋ < 99999990001 := by
    rw [Int.floor_lt]
    rw [abs_of_nonneg h0]
    push_cast
    linarith
  have hfl0 : 0 ≤ ⌊|v| * 10000 + 1 / 2⌋ := by
    apply Int.floor_nonneg.2
    have := abs_nonneg v
    linarith
  have hn : (⌊|v| * 10000 + 1 / 2⌋).toNat / 10000 < 10 ^ 7 := by
    have : (⌊|v| * 10000 + 1 / 2⌋).toNat < 99999990001 := by omega
    omega
  have := decimalNat_length_le _ 7 (by norm_num) hn
  omega

theorem fieldD_length_of_small {n : Nat} (h : n < 1000000) :
    (fieldD (toInt32 n)).length = 6 := by
  unfold fieldD
  rw [padLeft_length]
  apply max_eq_left
  rw [toInt32_of_lt (by omega)]
  have := decimalNat_length_le n 6 (by norm_num) (by omega)
  simpa [decimalInt] using this

theorem callstackColumns_length_of_small {e : tdstGenProfilerData}
    (h1 : 0 ≤ e.totalTime ∧ e.totalTime < 9999999)
    (h2 : 0 ≤ e.averageTime ∧ e.averageTime < 9999999)
    (h3 : 0 ≤ e.minTime ∧ e.minTime < 9999999)
    (h4 : 0 ≤ e.maxTime ∧ e.maxTime < 9999999)
    (h5 : e.nbCalls < 1000000) :
    (callstackColumns e).length = 71 := by
  simp only [callstackColumns, List.length_append, List.length_cons, List.length_nil,
    fieldF_length_of_small h1.1 h1.2, fieldF_length_of_small h2.1 h2.2,
    fieldF_length_of_small h3.1 h3.2, fieldF_length_of_small h4.1 h4.2,
    fieldD_length_of_small h5]

theorem dumpColumns_length_of_small {e : tdstGenProfilerData}
    (h1 : 0 ≤ e.totalTime ∧ e.totalTime < 9999999)
    (h2 : 0 ≤ e.averageTime ∧ e.averageTime < 9999999)
    (h3 : 0 ≤ e.minTime ∧ e.minTime < 9999999)
    (h4 : 0 ≤ e.maxTime ∧ e.maxTime < 9999999)
    (h5 : e.nbCalls < 1000000) :
    (dumpColumns e).length = 71 := by
  simp only [dumpColumns, List.length_append, List.length_cons, List.length_nil,
    fieldF_length_of_small h1.1 h1.2, fieldF_length_of_small h2.1 h2.2,
    fieldF_length_of_small h3.1 h3.2, fieldF_length_of_small h4.1 h4.2,
    fieldD_length_of_small h5]

/-! ## The loop that indents a line -/

theorem replicate_two_succ (n : Nat) :
    List.replicate (2 * (n + 1)) ' ' = [' ', ' '] ++ List.replicate (2 * n) ' ' := by
  have : 2 * (n + 1) = 2 + 2 * n := by ring
  rw [this, List.replicate_add]
  rfl

theorem indentLine_some (n : Nat) :
    ∀ (textLine x : List Char), indentLine n textLine = some x →
      x = textLine ++ List.replicate (2 * n) ' ' ∧ (n = 0 ∨ textLine.length + 2 * n < 1024) := by
  induction n with
  | zero =>
    intro textLine x h
    simp only [indentLine, Option.some.injEq] at h
    subst h
    simp
  | succ n ih =>
    intro textLine x h
    simp only [indentLine, Option.bind_eq_some] at h
    obtain ⟨y, hy, hx⟩ := h
    obtain ⟨hlen, hy'⟩ := writeArray_eq_some.1 hy
    subst hy'
    obtain ⟨hx', hfit⟩ := ih _ _ hx
    simp only [List.length_append, List.length_cons, List.length_nil] at hlen hfit
    refine ⟨?_, Or.inr ?_⟩
    · rw [hx', List.append_assoc, replicate_two_succ]
    · rcases hfit with h0 | h1
      · subst h0
        omega
      · omega

theorem indentLine_of_fit (n : Nat) :
    ∀ (textLine : List Char), textLine.length + 2 * n < 1024 →
      indentLine n textLine = some (textLine ++ List.replicate (2 * n) ' ') := by
  induction n with
  | zero => intro textLine _; simp [indentLine]
  | succ n ih =>
    intro textLine h
    have h1 : (textLine ++ [' ', ' ']).length < 1024 := by
      simp only [List.length_append, List.length_cons, List.length_nil]
      omega
    simp only [indentLine, writeArray_of_lt h1, Option.some_bind]
    rw [ih _ (by simp only [List.length_append, List.length_cons, List.length_nil]; omega),
      List.append_assoc, replicate_two_succ]

/-! ## `LogProfiler` with its arrays -/

theorem afterLast_length {c : Char} :
    ∀ {l r : List Char}, afterLast c l = some r → r.length < l.length := by
  intro l
  induction l with
  | nil => intro r h; simp [afterLast] at h
  | cons x xs ih =>
    intro r h
    simp only [afterLast] at h
    cases hx : afterLast c xs with
    | some r' =>
      rw [hx] at h
      simp only [Option.some.injEq] at h
      subst h
      have := ih hx
      simp only [List.length_cons]
      omega
    | none =>
      rw [hx] at h
      simp only at h
      split_ifs at h
      simp only [Option.some.injEq] at h
      subst h
      simp

theorem shownName_some {T key leaf shown : List Char} (h : shownName T key leaf = some shown) :
    shown = (if strstr leaf THREADID_NAME_SEPARATOR = true then leaf.drop (T.length + 1)
             else leaf) := by
  unfold shownName at h
  split_ifs at h with h1 h2
  · rw [if_pos h1]
    exact (Option.some.inj h).symm
  · rw [if_neg h1]
    exact (Option.some.inj h).symm

theorem logEntry_bounded_some {T : List Char}
    {acc x : List (List Char × tdstGenProfilerData) × List ReportLine}
    {e : tdstGenProfilerData} (h : logEntry_bounded T acc e = some x) :
    logEntry T acc e = some x ∧
    ∃ lines, x.2 = acc.2 ++ lines ∧ ∀ line ∈ lines, 71 + 2 * line.indent < 1024 := by
  unfold logEntry_bounded at h
  unfold logEntry
  by_cases hs : strstr (e.szBunchCodeName.drop 1) T = true
  · simp only [hs, if_true] at h ⊢
    split at h
    · cases h
    · rename_i textLine hw
      split at h
      · cases h
      · rename_i leaf hl
        split at h
        · cases h
        · split at h
          · cases h
          · rename_i textLine2 hi
            split at h
            · cases h
            · rename_i shown hsh
              split at h
              · cases h
              · simp only [Option.some.injEq] at h
                subst h
                obtain ⟨hlen, htl⟩ := writeArray_eq_some.1 hw
                subst htl
                obtain ⟨_, hfit⟩ := indentLine_some _ _ _ hi
                have hge := callstackColumns_length_ge e
                have hshown := shownName_some hsh
                refine ⟨?_, _, rfl, ?_⟩
                · simp only [hl, ← hshown]
                · intro line hline
                  rw [List.mem_singleton] at hline
                  subst hline
                  simp only
                  rcases hfit with h0 | h1
                  · rw [h0]
                    norm_num
                  · omega
  · simp only [hs] at h ⊢
    simp only [Bool.false_eq_true, if_false, Option.some.injEq] at h ⊢
    subst h
    exact ⟨rfl, [], by simp, by simp⟩

theorem logEntry_bounded_of_fit (T : List Char)
    (acc : List (List Char × tdstGenProfilerData) × List ReportLine)
    (e : tdstGenProfilerData)
    (hfit : (callstackColumns e).length + 3 * e.szBunchCodeName.length + T.length + 2 < 1024) :
    logEntry_bounded T acc e = logEntry T acc e := by
  unfold logEntry_bounded logEntry
  by_cases hs : strstr (e.szBunchCodeName.drop 1) T = true
  · simp only [hs, if_true]
    rw [writeArray_of_lt (by omega)]
    simp only
    cases hl : afterLast '|' e.szBunchCodeName with
    | none => rfl
    | some leaf =>
      simp only
      have hleaf := afterLast_length hl
      have hcount : (e.szBunchCodeName.drop 1).count '|' ≤ e.szBunchCodeName.length := by
        have h1 := List.count_le_length '|' (e.szBunchCodeName.drop 1)
        have h2 : (e.szBunchCodeName.drop 1).length ≤ e.szBunchCodeName.length := by
          rw [List.length_drop]
          omega
        omega
      have hname : (leafName T leaf).length < 1024 := by
        unfold leafName
        split_ifs
        · omega
        · simp only [List.length_append, THREADID_NAME_SEPARATOR, List.length_singleton]
          omega
      have h1 : ∃ name, tgtName T leaf acc.1 = some name := by
        unfold tgtName
        cases mapFind leaf acc.1 with
        | none => exact ⟨_, writeArray_of_lt hname⟩
        | some m => exact ⟨_, rfl⟩
      obtain ⟨name, h1⟩ := h1
      rw [h1]
      simp only
      rw [indentLine_of_fit _ _ (by omega)]
      simp only
      have h2 : shownName T e.szBunchCodeName leaf
          = some (if strstr leaf THREADID_NAME_SEPARATOR = true then leaf.drop (T.length + 1)
                  else leaf) := by
        unfold shownName
        split_ifs with ha hb
        · rfl
        · omega
        · rfl
      rw [h2]
      simp only
      have h3 : ((callstackColumns e ++ List.replicate
            (2 * (e.szBunchCodeName.drop 1).count '|') ' ')
          ++ (if strstr leaf THREADID_NAME_SEPARATOR = true then leaf.drop (T.length + 1)
              else leaf) ++ [newline]).length < 1024 := by
        simp only [List.length_append, List.length_replicate, List.length_singleton]
        have : (if strstr leaf THREADID_NAME_SEPARATOR = true then leaf.drop (T.length + 1)
                else leaf).length ≤ leaf.length := by
          split_ifs
          · simp
          · exact le_refl _
        omega
      rw [LOG, writeArray_of_lt h3]
  · simp only [hs, Bool.false_eq_true, if_false]

theorem logEntries_bounded_some (T : List Char) (l : List tdstGenProfilerData) :
    ∀ (acc x : List (List Char × tdstGenProfilerData) × List ReportLine),
      logEntries_bounded T l acc = some x →
      logEntries T l acc = some x ∧
      ∃ lines, x.2 = acc.2 ++ lines ∧ ∀ line ∈ lines, 71 + 2 * line.indent < 1024 := by
  induction l with
  | nil =>
    intro acc x h
    simp only [logEntries_bounded, Option.some.injEq] at h
    subst h
    exact ⟨rfl, [], by simp, by simp⟩
  | cons e rest ih =>
    intro acc x h
    simp only [logEntries_bounded, Option.bind_eq_some] at h
    obtain ⟨y, hy, hx⟩ := h
    obtain ⟨hold, l1, hl1, hq1⟩ := logEntry_bounded_some hy
    obtain ⟨hrest, l2, hl2, hq2⟩ := ih y x hx
    refine ⟨by simp only [logEntries, hold, Option.some_bind, hrest], l1 ++ l2, ?_, ?_⟩
    · rw [hl2, hl1, List.append_assoc]
    · intro line hline
      rcases List.mem_append.1 hline with h1 | h2
      · exact hq1 line h1
      · exact hq2 line h2

theorem logThreads_bounded_some (l : List tdstGenProfilerData) (ids : List (List Char)) :
    ∀ (mc : List (List Char × tdstGenProfilerData))
      (x : List (List Char × tdstGenProfilerData) × List ThreadBlock),
      logThreads_bounded l ids mc = some x →
      logThreads l ids mc = some x ∧
      ∀ b ∈ x.2, ∀ line ∈ b.lines, 71 + 2 * line.indent < 1024 := by
  induction ids with
  | nil =>
    intro mc x h
    simp only [logThreads_bounded, Option.some.injEq] at h
    subst h
    exact ⟨rfl, by simp⟩
  | cons T rest ih =>
    intro mc x h
    simp only [logThreads_bounded] at h
    cases h1 : logEntries_bounded T l (mc, []) with
    | none => rw [h1] at h; simp at h
    | some y =>
      obtain ⟨mc1, lines⟩ := y
      rw [h1] at h
      simp only at h
      cases h2 : logThreads_bounded l rest mc1 with
      | none => rw [h2] at h; simp at h
      | some z =>
        obtain ⟨mc2, blocks⟩ := z
        rw [h2] at h
        simp only [Option.some.injEq] at h
        subst h
        obtain ⟨hold1, l1, hl1, hq1⟩ := logEntries_bounded_some T l _ _ h1
        obtain ⟨hold2, hq2⟩ := ih mc1 _ h2
        simp only [List.nil_append] at hl1
        refine ⟨by simp only [logThreads, hold1, hold2], ?_⟩
        intro b hb line hline
        rcases List.mem_cons.1 hb with hb | hb
        · subst hb
          simp only at hline
          rw [hl1] at hline
          exact hq1 line hline
        · exact hq2 b hb line hline

theorem logEntries_bounded_of_fit (T : List Char) (l : List tdstGenProfilerData)
    (hfit : ∀ e ∈ l,
      (callstackColumns e).length + 3 * e.szBunchCodeName.length + T.length + 2 < 1024) :
    ∀ acc, logEntries_bounded T l acc = logEntries T l acc := by
  induction l with
  | nil => intro acc; rfl
  | cons e rest ih =>
    intro acc
    simp only [logEntries_bounded, logEntries,
      logEntry_bounded_of_fit T acc e (hfit e (List.mem_cons_self _ _))]
    cases logEntry T acc e with
    | none => rfl
    | some y =>
      simp only [Option.some_bind]
      exact ih (fun x hx => hfit x (List.mem_cons_of_mem _ hx)) y

theorem logThreads_bounded_of_fit (l : List tdstGenProfilerData) (ids : List (List Char))
    (hfit : ∀ T ∈ ids, ∀ e ∈ l,
      (callstackColumns e).length + 3 * e.szBunchCodeName.length + T.length + 2 < 1024) :
    ∀ mc, logThreads_bounded l ids mc = logThreads l ids mc := by
  induction ids with
  | nil => intro mc; rfl
  | cons T rest ih =>
    intro mc
    simp only [logThreads_bounded, logThreads,
      logEntries_bounded_of_fit T l (hfit T (List.mem_cons_self _ _))]
    cases logEntries T l (mc, []) with
    | none => rfl
    | some y =>
      obtain ⟨mc1, lines⟩ := y
      simp only
      rw [ih (fun T' hT' => hfit T' (List.mem_cons_of_mem _ hT')) mc1]

theorem collectThreadIds_bounded_some (l : List tdstGenProfilerData) :
    ∀ (ids x : List (List Char × Int)), collectThreadIds_bounded l ids = some x →
      collectThreadIds l ids = some x := by
  induction l with
  | nil => intro ids x h; exact h
  | cons e rest ih =>
    intro ids x h
    simp only [collectThreadIds_bounded, threadIdText_bounded] at h
    simp only [collectThreadIds]
    cases ht : threadIdText e.szBunchCodeName with
    | none => rw [ht] at h; simp at h
    | some T =>
      rw [ht] at h
      simp only [Option.some_bind] at h ⊢
      cases hw : writeArray 16 T with
      | none => rw [hw] at h; simp at h
      | some T' =>
        rw [hw] at h
        obtain ⟨_, hT⟩ := writeArray_eq_some.1 hw
        subst hT
        exact ih _ _ h

theorem collectThreadIds_bounded_of_fit (l : List tdstGenProfilerData)
    (hfit : ∀ e ∈ l, ∀ T, threadIdText e.szBunchCodeName = some T → T.length < 16) :
    ∀ ids, collectThreadIds_bounded l ids = collectThreadIds l ids := by
  induction l with
  | nil => intro ids; rfl
  | cons e rest ih =>
    intro ids
    simp only [collectThreadIds_bounded, threadIdText_bounded, collectThreadIds]
    cases ht : threadIdText e.szBunchCodeName with
    | none => rfl
    | some T =>
      simp only [Option.some_bind,
        writeArray_of_lt (hfit e (List.mem_cons_self _ _) T ht)]
      exact ih (fun x hx => hfit x (List.mem_cons_of_mem _ hx)) _

theorem dumpName_length (T : List Char) (m : tdstGenProfilerData) :
    ((dumpName T m).getD []).length ≤ m.szBunchCodeName.length := by
  unfold dumpName
  split_ifs
  · simp
  · simp

theorem dumpLines_bounded_spec (T : List Char) :
    ∀ (mc : List (List Char × tdstGenProfilerData)) (lines : List FlatLine),
      dumpLines_bounded T mc = some lines →
      ∀ line ∈ lines, ∃ p ∈ mc, line.key = p.1 ∧ line.name = dumpName T p.2 ∧
        strstr p.2.szBunchCodeName T = true := by
  intro mc
  induction mc with
  | nil =>
    intro lines h line hline
    simp only [dumpLines_bounded, Option.some.injEq] at h
    subst h
    simp at hline
  | cons q rest ih =>
    obtain ⟨k, m⟩ := q
    intro lines h line hline
    simp only [dumpLines_bounded] at h
    by_cases h1 : strstr m.szBunchCodeName T = true
    · rw [if_pos h1] at h
      split at h
      · cases h
      · cases hrest : dumpLines_bounded T rest with
        | none => rw [hrest] at h; simp at h
        | some lines' =>
          rw [hrest] at h
          simp only [Option.map_some', Option.some.injEq] at h
          subst h
          rcases List.mem_cons.1 hline with hl | hl
          · subst hl
            exact ⟨(k, m), List.mem_cons_self _ _, rfl, rfl, h1⟩
          · obtain ⟨p, hp, hk⟩ := ih lines' hrest line hl
            exact ⟨p, List.mem_cons_of_mem _ hp, hk⟩
    · rw [if_neg h1] at h
      obtain ⟨p, hp, hk⟩ := ih lines h line hline
      exact ⟨p, List.mem_cons_of_mem _ hp, hk⟩

theorem dumpThreads_bounded_spec (mc : List (List Char × tdstGenProfilerData)) :
    ∀ (ids : List (List Char)) (blocks : List FlatBlock),
      dumpThreads_bounded mc ids = some blocks →
      blocks.map (fun b => b.szThreadId) = ids ∧
        ∀ b ∈ blocks, ∀ line ∈ b.lines, ∃ p ∈ mc, line.key = p.1 ∧
          line.name = dumpName b.szThreadId p.2 ∧
          strstr p.2.szBunchCodeName b.szThreadId = true := by
  intro ids
  induction ids with
  | nil =>
    intro blocks h
    simp only [dumpThreads_bounded, Option.some.injEq] at h
    subst h
    exact ⟨rfl, fun b hb => absurd hb (List.not_mem_nil _)⟩
  | cons T rest ih =>
    intro blocks h
    simp only [dumpThreads_bounded] at h
    cases hl : dumpLines_bounded T mc with
    | none => rw [hl] at h; simp at h
    | some lines =>
      rw [hl] at h
      simp only at h
      cases hr : dumpThreads_bounded mc rest with
      | none => rw [hr] at h; simp at h
      | some blocks' =>
        rw [hr] at h
        simp only [Option.map_some', Option.some.injEq] at h
        subst h
        obtain ⟨hheads, hblocks⟩ := ih blocks' hr
        refine ⟨by simp [hheads], ?_⟩
        intro b hb line hline
        rcases List.mem_cons.1 hb with hb | hb
        · subst hb
          exact dumpLines_bounded_spec T mc lines hl line hline
        · exact hblocks b hb line hline

theorem dumpLines_bounded_of_fit (T : List Char) :
    ∀ (mc : List (List Char × tdstGenProfilerData)),
      (∀ p ∈ mc, (dumpColumns p.2).length + p.2.szBunchCodeName.length + 1 < 1024) →
      ∃ lines, dumpLines_bounded T mc = some lines := by
  intro mc
  induction mc with
  | nil => intro _; exact ⟨[], rfl⟩
  | cons q rest ih =>
    obtain ⟨k, m⟩ := q
    intro h
    obtain ⟨lines, hlines⟩ := ih (fun p hp => h p (List.mem_cons_of_mem _ hp))
    have hm := h (k, m) (List.mem_cons_self _ _)
    simp only at hm
    simp only [dumpLines_bounded, hlines, Option.map_some']
    by_cases h1 : strstr m.szBunchCodeName T = true
    · rw [if_pos h1]
      have hlen : (dumpColumns m ++ (dumpName T m).getD [] ++ [newline]).length < 1024 := by
        simp only [List.length_append, List.length_singleton]
        have := dumpName_length T m
        omega
      rw [LOG, writeArray_of_lt hlen]
      exact ⟨_, rfl⟩
    · rw [if_neg h1]
      exact ⟨_, rfl⟩

theorem dumpThreads_bounded_of_fit (mc : List (List Char × tdstGenProfilerData))
    (hfit : ∀ p ∈ mc, (dumpColumns p.2).length + p.2.szBunchCodeName.length + 1 < 1024) :
    ∀ (ids : List (List Char)), ∃ blocks, dumpThreads_bounded mc ids = some blocks := by
  intro ids
  induction ids with
  | nil => exact ⟨[], rfl⟩
  | cons T rest ih =>
    obtain ⟨lines, hl⟩ := dumpLines_bounded_of_fit T mc hfit
    obtain ⟨blocks, hb⟩ := ih
    exact ⟨{ szThreadId := T, lines := lines } :: blocks,
      by simp only [dumpThreads_bounded, hl, hb, Option.map_some']⟩

theorem namedGraph_bounded_some {graph g : List (List Char × tdstGenProfilerData)}
    (h : namedGraph_bounded graph = some g) :
    g = namedGraph graph ∧ ∀ p ∈ graph, p.1.length < 1024 := by
  unfold namedGraph_bounded at h
  split_ifs at h with hfit
  exact ⟨(Option.some.inj h).symm, hfit⟩

/-- A call of `LogProfiler` that overruns no array does what the function without
the arrays does, and each of its `CALLSTACK` lines fits `textLine[1024]`: the 71
characters of the columns and two spaces for each unit of indentation. -/
theorem logProfiler_bounded_some
    {stdSort : (tdstGenProfilerData → tdstGenProfilerData → Bool) →
      List tdstGenProfilerData → List tdstGenProfilerData}
    {unAbove : Bool} {s s' : ProfilerState} {r : PrintedReport}
    (h : LogProfiler_bounded stdSort unAbove s = some (s', r)) :
    ∃ ids mc,
      (∀ p ∈ s.mapProfilerGraph, p.1.length < 1024) ∧
      collectThreadIds (sortedCallStack stdSort unAbove s) [] = some ids ∧
      logThreads (sortedCallStack stdSort unAbove s) (ids.map Prod.fst) []
        = some (mc, r.callstack) ∧
      dumpThreads_bounded mc (ids.map Prod.fst) = some r.dump ∧
      s' = { s with mapProfilerGraph := namedGraph s.mapProfilerGraph } ∧
      (∀ b ∈ r.callstack, ∀ line ∈ b.lines, 71 + 2 * line.indent < 1024) ∧
      LogProfiler stdSort unAbove s
        = some (s', { callstack := r.callstack, dump := dumpThreads mc (ids.map Prod.fst) }) ∧
      leafMap_bounded stdSort unAbove s = some mc ∧
      leafMap stdSort unAbove s = some mc := by
  unfold LogProfiler_bounded at h
  cases hg : namedGraph_bounded s.mapProfilerGraph with
  | none => rw [hg] at h; simp at h
  | some g =>
    rw [hg] at h
    simp only at h
    obtain ⟨hg', hkeys⟩ := namedGraph_bounded_some hg
    subst hg'
    cases hc : collectThreadIds_bounded
        (stdSort (MyDataSortPredicate unAbove) ((namedGraph s.mapProfilerGraph).map Prod.snd))
        [] with
    | none => rw [hc] at h; simp at h
    | some ids =>
      rw [hc] at h
      simp only at h
      cases hl : logThreads_bounded
          (stdSort (MyDataSortPredicate unAbove) ((namedGraph s.mapProfilerGraph).map Prod.snd))
          (ids.map Prod.fst) [] with
      | none => rw [hl] at h; simp at h
      | some y =>
        obtain ⟨mc, callstack⟩ := y
        rw [hl] at h
        simp only at h
        cases hd : dumpThreads_bounded mc (ids.map Prod.fst) with
        | none => rw [hd] at h; simp at h
        | some dump =>
          rw [hd] at h
          simp only [Option.some.injEq, Prod.mk.injEq] at h
          obtain ⟨hs', hr⟩ := h
          subst hs' hr
          have hc' := collectThreadIds_bounded_some _ _ _ hc
          obtain ⟨hl', hq⟩ := logThreads_bounded_some _ _ _ _ hl
          refine ⟨ids, mc, hkeys, hc', hl', hd, rfl, hq, ?_, ?_, ?_⟩
          · unfold LogProfiler sortedCallStack
            simp only [hc']
            simp only [hl']
          · unfold leafMap_bounded
            simp only [hg, hc, hl, Option.map_some']
          · unfold leafMap sortedCallStack
            simp only [hc']
            simp only [hl', Option.map_some']

theorem collectThreadIds_keys (l : List tdstGenProfilerData) :
    ∀ (ids x : List (List Char × Int)), collectThreadIds l ids = some x →
      ∀ T ∈ x.map Prod.fst,
        T ∈ ids.map Prod.fst ∨ ∃ e ∈ l, threadIdText e.szBunchCodeName = some T := by
  induction l with
  | nil =>
    intro ids x h T hT
    simp only [collectThreadIds, Option.some.injEq] at h
    subst h
    exact Or.inl hT
  | cons e rest ih =>
    intro ids x h T hT
    simp only [collectThreadIds] at h
    cases ht : threadIdText e.szBunchCodeName with
    | none => rw [ht] at h; simp at h
    | some T0 =>
      rw [ht] at h
      simp only at h
      rcases ih _ _ h T hT with h1 | ⟨e', he', hT'⟩
      · rcases (countThreadId_mem T0 ids T).1 h1 with h2 | h2
        · subst h2
          exact Or.inr ⟨e, List.mem_cons_self _ _, ht⟩
        · exact Or.inl h2
      · exact Or.inr ⟨e', List.mem_cons_of_mem _ he', hT'⟩

/-- A call of `LogProfiler` overruns no array when every key fits its array,
every thread identifier text fits `szThreadId[16]`, and the columns of every
line leave room in a line of 1024 characters for three times the length of the
key and for the identifier. -/
theorem logProfiler_bounded_of_fit
    {stdSort : (tdstGenProfilerData → tdstGenProfilerData → Bool) →
      List tdstGenProfilerData → List tdstGenProfilerData}
    {unAbove : Bool} {s s' : ProfilerState} {r0 : Report}
    (hold : LogProfiler stdSort unAbove s = some (s', r0))
    (hkeys : ∀ p ∈ s.mapProfilerGraph, p.1.length < 1024)
    (hids : ∀ e ∈ sortedCallStack stdSort unAbove s, ∀ T,
      threadIdText e.szBunchCodeName = some T → T.length < 16)
    (hfit : ∀ e ∈ sortedCallStack stdSort unAbove s,
      (callstackColumns e).length + 3 * e.szBunchCodeName.length + 18 < 1024)
    (hdump : ∀ mc, leafMap stdSort unAbove s = some mc →
      ∀ p ∈ mc, (dumpColumns p.2).length + p.2.szBunchCodeName.length + 1 < 1024) :
    ∃ r, LogProfiler_bounded stdSort unAbove s = some (s', r) ∧
      r.callstack = r0.callstack := by
  unfold LogProfiler at hold
  unfold leafMap at hdump
  unfold sortedCallStack at hold hids hfit hdump
  simp only at hold hdump
  cases hc : collectThreadIds
      (stdSort (MyDataSortPredicate unAbove) ((namedGraph s.mapProfilerGraph).map Prod.snd))
      [] with
  | none => rw [hc] at hold; simp at hold
  | some ids =>
    rw [hc] at hold hdump
    simp only at hold hdump
    cases hl : logThreads
        (stdSort (MyDataSortPredicate unAbove) ((namedGraph s.mapProfilerGraph).map Prod.snd))
        (ids.map Prod.fst) [] with
    | none => rw [hl] at hold; simp at hold
    | some y =>
      obtain ⟨mc, callstack⟩ := y
      rw [hl] at hold hdump
      simp only [Option.some.injEq, Prod.mk.injEq, Option.map_some'] at hold hdump
      obtain ⟨hs', hr0⟩ := hold
      have hidlen : ∀ T ∈ ids.map Prod.fst, T.length < 16 := by
        intro T hT
        rcases collectThreadIds_keys _ _ _ hc T hT with h1 | ⟨e, he, hTe⟩
        · simp at h1
        · exact hids e he T hTe
      have hcb := collectThreadIds_bounded_of_fit _ hids []
      have hlb := logThreads_bounded_of_fit
        (stdSort (MyDataSortPredicate unAbove) ((namedGraph s.mapProfilerGraph).map Prod.snd))
        (ids.map Prod.fst)
        (fun T hT e he => by
          have h1 := hidlen T hT
          have h2 := hfit e he
          omega) []
      obtain ⟨dump, hd⟩ := dumpThreads_bounded_of_fit mc (hdump mc rfl) (ids.map Prod.fst)
      refine ⟨{ callstack := callstack, dump := dump }, ?_, by rw [← hr0]⟩
      unfold LogProfiler_bounded namedGraph_bounded
      rw [if_pos hkeys]
      simp only [hcb, hc, hlb, hl, hd, hs']

/-! ## The scenario of the specification, printed -/

theorem scenario_run :
    ∃ s, runCalls_bounded 0 scenarioCalls initialState = some s ∧
      runCalls 0 scenarioCalls initialState = some s ∧
      s.mapProfilerGraph
        = [("|0@A".toList,
            { totalTime := 15 - 0, averageTime := (15 - 0) / ((1 : Nat) : ℚ), minTime := 15 - 0,
              maxTime := 15 - 0, lastTime := 0, elapsedTime := 15 - 0, nbCalls := 1,
              szBunchCodeName := "|0@A".toList }),
           ("|0@A|B".toList,
            { totalTime := 10 - 0, averageTime := (10 - 0) / ((1 : Nat) : ℚ), minTime := 10 - 0,
              maxTime := 10 - 0, lastTime := 0, elapsedTime := 10 - 0, nbCalls := 1,
              szBunchCodeName := "|0@A|B".toList })] := by
  obtain ⟨s, hrun, hg⟩ := run_from_initial 0 scenarioCalls (by decide)
  refine ⟨s, ?_, hrun, ?_⟩
  · rw [run_bounded_eq 0 scenarioCalls [] initialState (stackOf_initialState 0) (by decide)
      (by decide)]
    exact hrun
  · rw [hg]
    rfl


theorem reachable_ids_fit {s : ProfilerState} (hr : Reachable s)
    (stdSort : (tdstGenProfilerData → tdstGenProfilerData → Bool) →
      List tdstGenProfilerData → List tdstGenProfilerData)
    (unAbove : Bool)
    (hperm : ∀ l, (stdSort (MyDataSortPredicate unAbove) l).Perm l) :
    ∀ e ∈ sortedCallStack stdSort unAbove s, ∀ T,
      threadIdText e.szBunchCodeName = some T → T.length < 16 := by
  intro e he T hT
  have hk := (mem_sortedCallStack stdSort unAbove hperm s e.szBunchCodeName).1 ⟨e, he, rfl⟩
  obtain ⟨p, hp, hpk⟩ := List.mem_map.1 hk
  obtain ⟨t, rest, hrest⟩ := reachable_marked_keys hr p hp
  rw [← hpk, hrest, threadIdText_marker] at hT
  have := decimalInt_toInt32_length t
  rw [← Option.some.inj hT]
  omega

theorem scenario_report :
    ∃ s r, runCalls_bounded 0 scenarioCalls initialState = some s ∧ Reachable s ∧
      LogProfiler_bounded sortKeeps false s = some (s, r) := by
  obtain ⟨s, hrunb, hrun, hgraph⟩ := scenario_run
  have hr : Reachable s := reachable_run 0 scenarioCalls _ _ Reachable.init hrun
  have hperm : ∀ l, (sortKeeps (MyDataSortPredicate false) l).Perm l :=
    fun l => List.Perm.refl l
  obtain ⟨r0, hold, _⟩ := logProfiler_blocks sortKeeps false hperm s (reachable_marked_keys hr)
  rw [reachable_namedGraph hr] at hold
  have hsorted : sortedCallStack sortKeeps false s
      = [{ totalTime := 15 - 0, averageTime := (15 - 0) / ((1 : Nat) : ℚ), minTime := 15 - 0,
           maxTime := 15 - 0, lastTime := 0, elapsedTime := 15 - 0, nbCalls := 1,
           szBunchCodeName := "|0@A".toList },
         { totalTime := 10 - 0, averageTime := (10 - 0) / ((1 : Nat) : ℚ), minTime := 10 - 0,
           maxTime := 10 - 0, lastTime := 0, elapsedTime := 10 - 0, nbCalls := 1,
           szBunchCodeName := "|0@A|B".toList }] := by
    unfold sortedCallStack
    rw [hgraph]
    rfl
  have hmc : leafMap sortKeeps false s
      = some [("0@A".toList,
               { totalTime := 15 - 0, averageTime := (15 - 0) / ((1 : Nat) : ℚ),
                 minTime := 15 - 0, maxTime := 15 - 0, lastTime := 0, elapsedTime := 15 - 0,
                 nbCalls := 1, szBunchCodeName := "0@A".toList }),
              ("B".toList,
               { totalTime := 10 - 0, averageTime := (10 - 0) / ((1 : Nat) : ℚ),
                 minTime := 10 - 0, maxTime := 10 - 0, lastTime := 0, elapsedTime := 10 - 0,
                 nbCalls := 1, szBunchCodeName := "0@B".toList })] := by
    unfold leafMap sortedCallStack
    rw [hgraph]
    rfl
  obtain ⟨r, hlog, _⟩ := logProfiler_bounded_of_fit hold
    (by
      intro p hp
      rw [hgraph] at hp
      simp only [List.mem_cons, List.mem_singleton, List.not_mem_nil, or_false] at hp
      rcases hp with hp | hp <;> subst hp <;> decide)
    (reachable_ids_fit hr sortKeeps false hperm)
    (by
      intro e he
      rw [hsorted] at he
      simp only [List.mem_cons, List.mem_singleton, List.not_mem_nil, or_false] at he
      rcases he with he | he <;> subst he
      · rw [callstackColumns_length_of_small (by norm_num) (by norm_num) (by norm_num)
          (by norm_num) (by norm_num)]
        decide
      · rw [callstackColumns_length_of_small (by norm_num) (by norm_num) (by norm_num)
          (by norm_num) (by norm_num)]
        decide)
    (by
      intro mc hmc' p hp
      rw [hmc] at hmc'
      rw [← Option.some.inj hmc'] at hp
      simp only [List.mem_cons, List.mem_singleton, List.not_mem_nil, or_false] at hp
      rcases hp with hp | hp <;> subst hp
      · rw [dumpColumns_length_of_small (by norm_num) (by norm_num) (by norm_num)
          (by norm_num) (by norm_num)]
        decide
      · rw [dumpColumns_length_of_small (by norm_num) (by norm_num) (by norm_num)
          (by norm_num) (by norm_num)]
        decide)
  exact ⟨s, r, hrunb, hr, hlog⟩

set_option maxRecDepth 100000 in
theorem deepCalls_wellNested : WellNested deepCalls := by
  decide

set_option maxRecDepth 100000 in
theorem deepCalls_closed :
    closedFrom [] deepCalls
      = [{ chain := List.replicate 480 ['a'], startTime := 0, endTime := 1 },
         { chain := List.replicate 479 ['a'], startTime := 0, endTime := 2 }] := by
  rfl


theorem deepCalls_names : ∀ name now, Call.start name now ∈ deepCalls → name = ['a'] := by
  intro name now h
  unfold deepCalls at h
  rcases List.mem_append.1 h with h | h
  · have := List.eq_of_mem_replicate h
    simp only [Call.start.injEq] at this
    exact this.1
  · simp at h

theorem deepCalls_no_bar : ∀ name now, Call.start name now ∈ deepCalls → '|' ∉ name := by
  intro name now h
  rw [deepCalls_names name now h]
  decide

theorem deep_run :
    ∃ s, runCalls_bounded 0 deepCalls initialState = some s ∧
      runCalls 0 deepCalls initialState = some s ∧ Reachable s := by
  obtain ⟨s, hrun, _⟩ := run_from_initial 0 deepCalls deepCalls_wellNested
  refine ⟨s, ?_, hrun, reachable_run 0 deepCalls _ _ Reachable.init hrun⟩
  rw [run_bounded_eq 0 deepCalls [] initialState (stackOf_initialState 0)
    deepCalls_wellNested]
  · exact hrun
  · have hm : (pathKey 0 (([] : List (List Char × ℚ)).map Prod.fst)).length = 3 := by decide
    have hsum : (deepCalls.map Call.growth).sum = 960 := by
      unfold deepCalls
      rw [List.map_append, List.sum_append, List.map_replicate, List.sum_replicate]
      rfl
    rw [hm, hsum]
    decide

theorem deepCalls_mem_closed :
    ({ chain := List.replicate 480 ['a'], startTime := 0, endTime := 1 } : ClosedFrame)
      ∈ closedFrom [] deepCalls := by
  rw [deepCalls_closed]
  exact List.mem_cons_self _ _

set_option maxRecDepth 100000 in
/-- After the deep nesting `LogProfiler` overruns `textLine[1024]`: the line of
the innermost region needs the 71 characters of the columns and 479 times two
spaces. -/
theorem deep_report_undefined
    (stdSort : (tdstGenProfilerData → tdstGenProfilerData → Bool) →
      List tdstGenProfilerData → List tdstGenProfilerData)
    (unAbove : Bool)
    (hperm : ∀ l, (stdSort (MyDataSortPredicate unAbove) l).Perm l)
    (s : ProfilerState) (hrun : runCalls 0 deepCalls initialState = some s) :
    LogProfiler_bounded stdSort unAbove s = none ∧
    leafMap_bounded stdSort unAbove s = none := by
  obtain ⟨s1, s1', r1, hrun1, hlog1, hline, hindent⟩ :=
    indentation_is_depth 0 deepCalls deepCalls_wellNested deepCalls_no_bar stdSort unAbove hperm
  rw [hrun] at hrun1
  cases Option.some.inj hrun1
  have hc := deepCalls_mem_closed
  obtain ⟨b, hb, line, hl, hkey⟩ := hline _ hc
  have hind : line.indent = (List.replicate 480 ['a']).length - 1 :=
    (hindent b hb line hl).2 _ hc hkey
  rw [List.length_replicate] at hind
  have hno : ∀ (ids : List (List Char × Int)) mc callstack,
      collectThreadIds (sortedCallStack stdSort unAbove s) [] = some ids →
      logThreads_bounded (sortedCallStack stdSort unAbove s) (ids.map Prod.fst) []
        ≠ some (mc, callstack) := by
    intro ids mc callstack hids hlb
    obtain ⟨hlt, hq⟩ := logThreads_bounded_some _ _ _ _ hlb
    unfold LogProfiler at hlog1
    simp only [hids, hlt, Option.some.injEq, Prod.mk.injEq] at hlog1
    obtain ⟨_, hr1⟩ := hlog1
    rw [← hr1] at hb
    have := hq b hb line hl
    omega
  constructor
  · cases h : LogProfiler_bounded stdSort unAbove s with
    | none => rfl
    | some x =>
      exfalso
      obtain ⟨s', r⟩ := x
      obtain ⟨ids, mc, _, hcids, _, _, _, hq, hold, _⟩ := logProfiler_bounded_some h
      rw [hold] at hlog1
      simp only [Option.some.injEq, Prod.mk.injEq] at hlog1
      obtain ⟨_, hr1⟩ := hlog1
      rw [← hr1] at hb
      have := hq b hb line hl
      omega
  · cases h : leafMap_bounded stdSort unAbove s with
    | none => rfl
    | some mc =>
      exfalso
      unfold leafMap_bounded at h
      cases hg : namedGraph_bounded s.mapProfilerGraph with
      | none => rw [hg] at h; simp at h
      | some g =>
        rw [hg] at h
        simp only at h
        obtain ⟨hg', _⟩ := namedGraph_bounded_some hg
        subst hg'
        cases hcb : collectThreadIds_bounded
            (stdSort (MyDataSortPredicate unAbove)
              ((namedGraph s.mapProfilerGraph).map Prod.snd)) [] with
        | none => rw [hcb] at h; simp at h
        | some ids =>
          rw [hcb] at h
          simp only [Option.map_eq_some'] at h
          obtain ⟨y, hy, _⟩ := h
          obtain ⟨mc', cs⟩ := y
          exact hno ids mc' cs (collectThreadIds_bounded_some _ _ _ hcb) hy

theorem scenarioCalls_no_bar :
    ∀ name now, Call.start name now ∈ scenarioCalls → '|' ∉ name := by
  intro name now h
  simp only [scenarioCalls, List.mem_cons, Call.start.injEq, List.mem_singleton, reduceCtorEq,
    false_or, or_false, List.not_mem_nil] at h
  rcases h with ⟨h, _⟩ | ⟨h, _⟩ <;> subst h <;> decide

theorem callstack_of_bounded {t : Nat} {calls : List Call}
    {stdSort : (tdstGenProfilerData → tdstGenProfilerData → Bool) →
      List tdstGenProfilerData → List tdstGenProfilerData}
    {unAbove : Bool} {s s' : ProfilerState} {r : PrintedReport}
    (hrun : runCalls_bounded t calls initialState = some s)
    (hlog : LogProfiler_bounded stdSort unAbove s = some (s', r))
    (P : List ThreadBlock → Prop)
    (h : ∃ s1 s1' r1, runCalls t calls initialState = some s1 ∧
      LogProfiler stdSort unAbove s1 = some (s1', r1) ∧ P r1.callstack) :
    P r.callstack := by
  obtain ⟨s1, s1', r1, hrun1, hlog1, hP⟩ := h
  rw [runCalls_bounded_some t calls _ _ hrun] at hrun1
  cases Option.some.inj hrun1
  obtain ⟨ids, mc, _, _, _, _, _, _, hold, _⟩ := logProfiler_bounded_some hlog
  rw [hold] at hlog1
  simp only [Option.some.injEq, Prod.mk.injEq] at hlog1
  obtain ⟨_, hr1⟩ := hlog1
  rw [← hr1] at hP
  exact hP

theorem logProfiler_congr_sort
    {stdSort stdSort' : (tdstGenProfilerData → tdstGenProfilerData → Bool) →
      List tdstGenProfilerData → List tdstGenProfilerData}
    {unAbove unAbove' : Bool} {s : ProfilerState}
    (h : sortedCallStack stdSort unAbove s = sortedCallStack stdSort' unAbove' s) :
    LogProfiler stdSort unAbove s = LogProfiler stdSort' unAbove' s := by
  unfold LogProfiler
  simp only [h]

/-- C20, as stated, fails from a nesting depth of 477 on.  After 480 regions `a`
started inside one another on thread 0, of which the two innermost have been
ended, every key fits its array, but the line of the innermost region needs the
71 characters of the columns and 479 times two spaces, 1029 characters: the
`strcat` loop overruns `textLine[1024]`, and what `LogProfiler` prints is
undefined. -/
theorem C20_counterexample :
    WellNested deepCalls ∧
    (∀ name now, Call.start name now ∈ deepCalls → '|' ∉ name) ∧
    ({ chain := List.replicate 480 ['a'], startTime := 0, endTime := 1 } : ClosedFrame)
      ∈ closedFrom [] deepCalls ∧
    71 + 2 * ((List.replicate 480 ['a']).length - 1) = 1029 ∧
    ∃ s, runCalls_bounded 0 deepCalls initialState = some s ∧
      LogProfiler_bounded sortKeeps false s = none := by
  obtain ⟨s, hrunb, hrun, _⟩ := deep_run
  exact ⟨deepCalls_wellNested, deepCalls_no_bar, deepCalls_mem_closed,
    by rw [List.length_replicate], s, hrunb,
    (deep_report_undefined sortKeeps false (fun l => List.Perm.refl l) s hrun).1⟩

/-- C20 (amended): after a well-nested call sequence of one thread with region
names free of `|`, whenever `LogProfiler` overruns none of its arrays, the
hierarchical report has a line for every closed region, and every line is
indented by as many two-space units as there are `|` in its path key after the
first character, which is the number of ancestors of the region (the length of
its chain of names minus one; none for a top-level region); that number is at
most 476, since the columns and the indentation fit `textLine[1024]`. -/
theorem C20_indentation_is_depth (t : Nat) (calls : List Call) (hwn : WellNested calls)
    (hsep : ∀ name now, Call.start name now ∈ calls → '|' ∉ name)
    (stdSort : (tdstGenProfilerData → tdstGenProfilerData → Bool) →
      List tdstGenProfilerData → List tdstGenProfilerData)
    (unAbove : Bool)
    (hperm : ∀ l, (stdSort (MyDataSortPredicate unAbove) l).Perm l)
    (s s' : ProfilerState) (r : PrintedReport)
    (hrun : runCalls_bounded t calls initialState = some s)
    (hlog : LogProfiler_bounded stdSort unAbove s = some (s', r)) :
    (∀ c ∈ closedFrom [] calls, ∃ b ∈ r.callstack, ∃ line ∈ b.lines,
      line.key = pathKey t c.chain) ∧
    (∀ b ∈ r.callstack, ∀ line ∈ b.lines,
      line.indent = (line.key.drop 1).count '|' ∧ line.indent ≤ 476 ∧
      ∀ c ∈ closedFrom [] calls, line.key = pathKey t c.chain →
        line.indent = c.chain.length - 1) := by
  have h := callstack_of_bounded hrun hlog
    (fun cs => (∀ c ∈ closedFrom [] calls, ∃ b ∈ cs, ∃ line ∈ b.lines,
        line.key = pathKey t c.chain) ∧
      (∀ b ∈ cs, ∀ line ∈ b.lines,
        line.indent = (line.key.drop 1).count '|' ∧
        ∀ c ∈ closedFrom [] calls, line.key = pathKey t c.chain →
          line.indent = c.chain.length - 1))
    (indentation_is_depth t calls hwn hsep stdSort unAbove hperm)
  obtain ⟨_, _, _, _, _, _, _, hq, _⟩ := logProfiler_bounded_some hlog
  refine ⟨h.1, fun b hb line hline => ⟨(h.2 b hb line hline).1, ?_, (h.2 b hb line hline).2⟩⟩
  have := hq b hb line hline
  omega

/-- C20 (amended) at the scenario of the specification (`B` inside `A` on thread
0) with a `std::sort` that moves nothing. -/
theorem C20_indentation_is_depth_witness :
    WellNested scenarioCalls ∧
    (∀ name now, Call.start name now ∈ scenarioCalls → '|' ∉ name) ∧
    (∀ l, (sortKeeps (MyDataSortPredicate false) l).Perm l) ∧
    ∃ s r, runCalls_bounded 0 scenarioCalls initialState = some s ∧
      LogProfiler_bounded sortKeeps false s = some (s, r) ∧
      (∀ c ∈ closedFrom [] scenarioCalls, ∃ b ∈ r.callstack, ∃ line ∈ b.lines,
        line.key = pathKey 0 c.chain) ∧
      (∀ b ∈ r.callstack, ∀ line ∈ b.lines,
        line.indent = (line.key.drop 1).count '|' ∧ line.indent ≤ 476 ∧
        ∀ c ∈ closedFrom [] scenarioCalls, line.key = pathKey 0 c.chain →
          line.indent = c.chain.length - 1) := by
  obtain ⟨s, r, hrun, _, hlog⟩ := scenario_report
  exact ⟨by decide, scenarioCalls_no_bar, fun l => List.Perm.refl l, s, r, hrun, hlog,
    C20_indentation_is_depth 0 scenarioCalls (by decide) scenarioCalls_no_bar sortKeeps false
      (fun l => List.Perm.refl l) s s r hrun hlog⟩

theorem callstack_of_kept {t : Nat} {calls : List Call}
    {stdSort : (tdstGenProfilerData → tdstGenProfilerData → Bool) →
      List tdstGenProfilerData → List tdstGenProfilerData}
    {unAbove : Bool} {s s' : ProfilerState} {r : PrintedReport}
    (hrun : runCalls_bounded t calls initialState = some s)
    (hsort : sortedCallStack stdSort unAbove s = (namedGraph s.mapProfilerGraph).map Prod.snd)
    (hlog : LogProfiler_bounded stdSort unAbove s = some (s', r))
    (P : List ThreadBlock → Prop)
    (h : ∃ s1 s1' r1, runCalls t calls initialState = some s1 ∧
      LogProfiler sortKeeps false s1 = some (s1', r1) ∧ P r1.callstack) :
    P r.callstack := by
  obtain ⟨s1, s1', r1, hrun1, hlog1, hP⟩ := h
  rw [runCalls_bounded_some t calls _ _ hrun] at hrun1
  cases Option.some.inj hrun1
  obtain ⟨ids, mc, _, _, _, _, _, _, hold, _⟩ := logProfiler_bounded_some hlog
  have hcongr : LogProfiler stdSort unAbove s = LogProfiler sortKeeps false s :=
    logProfiler_congr_sort (by rw [hsort]; rfl)
  rw [hcongr, hlog1] at hold
  simp only [Option.some.injEq, Prod.mk.injEq] at hold
  obtain ⟨_, hr1⟩ := hold
  rw [hr1] at hP
  exact hP

/-- C16, as stated, fails in two ways.  Inside `M` the region `b` is recorded
before the region `a`, and the hierarchical report lists `a` before `b`.  And
after 480 regions `a` started inside one another on thread 0, of which the two
innermost have been ended, `LogProfiler` overruns `textLine[1024]` although
`std::sort` moves nothing: what it prints is undefined. -/
theorem C16_counterexample :
    WellNested siblingCalls ∧
    closedKeys 0 siblingCalls = ["|0@M|b".toList, "|0@M|a".toList, "|0@M".toList] ∧
    (reportAfter sortKeeps false 0 siblingCalls).map callstackView
      = some [("0".toList, [("|0@M".toList, 0, "M".toList), ("|0@M|a".toList, 1, "a".toList),
                            ("|0@M|b".toList, 1, "b".toList)])] ∧
    WellNested deepCalls ∧
    ∃ s, runCalls_bounded 0 deepCalls initialState = some s ∧
      sortedCallStack sortKeeps false s = (namedGraph s.mapProfilerGraph).map Prod.snd ∧
      LogProfiler_bounded sortKeeps false s = none := by
  obtain ⟨s, hrunb, hrun, _⟩ := deep_run
  exact ⟨by decide, by decide, by rfl, deepCalls_wellNested, s, hrunb, rfl,
    (deep_report_undefined sortKeeps false (fun l => List.Perm.refl l) s hrun).1⟩

/-- C16 (amended): when the call of `std::sort` leaves the vector in the ascending
key order in which it was copied from the map and `LogProfiler` overruns none of
its arrays, two regions with the same parent path appear in the hierarchical
report of a well-nested call sequence of one thread in the ascending order of
their names (compared character by character), whatever the order in which they
were recorded. -/
theorem C16_siblings_in_name_order (t : Nat) (calls : List Call) (hwn : WellNested calls)
    (stdSort : (tdstGenProfilerData → tdstGenProfilerData → Bool) →
      List tdstGenProfilerData → List tdstGenProfilerData)
    (unAbove : Bool) (s s' : ProfilerState) (r : PrintedReport)
    (hrun : runCalls_bounded t calls initialState = some s)
    (hsort : sortedCallStack stdSort unAbove s = (namedGraph s.mapProfilerGraph).map Prod.snd)
    (hlog : LogProfiler_bounded stdSort unAbove s = some (s', r)) :
    ∀ b ∈ r.callstack, ∀ first ∈ b.lines, ∀ second ∈ b.lines,
      ∀ (parentKey name1 name2 : List Char),
      first.key = parentKey ++ NAME_SEPARATOR ++ name1 →
      second.key = parentKey ++ NAME_SEPARATOR ++ name2 →
      name1 < name2 →
      ∃ pre mid post, b.lines = pre ++ first :: (mid ++ second :: post) :=
  callstack_of_kept hrun hsort hlog
    (fun cs => ∀ b ∈ cs, ∀ first ∈ b.lines, ∀ second ∈ b.lines,
      ∀ (parentKey name1 name2 : List Char),
      first.key = parentKey ++ NAME_SEPARATOR ++ name1 →
      second.key = parentKey ++ NAME_SEPARATOR ++ name2 →
      name1 < name2 →
      ∃ pre mid post, b.lines = pre ++ first :: (mid ++ second :: post))
    (siblings_in_name_order t calls hwn sortKeeps false (fun _ => rfl))

theorem sibling_report :
    ∃ s r, runCalls_bounded 0 siblingCalls initialState = some s ∧ Reachable s ∧
      LogProfiler_bounded sortKeeps false s = some (s, r) := by
  obtain ⟨s, hrun, hg⟩ := run_from_initial 0 siblingCalls (by decide)
  have hrunb : runCalls_bounded 0 siblingCalls initialState = some s := by
    rw [run_bounded_eq 0 siblingCalls [] initialState (stackOf_initialState 0) (by decide)
      (by decide)]
    exact hrun
  have hgraph : s.mapProfilerGraph
      = [("|0@M".toList,
          { totalTime := 5 - 0, averageTime := (5 - 0) / ((1 : Nat) : ℚ), minTime := 5 - 0,
            maxTime := 5 - 0, lastTime := 0, elapsedTime := 5 - 0, nbCalls := 1,
            szBunchCodeName := "|0@M".toList }),
         ("|0@M|a".toList,
          { totalTime := 4 - 3, averageTime := (4 - 3) / ((1 : Nat) : ℚ), minTime := 4 - 3,
            maxTime := 4 - 3, lastTime := 3, elapsedTime := 4 - 3, nbCalls := 1,
            szBunchCodeName := "|0@M|a".toList }),
         ("|0@M|b".toList,
          { totalTime := 2 - 1, averageTime := (2 - 1) / ((1 : Nat) : ℚ), minTime := 2 - 1,
            maxTime := 2 - 1, lastTime := 1, elapsedTime := 2 - 1, nbCalls := 1,
            szBunchCodeName := "|0@M|b".toList })] := by
    rw [hg]
    rfl
  have hr : Reachable s := reachable_run 0 siblingCalls _ _ Reachable.init hrun
  have hperm : ∀ l, (sortKeeps (MyDataSortPredicate false) l).Perm l :=
    fun l => List.Perm.refl l
  obtain ⟨r0, hold, _⟩ := logProfiler_blocks sortKeeps false hperm s (reachable_marked_keys hr)
  rw [reachable_namedGraph hr] at hold
  have hsorted : sortedCallStack sortKeeps false s
      = [{ totalTime := 5 - 0, averageTime := (5 - 0) / ((1 : Nat) : ℚ), minTime := 5 - 0,
           maxTime := 5 - 0, lastTime := 0, elapsedTime := 5 - 0, nbCalls := 1,
           szBunchCodeName := "|0@M".toList },
         { totalTime := 4 - 3, averageTime := (4 - 3) / ((1 : Nat) : ℚ), minTime := 4 - 3,
           maxTime := 4 - 3, lastTime := 3, elapsedTime := 4 - 3, nbCalls := 1,
           szBunchCodeName := "|0@M|a".toList },
         { totalTime := 2 - 1, averageTime := (2 - 1) / ((1 : Nat) : ℚ), minTime := 2 - 1,
           maxTime := 2 - 1, lastTime := 1, elapsedTime := 2 - 1, nbCalls := 1,
           szBunchCodeName := "|0@M|b".toList }] := by
    unfold sortedCallStack
    rw [hgraph]
    rfl
  have hmc : leafMap sortKeeps false s
      = some [("0@M".toList,
               { totalTime := 5 - 0, averageTime := (5 - 0) / ((1 : Nat) : ℚ),
                 minTime := 5 - 0, maxTime := 5 - 0, lastTime := 0, elapsedTime := 5 - 0,
                 nbCalls := 1, szBunchCodeName := "0@M".toList }),
              ("a".toList,
               { totalTime := 4 - 3, averageTime := (4 - 3) / ((1 : Nat) : ℚ),
                 minTime := 4 - 3, maxTime := 4 - 3, lastTime := 3, elapsedTime := 4 - 3,
                 nbCalls := 1, szBunchCodeName := "0@a".toList }),
              ("b".toList,
               { totalTime := 2 - 1, averageTime := (2 - 1) / ((1 : Nat) : ℚ),
                 minTime := 2 - 1, maxTime := 2 - 1, lastTime := 1, elapsedTime := 2 - 1,
                 nbCalls := 1, szBunchCodeName := "0@b".toList })] := by
    unfold leafMap sortedCallStack
    rw [hgraph]
    rfl
  obtain ⟨r, hlog, _⟩ := logProfiler_bounded_of_fit hold
    (by
      intro p hp
      rw [hgraph] at hp
      simp only [List.mem_cons, List.mem_singleton, List.not_mem_nil, or_false] at hp
      rcases hp with hp | hp | hp <;> subst hp <;> decide)
    (reachable_ids_fit hr sortKeeps false hperm)
    (by
      intro e he
      rw [hsorted] at he
      simp only [List.mem_cons, List.mem_singleton, List.not_mem_nil, or_false] at he
      rcases he with he | he | he <;> subst he
      · rw [callstackColumns_length_of_small (by norm_num) (by norm_num) (by norm_num)
          (by norm_num) (by norm_num)]
        decide
      · rw [callstackColumns_length_of_small (by norm_num) (by norm_num) (by norm_num)
          (by norm_num) (by norm_num)]
        decide
      · rw [callstackColumns_length_of_small (by norm_num) (by norm_num) (by norm_num)
          (by norm_num) (by norm_num)]
        decide)
    (by
      intro mc hmc' p hp
      rw [hmc] at hmc'
      rw [← Option.some.inj hmc'] at hp
      simp only [List.mem_cons, List.mem_singleton, List.not_mem_nil, or_false] at hp
      rcases hp with hp | hp | hp <;> subst hp
      · rw [dumpColumns_length_of_small (by norm_num) (by norm_num) (by norm_num)
          (by norm_num) (by norm_num)]
        decide
      · rw [dumpColumns_length_of_small (by norm_num) (by norm_num) (by norm_num)
          (by norm_num) (by norm_num)]
        decide
      · rw [dumpColumns_length_of_small (by norm_num) (by norm_num) (by norm_num)
          (by norm_num) (by norm_num)]
        decide)
  exact ⟨s, r, hrunb, hr, hlog⟩

/-- C16 (amended) at the siblings `b`, `a` of `M` with a `std::sort` that moves
nothing. -/
theorem C16_siblings_in_name_order_witness :
    WellNested siblingCalls ∧ "a".toList < "b".toList ∧
    ∃ s r, runCalls_bounded 0 siblingCalls initialState = some s ∧
      sortedCallStack sortKeeps false s = (namedGraph s.mapProfilerGraph).map Prod.snd ∧
      LogProfiler_bounded sortKeeps false s = some (s, r) ∧
      ∀ b ∈ r.callstack, ∀ first ∈ b.lines, ∀ second ∈ b.lines,
        ∀ (parentKey name1 name2 : List Char),
        first.key = parentKey ++ NAME_SEPARATOR ++ name1 →
        second.key = parentKey ++ NAME_SEPARATOR ++ name2 →
        name1 < name2 →
        ∃ pre mid post, b.lines = pre ++ first :: (mid ++ second :: post) := by
  obtain ⟨s, r, hrun, _, hlog⟩ := sibling_report
  exact ⟨by decide, by decide, s, r, hrun, rfl, hlog,
    C16_siblings_in_name_order 0 siblingCalls (by decide) sortKeeps false s s r hrun rfl hlog⟩

/-! ## The graph after the deep nesting -/

theorem pathKey_length_le (t : Nat) (chain : List (List Char)) :
    (pathKey t chain).length
      ≤ (threadMarker t).length + (chain.map (fun name => name.length + 1)).sum := by
  induction chain using List.reverseRecOn with
  | nil => simp [pathKey_nil]
  | append_singleton ch name ih =>
    have := pathKey_concat_length t ch name
    simp only [List.map_append, List.map_cons, List.map_nil, List.sum_append, List.sum_cons,
      List.sum_nil]
    omega

theorem deepCalls_keys (s : ProfilerState) (hrun : runCalls 0 deepCalls initialState = some s) :
    ∀ k, k ∈ s.mapProfilerGraph.map Prod.fst ↔
      k = pathKey 0 (List.replicate 480 ['a']) ∨ k = pathKey 0 (List.replicate 479 ['a']) := by
  intro k
  rw [run_keys deepCalls_wellNested hrun k]
  unfold closedKeys
  rw [deepCalls_closed]
  simp only [List.map_cons, List.map_nil, List.mem_cons, List.mem_singleton]
  constructor
  · rintro (h | h | h)
    · exact Or.inl h
    · exact Or.inr h
    · exact absurd h (List.not_mem_nil _)
  · rintro (h | h)
    · exact Or.inl h
    · exact Or.inr (Or.inl h)

theorem deep_graph (s : ProfilerState) (hrun : runCalls 0 deepCalls initialState = some s) :
    entriesEndingIn ['a'] s.mapProfilerGraph ≠ [] ∧
    (∀ p ∈ s.mapProfilerGraph, afterLast '|' p.1 = some ['a'] ∧ 478 ≤ (p.1.drop 1).count '|') ∧
    (∀ p ∈ s.mapProfilerGraph, p.1.length < 1024) ∧
    (∀ p ∈ s.mapProfilerGraph, ∃ rest, p.1 = threadMarker 0 ++ rest) := by
  have hkeys := deepCalls_keys s hrun
  have hm := threadMarker_length 0
  have hnobar : ∀ n, ∀ x ∈ List.replicate n ['a'], '|' ∉ x := by
    intro n x hx
    rw [List.eq_of_mem_replicate hx]
    decide
  have hlast : ∀ n, 1 ≤ n → afterLast '|' (pathKey 0 (List.replicate (n + 1) ['a']))
      = some ['a'] := by
    intro n hn
    rw [List.replicate_succ']
    exact afterLast_pathKey_nested 0 _ (by
      intro h
      have := congrArg List.length h
      rw [List.length_replicate, List.length_nil] at this
      omega) ['a'] (by decide)
  have hlen : ∀ n, n ≤ 480 → (pathKey 0 (List.replicate n ['a'])).length < 1024 := by
    intro n hn
    have := pathKey_length_le 0 (List.replicate n ['a'])
    simp only [List.map_replicate, List.sum_replicate, List.length_singleton, smul_eq_mul]
      at this
    omega
  have hcount : ∀ n, 1 ≤ n → ((pathKey 0 (List.replicate n ['a'])).drop 1).count '|' = n - 1 := by
    intro n hn
    rw [count_bar_pathKey 0 _ (by
      intro h
      have := congrArg List.length h
      rw [List.length_replicate, List.length_nil] at this
      omega) (hnobar n), List.length_replicate]
  have hall : ∀ p ∈ s.mapProfilerGraph,
      p.1 = pathKey 0 (List.replicate 480 ['a']) ∨ p.1 = pathKey 0 (List.replicate 479 ['a']) :=
    fun p hp => (hkeys p.1).1 (List.mem_map.2 ⟨p, hp, rfl⟩)
  refine ⟨?_, ?_, ?_, ?_⟩
  · obtain ⟨p, hp, hk⟩ := List.mem_map.1 ((hkeys _).2 (Or.inl rfl))
    intro hnil
    have hmem : p.2 ∈ entriesEndingIn ['a'] s.mapProfilerGraph := by
      unfold entriesEndingIn
      refine List.mem_map.2 ⟨p, List.mem_filter.2 ⟨hp, ?_⟩, rfl⟩
      rw [decide_eq_true_eq, hk]
      exact hlast 479 (by norm_num)
    rw [hnil] at hmem
    exact List.not_mem_nil _ hmem
  · intro p hp
    rcases hall p hp with h | h <;> rw [h]
    · exact ⟨hlast 479 (by norm_num), by rw [hcount 480 (by norm_num)]; norm_num⟩
    · exact ⟨hlast 478 (by norm_num), by rw [hcount 479 (by norm_num)]⟩
  · intro p hp
    rcases hall p hp with h | h <;> rw [h]
    · exact hlen 480 (by norm_num)
    · exact hlen 479 (by norm_num)
  · intro p hp
    rcases hall p hp with h | h <;> rw [h] <;> exact ⟨_, rfl⟩

/-! ## Blocks and names of a report printed without overrun -/

theorem logThreads_heads (l : List tdstGenProfilerData) :
    ∀ (ids : List (List Char)) (mc mc' : List (List Char × tdstGenProfilerData))
      (blocks : List ThreadBlock),
      logThreads l ids mc = some (mc', blocks) →
      blocks.map (fun b => b.szThreadId) = ids := by
  intro ids
  induction ids with
  | nil =>
    intro mc mc' blocks h
    simp only [logThreads, Option.some.injEq, Prod.mk.injEq] at h
    rw [← h.2]
    rfl
  | cons T rest ih =>
    intro mc mc' blocks h
    simp only [logThreads] at h
    cases h1 : logEntries T l (mc, []) with
    | none => rw [h1] at h; simp at h
    | some y =>
      obtain ⟨mc1, lines⟩ := y
      rw [h1] at h
      simp only at h
      cases h2 : logThreads l rest mc1 with
      | none => rw [h2] at h; simp at h
      | some z =>
        obtain ⟨mc2, blocks'⟩ := z
        rw [h2] at h
        simp only [Option.some.injEq, Prod.mk.injEq] at h
        rw [← h.2, List.map_cons, ih mc1 mc2 blocks' h2]

/-- Every entry of `mapCalls` is stored under the last name segment of a graph
key, and its name is that segment or contains `@`. -/
theorem leafMap_invariant
    (stdSort : (tdstGenProfilerData → tdstGenProfilerData → Bool) →
      List tdstGenProfilerData → List tdstGenProfilerData)
    (unAbove : Bool)
    (hperm : ∀ l, (stdSort (MyDataSortPredicate unAbove) l).Perm l)
    (s : ProfilerState)
    (hmark : ∀ p ∈ s.mapProfilerGraph, ∃ t rest, p.1 = threadMarker t ++ rest)
    (mapCalls : List (List Char × tdstGenProfilerData))
    (hmap : leafMap stdSort unAbove s = some mapCalls) :
    ∀ p ∈ mapCalls,
      (∃ q ∈ s.mapProfilerGraph, afterLast '|' q.1 = some p.1) ∧
      (p.2.szBunchCodeName = p.1 ∨ '@' ∈ p.2.szBunchCodeName) := by
  have hkeys := mem_sortedCallStack stdSort unAbove hperm s
  have hmarkl : ∀ e ∈ sortedCallStack stdSort unAbove s, ∃ t, MarkedBy t e := by
    intro e he
    obtain ⟨p, hp, hk⟩ := List.mem_map.1 ((hkeys _).1 ⟨e, he, rfl⟩)
    obtain ⟨t, rest, hrest⟩ := hmark p hp
    exact ⟨t, rest, by rw [← hk, hrest]⟩
  have hbar : ∀ e ∈ sortedCallStack stdSort unAbove s, '|' ∈ e.szBunchCodeName :=
    fun e he => bar_mem_of_marked (hmarkl e he)
  obtain ⟨ids, hc, _, _⟩ := collectThreadIds_spec _ hmarkl [] (by simp)
  have hleafkey : ∀ e ∈ sortedCallStack stdSort unAbove s, ∀ leaf,
      afterLast '|' e.szBunchCodeName = some leaf →
      ∃ p ∈ s.mapProfilerGraph, afterLast '|' p.1 = some leaf := by
    intro e he leaf hleaf
    obtain ⟨p, hp, hk⟩ := List.mem_map.1 ((hkeys _).1 ⟨e, he, rfl⟩)
    exact ⟨p, hp, by rw [hk]; exact hleaf⟩
  obtain ⟨mc, blocks, hlog, hP, _, _⟩ :=
    logThreads_spec (sortedCallStack stdSort unAbove s) hbar (ids.map Prod.fst)
      (fun mc => ∀ p ∈ mc,
        (∃ q ∈ s.mapProfilerGraph, afterLast '|' q.1 = some p.1) ∧
        (p.2.szBunchCodeName = p.1 ∨ '@' ∈ p.2.szBunchCodeName))
      (by
        intro T _ mc e leaf he hleaf hPmc p hp
        rcases mem_mergeIntoCalls hp with h | ⟨hk, h | ⟨m, hm, hname⟩⟩
        · exact hPmc p h
        · refine ⟨by rw [hk]; exact hleafkey e he leaf hleaf, ?_⟩
          rw [h, hk]
          split_ifs
          · exact Or.inl rfl
          · exact Or.inr (by simp [THREADID_NAME_SEPARATOR])
        · refine ⟨by rw [hk]; exact hleafkey e he leaf hleaf, ?_⟩
          have := (hPmc _ (mapFind_mem hm)).2
          rw [hname, hk]
          exact this)
      (ids.map Prod.fst) (fun T hT => hT) []
      (fun p hp => absurd hp (List.not_mem_nil _))
  unfold leafMap at hmap
  simp only [hc, hlog, Option.map_some', Option.some.injEq] at hmap
  rw [← hmap]
  exact hP

theorem leafMap_bounded_some
    {stdSort : (tdstGenProfilerData → tdstGenProfilerData → Bool) →
      List tdstGenProfilerData → List tdstGenProfilerData}
    {unAbove : Bool} {s : ProfilerState} {mc : List (List Char × tdstGenProfilerData)}
    (h : leafMap_bounded stdSort unAbove s = some mc) :
    leafMap stdSort unAbove s = some mc := by
  unfold leafMap_bounded at h
  cases hg : namedGraph_bounded s.mapProfilerGraph with
  | none => rw [hg] at h; simp at h
  | some g =>
    rw [hg] at h
    simp only at h
    obtain ⟨hg', _⟩ := namedGraph_bounded_some hg
    subst hg'
    cases hc : collectThreadIds_bounded
        (stdSort (MyDataSortPredicate unAbove) ((namedGraph s.mapProfilerGraph).map Prod.snd))
        [] with
    | none => rw [hc] at h; simp at h
    | some ids =>
      rw [hc] at h
      simp only at h
      cases hl : logThreads_bounded
          (stdSort (MyDataSortPredicate unAbove) ((namedGraph s.mapProfilerGraph).map Prod.snd))
          (ids.map Prod.fst) [] with
      | none => rw [hl] at h; simp at h
      | some y =>
        rw [hl] at h
        simp only [Option.map_some', Option.some.injEq] at h
        have hc' := collectThreadIds_bounded_some _ _ _ hc
        obtain ⟨hl', _⟩ := logThreads_bounded_some _ _ _ _ hl
        unfold leafMap sortedCallStack
        simp only [hc']
        simp only [hl', Option.map_some', h]

theorem logProfiler_bounded_report_congr
    (stdSort : (tdstGenProfilerData → tdstGenProfilerData → Bool) →
      List tdstGenProfilerData → List tdstGenProfilerData)
    (unAbove : Bool) {s1 s2 : ProfilerState}
    (h : s1.mapProfilerGraph = s2.mapProfilerGraph) :
    (LogProfiler_bounded stdSort unAbove s1).map Prod.snd
      = (LogProfiler_bounded stdSort unAbove s2).map Prod.snd := by
  unfold LogProfiler_bounded
  simp only [h]
  cases namedGraph_bounded s2.mapProfilerGraph with
  | none => rfl
  | some g =>
    simp only
    cases collectThreadIds_bounded
        (stdSort (MyDataSortPredicate unAbove) (g.map Prod.snd)) [] with
    | none => rfl
    | some ids =>
      simp only
      cases logThreads_bounded
          (stdSort (MyDataSortPredicate unAbove) (g.map Prod.snd)) (ids.map Prod.fst) [] with
      | none => rfl
      | some res =>
        obtain ⟨mc, callstack⟩ := res
        simp only
        cases dumpThreads_bounded mc (ids.map Prod.fst) with
        | none => rfl
        | some dump => rfl

theorem logProfiler_bounded_empty
    (stdSort : (tdstGenProfilerData → tdstGenProfilerData → Bool) →
      List tdstGenProfilerData → List tdstGenProfilerData)
    (unAbove : Bool)
    (hperm : ∀ l, (stdSort (MyDataSortPredicate unAbove) l).Perm l)
    (s : ProfilerState) (hnil : s.mapProfilerGraph = []) :
    LogProfiler_bounded stdSort unAbove s = some (s, { callstack := [], dump := [] }) := by
  have hs : stdSort (MyDataSortPredicate unAbove) [] = [] := (hperm []).eq_nil
  obtain ⟨g, c, o⟩ := s
  simp only at hnil
  subst hnil
  unfold LogProfiler_bounded namedGraph_bounded
  simp only [List.not_mem_nil, false_implies, implies_true, if_true, namedGraph, List.map_nil, hs,
    collectThreadIds_bounded, logThreads_bounded, dumpThreads_bounded]

theorem dumpLines_bounded_view (T : List Char) :
    ∀ (mc : List (List Char × tdstGenProfilerData)) (lines : List FlatLine),
      dumpLines_bounded T mc = some lines →
      lines.map (fun l => (l.key, l.name))
        = (mc.filter (fun p => strstr p.2.szBunchCodeName T)).map
            (fun p => (p.1, dumpName T p.2)) := by
  intro mc
  induction mc with
  | nil =>
    intro lines h
    simp only [dumpLines_bounded, Option.some.injEq] at h
    subst h
    rfl
  | cons q rest ih =>
    obtain ⟨k, m⟩ := q
    intro lines h
    simp only [dumpLines_bounded] at h
    by_cases h1 : strstr m.szBunchCodeName T = true
    · rw [if_pos h1] at h
      rw [List.filter_cons_of_pos (by simpa using h1)]
      split at h
      · cases h
      · cases hrest : dumpLines_bounded T rest with
        | none => rw [hrest] at h; simp at h
        | some lines' =>
          rw [hrest] at h
          simp only [Option.map_some', Option.some.injEq] at h
          subst h
          simp only [List.map_cons, ih lines' hrest]
    · rw [if_neg h1] at h
      rw [List.filter_cons_of_neg (by simpa using h1)]
      exact ih lines h

theorem dumpThreads_bounded_view (mc : List (List Char × tdstGenProfilerData)) :
    ∀ (ids : List (List Char)) (blocks : List FlatBlock),
      dumpThreads_bounded mc ids = some blocks →
      blocks.map (fun b => (b.szThreadId, b.lines.map (fun l => (l.key, l.name))))
        = ids.map (fun T => (T, (mc.filter (fun p => strstr p.2.szBunchCodeName T)).map
            (fun p => (p.1, dumpName T p.2)))) := by
  intro ids
  induction ids with
  | nil =>
    intro blocks h
    simp only [dumpThreads_bounded, Option.some.injEq] at h
    subst h
    rfl
  | cons T rest ih =>
    intro blocks h
    simp only [dumpThreads_bounded] at h
    cases hl : dumpLines_bounded T mc with
    | none => rw [hl] at h; simp at h
    | some lines =>
      rw [hl] at h
      simp only at h
      cases hr : dumpThreads_bounded mc rest with
      | none => rw [hr] at h; simp at h
      | some blocks' =>
        rw [hr] at h
        simp only [Option.map_some', Option.some.injEq] at h
        subst h
        simp only [List.map_cons, ih blocks' hr, dumpLines_bounded_view T mc lines hl]

/-- What a call of `LogProfiler` that overruns no array prints in a reachable
state: the state is left as found; the `CALLSTACK` part has one block for each
thread identifier text that marks a key, the `DUMP` part has the same headings,
and its lines are printed from `mapCalls`, whose entries are stored under last
name segments of graph keys. -/
theorem bounded_report_facts (s : ProfilerState) (hr : Reachable s)
    (stdSort : (tdstGenProfilerData → tdstGenProfilerData → Bool) →
      List tdstGenProfilerData → List tdstGenProfilerData)
    (unAbove : Bool)
    (hperm : ∀ l, (stdSort (MyDataSortPredicate unAbove) l).Perm l)
    (s' : ProfilerState) (r : PrintedReport)
    (hlog : LogProfiler_bounded stdSort unAbove s = some (s', r)) :
    s' = s ∧
    (r.callstack.map (fun b => b.szThreadId)).Nodup ∧
    (∀ T, T ∈ r.callstack.map (fun b => b.szThreadId) ↔
      ∃ p ∈ s.mapProfilerGraph, ∃ t rest,
        p.1 = threadMarker t ++ rest ∧ T = decimalInt (toInt32 t)) ∧
    (∀ b ∈ r.callstack, ∀ line ∈ b.lines, line.key ∈ s.mapProfilerGraph.map Prod.fst) ∧
    r.dump.map (fun b => b.szThreadId) = r.callstack.map (fun b => b.szThreadId) ∧
    (∀ b ∈ r.dump, ∀ line ∈ b.lines,
      ∃ p ∈ s.mapProfilerGraph, afterLast '|' p.1 = some line.key) ∧
    ((∀ p ∈ s.mapProfilerGraph, ∀ T ∈ r.callstack.map (fun b => b.szThreadId),
        afterLast '|' p.1 ≠ some T) →
      ∀ b ∈ r.dump, ∀ line ∈ b.lines, line.name.isSome = true) ∧
    ∃ mapCalls, leafMap_bounded stdSort unAbove s = some mapCalls ∧
      dumpThreads_bounded mapCalls (r.callstack.map (fun b => b.szThreadId)) = some r.dump := by
  obtain ⟨ids, mc, _, _, hl, hd, hs', _, hold, hmcb, hmc⟩ := logProfiler_bounded_some hlog
  obtain ⟨r0, hlog0, hnd, hmem, _, hlines, _, _, _, _⟩ :=
    one_block_per_thread s hr stdSort unAbove hperm
  have hss : s' = s := by rw [hs', reachable_namedGraph hr]
  rw [hold, hss] at hlog0
  simp only [Option.some.injEq, Prod.mk.injEq, true_and] at hlog0
  have hcs : r0.callstack = r.callstack := by rw [← hlog0]
  rw [hcs] at hnd hmem hlines
  have hheads := logThreads_heads _ _ _ _ _ hl
  have hinv := leafMap_invariant stdSort unAbove hperm s (reachable_marked_keys hr) mc hmc
  obtain ⟨hdh, hdl⟩ := dumpThreads_bounded_spec mc _ _ hd
  refine ⟨hss, hnd, hmem, hlines, by rw [hdh, hheads], ?_, ?_, mc, hmcb, by rw [hheads]; exact hd⟩
  · intro b hb line hline
    obtain ⟨p, hp, hk, _, _⟩ := hdl b hb line hline
    rw [hk]
    exact (hinv p hp).1
  · intro hcond b hb line hline
    obtain ⟨p, hp, _, hname, hstr⟩ := hdl b hb line hline
    have hT : b.szThreadId ∈ r.callstack.map (fun b => b.szThreadId) := by
      rw [hheads, ← hdh]
      exact List.mem_map.2 ⟨b, hb, rfl⟩
    have hlen : b.szThreadId.length + 1 ≤ p.2.szBunchCodeName.length := by
      apply strstr_length hstr
      intro heq
      obtain ⟨⟨q, hq, hleaf⟩, hn⟩ := hinv p hp
      rcases hn with hn | hn
      · apply hcond q hq _ hT
        rw [hleaf, ← hn, heq]
      · obtain ⟨_, _, t, _, _, ht⟩ := (hmem _).1 hT
        rw [heq, ht] at hn
        exact at_not_mem_decimalInt _ hn
    rw [hname]
    unfold dumpName
    rw [if_pos hlen]
    rfl

theorem identifier_report :
    ∃ s r, runCalls_bounded 0 identifierNameCalls initialState = some s ∧ Reachable s ∧
      LogProfiler_bounded sortKeeps false s = some (s, r) ∧
      r.dump.map (fun b => (b.szThreadId, b.lines.map (fun l => (l.key, l.name))))
        = [("0".toList, [("0".toList, none), ("0@A".toList, some "A".toList)])] := by
  obtain ⟨s, hrun, hg⟩ := run_from_initial 0 identifierNameCalls (by decide)
  have hrunb : runCalls_bounded 0 identifierNameCalls initialState = some s := by
    rw [run_bounded_eq 0 identifierNameCalls [] initialState (stackOf_initialState 0)
      (by decide) (by decide)]
    exact hrun
  have hgraph : s.mapProfilerGraph
      = [("|0@A".toList,
          { totalTime := 4 - 0, averageTime := (4 - 0) / ((1 : Nat) : ℚ), minTime := 4 - 0,
            maxTime := 4 - 0, lastTime := 0, elapsedTime := 4 - 0, nbCalls := 1,
            szBunchCodeName := "|0@A".toList }),
         ("|0@A|0".toList,
          { totalTime := 2 - 1, averageTime := (2 - 1) / ((1 : Nat) : ℚ), minTime := 2 - 1,
            maxTime := 2 - 1, lastTime := 1, elapsedTime := 2 - 1, nbCalls := 1,
            szBunchCodeName := "|0@A|0".toList })] := by
    rw [hg]
    rfl
  have hr : Reachable s := reachable_run 0 identifierNameCalls _ _ Reachable.init hrun
  have hperm : ∀ l, (sortKeeps (MyDataSortPredicate false) l).Perm l :=
    fun l => List.Perm.refl l
  obtain ⟨r0, hold, _⟩ := logProfiler_blocks sortKeeps false hperm s (reachable_marked_keys hr)
  rw [reachable_namedGraph hr] at hold
  have hsorted : sortedCallStack sortKeeps false s
      = [{ totalTime := 4 - 0, averageTime := (4 - 0) / ((1 : Nat) : ℚ), minTime := 4 - 0,
           maxTime := 4 - 0, lastTime := 0, elapsedTime := 4 - 0, nbCalls := 1,
           szBunchCodeName := "|0@A".toList },
         { totalTime := 2 - 1, averageTime := (2 - 1) / ((1 : Nat) : ℚ), minTime := 2 - 1,
           maxTime := 2 - 1, lastTime := 1, elapsedTime := 2 - 1, nbCalls := 1,
           szBunchCodeName := "|0@A|0".toList }] := by
    unfold sortedCallStack
    rw [hgraph]
    rfl
  have hmc : leafMap sortKeeps false s
      = some [("0".toList,
               { totalTime := 2 - 1, averageTime := (2 - 1) / ((1 : Nat) : ℚ),
                 minTime := 2 - 1, maxTime := 2 - 1, lastTime := 1, elapsedTime := 2 - 1,
                 nbCalls := 1, szBunchCodeName := "0".toList }),
              ("0@A".toList,
               { totalTime := 4 - 0, averageTime := (4 - 0) / ((1 : Nat) : ℚ),
                 minTime := 4 - 0, maxTime := 4 - 0, lastTime := 0, elapsedTime := 4 - 0,
                 nbCalls := 1, szBunchCodeName := "0@A".toList })] := by
    unfold leafMap sortedCallStack
    rw [hgraph]
    rfl
  obtain ⟨r, hlog, _⟩ := logProfiler_bounded_of_fit hold
    (by
      intro p hp
      rw [hgraph] at hp
      simp only [List.mem_cons, List.mem_singleton, List.not_mem_nil, or_false] at hp
      rcases hp with hp | hp <;> subst hp <;> decide)
    (reachable_ids_fit hr sortKeeps false hperm)
    (by
      intro e he
      rw [hsorted] at he
      simp only [List.mem_cons, List.mem_singleton, List.not_mem_nil, or_false] at he
      rcases he with he | he <;> subst he
      · rw [callstackColumns_length_of_small (by norm_num) (by norm_num) (by norm_num)
          (by norm_num) (by norm_num)]
        decide
      · rw [callstackColumns_length_of_small (by norm_num) (by norm_num) (by norm_num)
          (by norm_num) (by norm_num)]
        decide)
    (by
      intro mc hmc' p hp
      rw [hmc] at hmc'
      rw [← Option.some.inj hmc'] at hp
      simp only [List.mem_cons, List.mem_singleton, List.not_mem_nil, or_false] at hp
      rcases hp with hp | hp <;> subst hp
      · rw [dumpColumns_length_of_small (by norm_num) (by norm_num) (by norm_num)
          (by norm_num) (by norm_num)]
        decide
      · rw [dumpColumns_length_of_small (by norm_num) (by norm_num) (by norm_num)
          (by norm_num) (by norm_num)]
        decide)
  refine ⟨s, r, hrunb, hr, hlog, ?_⟩
  obtain ⟨ids, mc, _, hc, _, hd, _, _, _, _, hmc'⟩ := logProfiler_bounded_some hlog
  rw [hmc] at hmc'
  have hids : collectThreadIds (sortedCallStack sortKeeps false s) [] = some [("0".toList, 2)] := by
    rw [hsorted]
    rfl
  rw [hids] at hc
  rw [← Option.some.inj hc, ← Option.some.inj hmc'] at hd
  rw [dumpThreads_bounded_view _ _ _ hd]
  decide


/-- C21, as stated, fails when a line of the report does not fit its array.  After
480 regions `a` started inside one another on thread 0, of which the two
innermost have been ended, the state is reachable and the marker of thread 0
starts a graph key, but `LogProfiler` overruns `textLine[1024]`: what it prints,
and whether it prints a block for thread 0 at all, is undefined. -/
theorem C21_counterexample :
    ∃ s, runCalls_bounded 0 deepCalls initialState = some s ∧ Reachable s ∧
      (∃ p ∈ s.mapProfilerGraph, ∃ rest, p.1 = threadMarker 0 ++ rest) ∧
      LogProfiler_bounded sortKeeps false s = none := by
  obtain ⟨s, hrunb, hrun, hr⟩ := deep_run
  obtain ⟨hne, _, _, hmark⟩ := deep_graph s hrun
  refine ⟨s, hrunb, hr, ?_,
    (deep_report_undefined sortKeeps false (fun l => List.Perm.refl l) s hrun).1⟩
  cases hg : s.mapProfilerGraph with
  | nil =>
    exfalso
    apply hne
    unfold entriesEndingIn
    rw [hg]
    rfl
  | cons p rest =>
    exact ⟨p, List.mem_cons_self _ _, hmark p (by rw [hg]; exact List.mem_cons_self _ _)⟩

/-- C21 (amended): in every state reachable by `Zprofiler_start` and
`Zprofiler_end` calls, whenever `LogProfiler` (with a `std::sort` that permutes
the vector) overruns none of its arrays, it leaves the state as it found it and
prints exactly one `CALLSTACK` block and one `DUMP` block per distinct thread
identifier text that occurs as the thread marker of a graph key: the headings of
the `CALLSTACK` part are pairwise distinct, a text heads a block if and only if
some key starts with the marker of a thread with that text, and the `DUMP` part
has the same headings in the same order.  A thread whose marker starts no key
has no block in either part, every `CALLSTACK` line is the line of a graph
entry, every `DUMP` line is the line of a last name segment of a graph key, and
a call of `Zprofiler_start` alone does not change the report.  With an empty
graph `LogProfiler` returns and both parts have no block. -/
theorem C21_one_block_per_thread (s : ProfilerState) (hr : Reachable s)
    (stdSort : (tdstGenProfilerData → tdstGenProfilerData → Bool) →
      List tdstGenProfilerData → List tdstGenProfilerData)
    (unAbove : Bool)
    (hperm : ∀ l, (stdSort (MyDataSortPredicate unAbove) l).Perm l) :
    (∀ s' r, LogProfiler_bounded stdSort unAbove s = some (s', r) →
      s' = s ∧
      (r.callstack.map (fun b => b.szThreadId)).Nodup ∧
      (∀ T, T ∈ r.callstack.map (fun b => b.szThreadId) ↔
        ∃ p ∈ s.mapProfilerGraph, ∃ t rest,
          p.1 = threadMarker t ++ rest ∧ T = decimalInt (toInt32 t)) ∧
      r.dump.map (fun b => b.szThreadId) = r.callstack.map (fun b => b.szThreadId) ∧
      (∀ t, (∀ p ∈ s.mapProfilerGraph, ∀ rest, p.1 ≠ threadMarker t ++ rest) →
        decimalInt (toInt32 t) ∉ r.callstack.map (fun b => b.szThreadId) ∧
        decimalInt (toInt32 t) ∉ r.dump.map (fun b => b.szThreadId)) ∧
      (∀ b ∈ r.callstack, ∀ line ∈ b.lines, line.key ∈ s.mapProfilerGraph.map Prod.fst) ∧
      (∀ b ∈ r.dump, ∀ line ∈ b.lines,
        ∃ p ∈ s.mapProfilerGraph, afterLast '|' p.1 = some line.key) ∧
      (∀ name now t s1, Zprofiler_start_bounded name now t s = some s1 →
        (LogProfiler_bounded stdSort unAbove s1).map Prod.snd = some r)) ∧
    (s.mapProfilerGraph = [] →
      LogProfiler_bounded stdSort unAbove s = some (s, { callstack := [], dump := [] })) := by
  refine ⟨?_, logProfiler_bounded_empty stdSort unAbove hperm s⟩
  intro s' r hlog
  obtain ⟨hss, hnd, hmem, hlines, hdh, hdl, _, _⟩ :=
    bounded_report_facts s hr stdSort unAbove hperm s' r hlog
  have hno : ∀ t, (∀ p ∈ s.mapProfilerGraph, ∀ rest, p.1 ≠ threadMarker t ++ rest) →
      decimalInt (toInt32 t) ∉ r.callstack.map (fun b => b.szThreadId) := by
    intro t hnone hin
    obtain ⟨p, hp, t', rest, hrest, hT⟩ := (hmem _).1 hin
    have hmk : threadMarker t' = threadMarker t := by
      unfold threadMarker
      rw [decimalInt_injective hT]
    exact hnone p hp rest (by rw [hrest, hmk])
  refine ⟨hss, hnd, hmem, hdh, ?_, hlines, hdl, ?_⟩
  · intro t hnone
    exact ⟨hno t hnone, by rw [hdh]; exact hno t hnone⟩
  · intro name now t s1 hs1
    rw [(start_bounded_some hs1).1,
      logProfiler_bounded_report_congr stdSort unAbove (start_graph name now t s), hlog]
    rfl

/-- C21 (amended) at the scenario of the specification (`B` inside `A` on thread
0) with a `std::sort` that moves nothing. -/
theorem C21_one_block_per_thread_witness :
    ∃ s r, Reachable s ∧ LogProfiler_bounded sortKeeps false s = some (s, r) ∧
      (r.callstack.map (fun b => b.szThreadId)).Nodup ∧
      r.dump.map (fun b => b.szThreadId) = r.callstack.map (fun b => b.szThreadId) := by
  obtain ⟨s, r, _, hr, hlog⟩ := scenario_report
  have h := (C21_one_block_per_thread s hr sortKeeps false (fun l => List.Perm.refl l)).1
    s r hlog
  exact ⟨s, r, hr, hlog, h.2.1, h.2.2.2.1⟩

/-- C25, as stated, fails when a line of the report does not fit its array.  After
480 regions `a` started inside one another on thread 0, of which the two
innermost have been ended, the graph holds keys of thread 0 only, the leaf name
`a` contains neither `|` nor `@` nor the text `0`, entries ending in `a` exist
and all of them are nested, but `LogProfiler` overruns `textLine[1024]` while it
builds `mapCalls`: what the map holds is undefined. -/
theorem C25_counterexample :
    '|' ∉ ['a'] ∧ '@' ∉ ['a'] ∧ strstr ['a'] (decimalInt (toInt32 0)) = false ∧
    ∃ s, runCalls_bounded 0 deepCalls initialState = some s ∧ Reachable s ∧
      (∀ p ∈ s.mapProfilerGraph, ∃ rest, p.1 = threadMarker 0 ++ rest) ∧
      entriesEndingIn ['a'] s.mapProfilerGraph ≠ [] ∧
      (∀ p ∈ s.mapProfilerGraph, afterLast '|' p.1 = some ['a'] ∧
        478 ≤ (p.1.drop 1).count '|') ∧
      leafMap_bounded sortKeeps false s = none := by
  obtain ⟨s, hrunb, hrun, hr⟩ := deep_run
  obtain ⟨hne, hnested, _, hmark⟩ := deep_graph s hrun
  exact ⟨by decide, by decide, by decide, s, hrunb, hr, hmark, hne, hnested,
    (deep_report_undefined sortKeeps false (fun l => List.Perm.refl l) s hrun).2⟩

/-- C25 (amended): in a reachable state whose graph holds keys of one thread `t`
only, for every name `leaf` that is the last name segment of at least one path
key, whenever `LogProfiler` (with a `std::sort` that permutes the vector) builds
`mapCalls` without overrunning an array, `mapCalls` holds exactly one entry
under the key `leaf`; its `totalTime` and `nbCalls` are the sums, its `minTime`
the least and its `maxTime` the greatest over the graph entries whose key ends
in the segment `leaf`, and its `averageTime` is its `totalTime` divided by its
`nbCalls`.  When `leaf` does not contain the decimal text of the thread
identifier the entry carries the name `<identifier>@leaf`, and the `DUMP` part
of a call that overruns no array is printed from this map. -/
theorem C25_leaf_entry_aggregates (t : Nat) (s : ProfilerState) (hr : Reachable s)
    (hthread : ∀ p ∈ s.mapProfilerGraph, ∃ rest, p.1 = threadMarker t ++ rest)
    (stdSort : (tdstGenProfilerData → tdstGenProfilerData → Bool) →
      List tdstGenProfilerData → List tdstGenProfilerData)
    (unAbove : Bool)
    (hperm : ∀ l, (stdSort (MyDataSortPredicate unAbove) l).Perm l)
    (leaf : List Char) (hleaf : entriesEndingIn leaf s.mapProfilerGraph ≠ [])
    (mapCalls : List (List Char × tdstGenProfilerData))
    (hmap : leafMap_bounded stdSort unAbove s = some mapCalls) :
    ∃ d, mapFind leaf mapCalls = some d ∧
      (∀ p ∈ mapCalls, p.1 = leaf → p = (leaf, d)) ∧
      d.totalTime = ((entriesEndingIn leaf s.mapProfilerGraph).map (fun e => e.totalTime)).sum ∧
      d.nbCalls = ((entriesEndingIn leaf s.mapProfilerGraph).map (fun e => e.nbCalls)).sum ∧
      (d.minTime ∈ (entriesEndingIn leaf s.mapProfilerGraph).map (fun e => e.minTime) ∧
        ∀ e ∈ entriesEndingIn leaf s.mapProfilerGraph, d.minTime ≤ e.minTime) ∧
      (d.maxTime ∈ (entriesEndingIn leaf s.mapProfilerGraph).map (fun e => e.maxTime) ∧
        ∀ e ∈ entriesEndingIn leaf s.mapProfilerGraph, e.maxTime ≤ d.maxTime) ∧
      d.averageTime = d.totalTime / (d.nbCalls : ℚ) ∧
      (strstr leaf (decimalInt (toInt32 t)) = false →
        d.szBunchCodeName = decimalInt (toInt32 t) ++ THREADID_NAME_SEPARATOR ++ leaf) ∧
      (∀ s' r, LogProfiler_bounded stdSort unAbove s = some (s', r) →
        dumpThreads_bounded mapCalls (r.callstack.map (fun b => b.szThreadId))
          = some r.dump) := by
  obtain ⟨mc, d, hmc, _, hfind, huniq, htot, hnb, hmin, hmax, havg, hname⟩ :=
    leaf_entry_aggregates t s hr hthread stdSort unAbove hperm leaf hleaf
  rw [leafMap_bounded_some hmap] at hmc
  cases Option.some.inj hmc
  refine ⟨d, hfind, huniq, htot, hnb, hmin, hmax, havg, hname, ?_⟩
  intro s' r hlog
  obtain ⟨_, _, _, _, _, _, _, mc', hmc', hd⟩ :=
    bounded_report_facts s hr stdSort unAbove hperm s' r hlog
  rw [hmap] at hmc'
  cases Option.some.inj hmc'
  exact hd


/-- C27, as stated, fails in two ways.  After 480 regions `a` started inside one
another on thread 0, of which the two innermost have been ended, the state is
reachable and every path key fits the 1024-character name array, but
`LogProfiler` overruns `textLine[1024]`: what it does is undefined.  After the
region `0` nested in `A` on thread 0, `LogProfiler` overruns no array, but the
`DUMP` line of the entry stored under `0` prints the characters found two places
after the start of the one-character name: the text is not determined by the
program, so it need not be the same in two calls. -/
theorem C27_counterexample :
    (∃ s, runCalls_bounded 0 deepCalls initialState = some s ∧ Reachable s ∧
      (∀ p ∈ s.mapProfilerGraph, p.1.length < 1024) ∧
      LogProfiler_bounded sortKeeps false s = none) ∧
    (∃ s r, runCalls_bounded 0 identifierNameCalls initialState = some s ∧ Reachable s ∧
      LogProfiler_bounded sortKeeps false s = some (s, r) ∧
      r.dump.map (fun b => (b.szThreadId, b.lines.map (fun l => (l.key, l.name))))
        = [("0".toList, [("0".toList, none), ("0@A".toList, some "A".toList)])]) := by
  obtain ⟨s, hrunb, hrun, hr⟩ := deep_run
  obtain ⟨_, _, hfit, _⟩ := deep_graph s hrun
  exact ⟨⟨s, hrunb, hr, hfit,
    (deep_report_undefined sortKeeps false (fun l => List.Perm.refl l) s hrun).1⟩,
    identifier_report⟩

/-- C27 (amended): in every state reachable by `Zprofiler_start` and
`Zprofiler_end` calls, whenever `LogProfiler` (with a `std::sort` that permutes
the vector) overruns none of its arrays, it leaves the state as it found it:
every key and every entry of `mapProfilerGraph`, with all its statistics, and
every call stack are unchanged.  Called a second time right afterwards it
overruns no array either, leaves the same state again and prints the same
report (`mapCalls` is a local of each call), apart from the `DUMP` names that
are read from after the end of a stored name, whose text the program does not
determine; there is no such name when no key ends in a segment that is the bare
identifier text of a heading. -/
theorem C27_report_is_read_only (s : ProfilerState) (hr : Reachable s)
    (stdSort : (tdstGenProfilerData → tdstGenProfilerData → Bool) →
      List tdstGenProfilerData → List tdstGenProfilerData)
    (unAbove : Bool)
    (hperm : ∀ l, (stdSort (MyDataSortPredicate unAbove) l).Perm l)
    (s' : ProfilerState) (r : PrintedReport)
    (hlog : LogProfiler_bounded stdSort unAbove s = some (s', r)) :
    s' = s ∧
    logTwice_bounded stdSort unAbove s = some (s, r, r) ∧
    ((∀ p ∈ s.mapProfilerGraph, ∀ T ∈ r.callstack.map (fun b => b.szThreadId),
        afterLast '|' p.1 ≠ some T) →
      ∀ b ∈ r.dump, ∀ line ∈ b.lines, line.name.isSome = true) := by
  obtain ⟨hss, _, _, _, _, _, hnames, _⟩ :=
    bounded_report_facts s hr stdSort unAbove hperm s' r hlog
  subst hss
  refine ⟨rfl, ?_, hnames⟩
  unfold logTwice_bounded
  rw [hlog]
  simp only [Option.some_bind, hlog, Option.map_some']

/-- C27 (amended) at the scenario of the specification with a `std::sort` that
moves nothing. -/
theorem C27_report_is_read_only_witness :
    ∃ s r, Reachable s ∧ LogProfiler_bounded sortKeeps false s = some (s, r) ∧
      logTwice_bounded sortKeeps false s = some (s, r, r) := by
  obtain ⟨s, r, _, hr, hlog⟩ := scenario_report
  exact ⟨s, r, hr, hlog,
    (C27_report_is_read_only s hr sortKeeps false (fun l => List.Perm.refl l) s r hlog).2.1⟩

/-! ## The order left by `std::sort` -/

theorem leafMap_bounded_of_fit
    {stdSort : (tdstGenProfilerData → tdstGenProfilerData → Bool) →
      List tdstGenProfilerData → List tdstGenProfilerData}
    {unAbove : Bool} {s : ProfilerState}
    (hkeys : ∀ p ∈ s.mapProfilerGraph, p.1.length < 1024)
    (hids : ∀ e ∈ sortedCallStack stdSort unAbove s, ∀ T,
      threadIdText e.szBunchCodeName = some T → T.length < 16)
    (hfit : ∀ e ∈ sortedCallStack stdSort unAbove s,
      (callstackColumns e).length + 3 * e.szBunchCodeName.length + 18 < 1024) :
    leafMap_bounded stdSort unAbove s = leafMap stdSort unAbove s := by
  unfold leafMap_bounded namedGraph_bounded leafMap
  unfold sortedCallStack at hids hfit ⊢
  rw [if_pos hkeys]
  simp only [collectThreadIds_bounded_of_fit _ hids []]
  cases hc : collectThreadIds
      (stdSort (MyDataSortPredicate unAbove) ((namedGraph s.mapProfilerGraph).map Prod.snd))
      [] with
  | none => rfl
  | some ids =>
    simp only
    have hidlen : ∀ T ∈ ids.map Prod.fst, T.length < 16 := by
      intro T hT
      rcases collectThreadIds_keys _ _ _ hc T hT with h1 | ⟨e, he, hTe⟩
      · simp at h1
      · exact hids e he T hTe
    rw [logThreads_bounded_of_fit
      (stdSort (MyDataSortPredicate unAbove) ((namedGraph s.mapProfilerGraph).map Prod.snd))
      (ids.map Prod.fst)
      (fun T hT e he => by
        have h1 := hidlen T hT
        have h2 := hfit e he
        omega) []]

/-- C25 (amended) for the region `C` reached through `M`, `A` and through `M`,
`B` on thread 0, with a `std::sort` that moves nothing: the two entries that end
in `C` are merged into one entry of `mapCalls`. -/
theorem C25_leaf_entry_aggregates_witness :
    ∃ s mapCalls d, runCalls_bounded 0 sharedLeafCalls initialState = some s ∧
      (entriesEndingIn "C".toList s.mapProfilerGraph).length = 2 ∧
      leafMap_bounded sortKeeps false s = some mapCalls ∧
      mapFind "C".toList mapCalls = some d ∧
      d.totalTime
        = ((entriesEndingIn "C".toList s.mapProfilerGraph).map (fun e => e.totalTime)).sum ∧
      d.nbCalls
        = ((entriesEndingIn "C".toList s.mapProfilerGraph).map (fun e => e.nbCalls)).sum := by
  obtain ⟨s, hrun, hg⟩ := run_from_initial 0 sharedLeafCalls (by decide)
  have hrunb : runCalls_bounded 0 sharedLeafCalls initialState = some s := by
    rw [run_bounded_eq 0 sharedLeafCalls [] initialState (stackOf_initialState 0) (by decide)
      (by decide)]
    exact hrun
  have hgraph : s.mapProfilerGraph
      = [("|0@M".toList,
          { totalTime := 12 - 0, averageTime := (12 - 0) / ((1 : Nat) : ℚ), minTime := 12 - 0,
            maxTime := 12 - 0, lastTime := 0, elapsedTime := 12 - 0, nbCalls := 1,
            szBunchCodeName := "|0@M".toList }),
         ("|0@M|A".toList,
          { totalTime := 6 - 1, averageTime := (6 - 1) / ((1 : Nat) : ℚ), minTime := 6 - 1,
            maxTime := 6 - 1, lastTime := 1, elapsedTime := 6 - 1, nbCalls := 1,
            szBunchCodeName := "|0@M|A".toList }),
         ("|0@M|A|C".toList,
          { totalTime := 5 - 2, averageTime := (5 - 2) / ((1 : Nat) : ℚ), minTime := 5 - 2,
            maxTime := 5 - 2, lastTime := 2, elapsedTime := 5 - 2, nbCalls := 1,
            szBunchCodeName := "|0@M|A|C".toList }),
         ("|0@M|B".toList,
          { totalTime := 10 - 7, averageTime := (10 - 7) / ((1 : Nat) : ℚ), minTime := 10 - 7,
            maxTime := 10 - 7, lastTime := 7, elapsedTime := 10 - 7, nbCalls := 1,
            szBunchCodeName := "|0@M|B".toList }),
         ("|0@M|B|C".toList,
          { totalTime := 9 - 8, averageTime := (9 - 8) / ((1 : Nat) : ℚ), minTime := 9 - 8,
            maxTime := 9 - 8, lastTime := 8, elapsedTime := 9 - 8, nbCalls := 1,
            szBunchCodeName := "|0@M|B|C".toList })] := by
    rw [hg]
    rfl
  have hr : Reachable s := reachable_run 0 sharedLeafCalls _ _ Reachable.init hrun
  have hperm : ∀ l, (sortKeeps (MyDataSortPredicate false) l).Perm l :=
    fun l => List.Perm.refl l
  have hsorted : sortedCallStack sortKeeps false s
      = [{ totalTime := 12 - 0, averageTime := (12 - 0) / ((1 : Nat) : ℚ), minTime := 12 - 0,
           maxTime := 12 - 0, lastTime := 0, elapsedTime := 12 - 0, nbCalls := 1,
           szBunchCodeName := "|0@M".toList },
         { totalTime := 6 - 1, averageTime := (6 - 1) / ((1 : Nat) : ℚ), minTime := 6 - 1,
           maxTime := 6 - 1, lastTime := 1, elapsedTime := 6 - 1, nbCalls := 1,
           szBunchCodeName := "|0@M|A".toList },
         { totalTime := 5 - 2, averageTime := (5 - 2) / ((1 : Nat) : ℚ), minTime := 5 - 2,
           maxTime := 5 - 2, lastTime := 2, elapsedTime := 5 - 2, nbCalls := 1,
           szBunchCodeName := "|0@M|A|C".toList },
         { totalTime := 10 - 7, averageTime := (10 - 7) / ((1 : Nat) : ℚ), minTime := 10 - 7,
           maxTime := 10 - 7, lastTime := 7, elapsedTime := 10 - 7, nbCalls := 1,
           szBunchCodeName := "|0@M|B".toList },
         { totalTime := 9 - 8, averageTime := (9 - 8) / ((1 : Nat) : ℚ), minTime := 9 - 8,
           maxTime := 9 - 8, lastTime := 8, elapsedTime := 9 - 8, nbCalls := 1,
           szBunchCodeName := "|0@M|B|C".toList }] := by
    unfold sortedCallStack
    rw [hgraph]
    rfl
  have hthread : ∀ p ∈ s.mapProfilerGraph, ∃ rest, p.1 = threadMarker 0 ++ rest := by
    intro p hp
    rw [hgraph] at hp
    simp only [List.mem_cons, List.mem_singleton, List.not_mem_nil, or_false] at hp
    rcases hp with hp | hp | hp | hp | hp <;> subst hp
    · exact ⟨"M".toList, rfl⟩
    · exact ⟨"M|A".toList, rfl⟩
    · exact ⟨"M|A|C".toList, rfl⟩
    · exact ⟨"M|B".toList, rfl⟩
    · exact ⟨"M|B|C".toList, rfl⟩
  have hlen : (entriesEndingIn "C".toList s.mapProfilerGraph).length = 2 := by
    rw [hgraph]
    rfl
  obtain ⟨mc, _, hmc, _⟩ := leaf_entry_aggregates 0 s hr hthread sortKeeps false hperm
    "C".toList (by intro h; rw [h] at hlen; exact absurd hlen (by decide))
  have hmcb : leafMap_bounded sortKeeps false s = some mc := by
    rw [leafMap_bounded_of_fit
      (by
        intro p hp
        rw [hgraph] at hp
        simp only [List.mem_cons, List.mem_singleton, List.not_mem_nil, or_false] at hp
        rcases hp with hp | hp | hp | hp | hp <;> subst hp <;> decide)
      (reachable_ids_fit hr sortKeeps false hperm)
      (by
        intro e he
        rw [hsorted] at he
        simp only [List.mem_cons, List.mem_singleton, List.not_mem_nil, or_false] at he
        rcases he with he | he | he | he | he <;> subst he <;>
          rw [callstackColumns_length_of_small (by norm_num) (by norm_num) (by norm_num)
            (by norm_num) (by norm_num)] <;> decide)]
    exact hmc
  obtain ⟨d, hfind, _, htot, hnb, _⟩ :=
    C25_leaf_entry_aggregates 0 s hr hthread sortKeeps false hperm "C".toList
      (by intro h; rw [h] at hlen; exact absurd hlen (by decide)) mc hmcb
  exact ⟨s, mc, d, hrunb, hlen, hmcb, hfind, htot, hnb⟩

end LibProfiler
